import Mathlib

/-!
Verification development for the PERSONAL-TODO-APP daily-schedule engine.

This file shallowly embeds the engine's source modules in Lean 4:

* `src/utils/time-range.ts`  — the TimeRange codec (marker line `@time H:MM-H:MM`
  embedded in free-text task descriptions);
* `src/hooks/useTasks.ts`    — the routine catalog (`buildRoutineSeeds`), the daily
  schedule reconciler (`applyScheduleAdjustments` with `adjustFoodRange`,
  `findLargestGap`, `mergeOverlaps`), the cascade redistributor (the routine-edit
  re-flow loop of `handleUpdateTask`), and the per-routine migration decision of
  `ensureDefaultRoutines`.

Modelling conventions:

* JavaScript numbers are embedded as `Int`; every quantity the engine manipulates
  (minutes of day, epoch minutes) is integer-valued, and `Math.round`, `Math.floor`,
  `Math.ceil` are the identity on integers, so the `Int` embedding is exact.
* JavaScript `%` is truncated remainder; the idiom `((m % D) + D) % D` is embedded
  with `Int.tmod` exactly as written and proved equal to the Euclidean `m % D`.
* `while (end <= start) end += 1440` loops are embedded by the closed form
  `bumpEnd`, proved to satisfy the loop's defining equation (`bumpEnd_eq_loop`).
* Strings are processed at the `List Char` level; `String.prototype.trim`,
  `toLowerCase`, `split('\n')` and `join('\n')` are embedded by character-level
  functions over the character set the engine actually emits and inspects.
* `Intl.DateTimeFormat(... hour12 ...).format` (an external locale-dependent
  formatter reached through `formatTime` of `src/utils/dates.ts`) is embedded as a
  fixed-locale 12-hour rendering; the engine only ever feeds its output back into
  lines starting with `Time:`, which both the parser and the stripper ignore, so
  only its determinism in (minute-of-day) matters to any theorem below.
* `Map` built by repeated `set` is embedded as an association list where the last
  binding wins; `Set` of strings as a list with `contains`.
-/

namespace TodoApp

/-! ## TimeRange codec — `src/utils/time-range.ts` -/

/-- `MINUTES_IN_DAY = 24 * 60`. -/
def MINUTES_IN_DAY : Int := 24 * 60

/-- `interface TimeRange { startMinutes; endMinutes }`. -/
structure TimeRange where
  startMinutes : Int
  endMinutes : Int
deriving DecidableEq

/-- Closed form of the loop `while (end <= start) end += MINUTES_IN_DAY`:
the least value `end + 1440*k` (k ≥ 0) that exceeds `start`.
`bumpEnd_eq_loop` below proves it satisfies the loop's defining equation. -/
def bumpEnd (start e : Int) : Int :=
  if e ≤ start then e + 1440 * ((start - e) / 1440 + 1) else e

/-- `normalizeRange`: keep `startMinutes`, bump `endMinutes` past it. -/
def normalizeRange (range : TimeRange) : TimeRange :=
  { startMinutes := range.startMinutes
    endMinutes := bumpEnd range.startMinutes range.endMinutes }

/-- The JS idiom `((m % MINUTES_IN_DAY) + MINUTES_IN_DAY) % MINUTES_IN_DAY`
(`%` is JS truncated remainder, i.e. `Int.tmod`). -/
def jsNormMinute (m : Int) : Int :=
  ((m.tmod MINUTES_IN_DAY) + MINUTES_IN_DAY).tmod MINUTES_IN_DAY

/-! Character-level embeddings of the string primitives used by the codec. -/

/-- JS `\s` / `trim` whitespace, restricted to the ASCII whitespace characters. -/
def isJsWhitespace (c : Char) : Bool :=
  c = ' ' || c = '\t' || c = '\n' || c = '\r' || c = '\x0b' || c = '\x0c'

/-- `String.prototype.trim`. -/
def trimChars (l : List Char) : List Char :=
  ((l.dropWhile isJsWhitespace).reverse.dropWhile isJsWhitespace).reverse

/-- `String.prototype.toLowerCase` (ASCII; the codec only lowercases markers). -/
def lowerChars (l : List Char) : List Char := l.map Char.toLower

/-- `text.split('\n')`. -/
def splitNl : List Char → List (List Char)
  | [] => [[]]
  | c :: rest =>
    let r := splitNl rest
    if c = '\n' then [] :: r
    else
      match r with
      | [] => [[c]]
      | h :: t => (c :: h) :: t

/-- `lines.join('\n')`. -/
def intercalateNl : List (List Char) → List Char
  | [] => []
  | [x] => x
  | x :: rest => x ++ '\n' :: intercalateNl rest

/-- `line.startsWith(pre)`. -/
def startsWithChars (pre l : List Char) : Bool := pre.isPrefixOf l

/-- The marker `TIME_META_PREFIX = '@time'` as characters. -/
def timeMetaMarker : List Char := ['@', 't', 'i', 'm', 'e']

/-- `isTimeMetadataLine`: the trimmed, lowercased line starts with `@time` or `time:`. -/
def isTimeMetadataLine (l : List Char) : Bool :=
  startsWithChars timeMetaMarker (lowerChars (trimChars l)) ||
    startsWithChars (['t', 'i', 'm', 'e', ':']) (lowerChars (trimChars l))

/-! Embedding of `TIME_LINE_REGEX = /^@time\s+(\d{1,2}):(\d{2})-(\d{1,2}):(\d{2})$/i`
applied to a whole (trimmed) line, as a character-level matcher.  The regex
backtracking on `\d{1,2}` is resolved by the mandatory following `:`,
so "two digits then `:`, else one digit then `:`" is exact. -/

def digitVal (c : Char) : Nat := c.toNat - 48

/-- `@time` (case-insensitive) at the start of the line. -/
def dropAtTimeMarker : List Char → Option (List Char)
  | '@' :: c1 :: c2 :: c3 :: c4 :: rest =>
    if c1.toLower = 't' && c2.toLower = 'i' && c3.toLower = 'm' && c4.toLower = 'e' then
      some rest
    else none
  | _ => none

/-- `\s+` (greedy; the following character class `\d` is disjoint from `\s`). -/
def dropWsPlus : List Char → Option (List Char)
  | c :: rest => if isJsWhitespace c then some (rest.dropWhile isJsWhitespace) else none
  | [] => none

/-- `(\d{1,2}):` — greedy with backtracking resolved by the `:`. -/
def readHourColon : List Char → Option (Nat × List Char)
  | a :: rest =>
    if a.isDigit then
      match rest with
      | b :: rest2 =>
        if b.isDigit then
          match rest2 with
          | c :: rest3 => if c = ':' then some (10 * digitVal a + digitVal b, rest3) else none
          | [] => none
        else if b = ':' then some (digitVal a, rest2) else none
      | [] => none
    else none
  | [] => none

/-- `(\d{2})`. -/
def readTwoDigits : List Char → Option (Nat × List Char)
  | a :: b :: rest =>
    if a.isDigit && b.isDigit then some (10 * digitVal a + digitVal b, rest) else none
  | _ => none

/-- Full match of `TIME_LINE_REGEX` against an entire line; returns the four
captured numbers `(h1, m1, h2, m2)`. -/
def matchTimeLine (line : List Char) : Option (Nat × Nat × Nat × Nat) := do
  let r0 ← dropAtTimeMarker line
  let r1 ← dropWsPlus r0
  let (h1, r2) ← readHourColon r1
  let (m1, r3) ← readTwoDigits r2
  let r4 ← (match r3 with | '-' :: rest => some rest | _ => none)
  let (h2, r5) ← readHourColon r4
  let (m2, r6) ← readTwoDigits r5
  if r6 = [] then some (h1, m1, h2, m2) else none

/-- The line scan of `parseTimeRange`: skip lines whose trimmed form does not
start with `@time` (lowercased), skip marker-looking lines that fail the regex,
decode the first full match, bumping `end` past `start` by whole days. -/
def parseLines : List (List Char) → Option TimeRange
  | [] => none
  | rawLine :: rest =>
    let line := trimChars rawLine
    if startsWithChars timeMetaMarker (lowerChars line) then
      match matchTimeLine line with
      | some (h1, m1, h2, m2) =>
        let startMinutes : Int := (h1 : Int) * 60 + (m1 : Int)
        some { startMinutes := startMinutes
               endMinutes := bumpEnd startMinutes ((h2 : Int) * 60 + (m2 : Int)) }
      | none => parseLines rest
    else parseLines rest

/-- `parseTimeRange(description)`; `null` and `''` are both falsy in the source's
`if (!description) return null`. -/
def parseTimeRange (description : Option String) : Option TimeRange :=
  match description with
  | none => none
  | some s => if s.data = [] then none else parseLines (splitNl s.data)

/-- The line pipeline shared by `stripTimeMetadata` and `injectTimeMetadata`:
split, trim each line, keep non-empty non-metadata lines. -/
def cleanLines (cs : List Char) : List (List Char) :=
  ((splitNl cs).map trimChars).filter (fun l => !l.isEmpty && !isTimeMetadataLine l)

/-- `stripTimeMetadata(description)`. -/
def stripTimeMetadata (description : Option String) : String :=
  match description with
  | none => ""
  | some s => String.mk (intercalateNl (cleanLines s.data))

/-- Two-digit zero-padded decimal rendering; for `n ≤ 99` this equals the
source's `n.toString().padStart(2, '0')` (the codec only feeds it 0..59 / 0..23). -/
def pad2 (n : Nat) : List Char := [Char.ofNat (48 + n / 10), Char.ofNat (48 + n % 10)]

/-- `minutesToTimeKey(minutes)` = `HH:MM` of the normalized minute of day. -/
def minutesToTimeKey (minutes : Int) : List Char :=
  let normalized := jsNormMinute minutes
  pad2 (normalized / 60).toNat ++ ':' :: pad2 (normalized % 60).toNat

/-- Unpadded decimal rendering of a 12-hour clock hour (1..12). -/
def hour12Chars (h : Nat) : List Char :=
  if h < 10 then [Char.ofNat (48 + h)] else '1' :: [Char.ofNat (48 + h - 10)]

/-- Model of `formatTime` (`src/utils/dates.ts`): the external
`Intl.DateTimeFormat(undefined, {hour:'numeric', minute:'numeric', hour12:true})`
applied to a date whose time of day is `minutes`, rendered in a fixed locale as
`h:MM AM`/`h:MM PM`.  Only its determinism in the minute of day, the absence of
`'\n'`, and a non-whitespace final character matter to the theorems below. -/
def formatTime12 (minutes : Int) : List Char :=
  let normalized := jsNormMinute minutes
  let h24 := (normalized / 60).toNat
  let h12 := if h24 % 12 = 0 then 12 else h24 % 12
  hour12Chars h12 ++ ':' :: pad2 (normalized % 60).toNat ++
    (if normalized < 720 then [' ', 'A', 'M'] else [' ', 'P', 'M'])

/-- `timeRangeToFriendly(range)` = `formatTime(start) – formatTime(end)`
(the separator is the source's en dash). -/
def timeRangeToFriendly (range : TimeRange) : List Char :=
  let normalized := normalizeRange range
  formatTime12 normalized.startMinutes ++ (' ' :: '–' :: ' ' :: []) ++
    formatTime12 normalized.endMinutes

/-- The marker line written by `injectTimeMetadata`:
`` `${TIME_META_PREFIX} ${minutesToTimeKey(start)}-${minutesToTimeKey(end)}` ``. -/
def metaLineChars (s e : Int) : List Char :=
  timeMetaMarker ++ ' ' :: minutesToTimeKey s ++ '-' :: minutesToTimeKey e

/-- The human-readable line written by `injectTimeMetadata`:
`` `Time: ${timeRangeToFriendly(normalized)}` ``. -/
def friendlyLineChars (range : TimeRange) : List Char :=
  ('T' :: 'i' :: 'm' :: 'e' :: ':' :: ' ' :: []) ++ timeRangeToFriendly range

/-- `injectTimeMetadata(content, range)`. -/
def injectTimeMetadata (content : Option String) (range : TimeRange) : String :=
  let baseLines := cleanLines (content.getD "").data
  let normalized := normalizeRange range
  let metaLine := metaLineChars normalized.startMinutes normalized.endMinutes
  let friendlyLine := friendlyLineChars normalized
  String.mk (intercalateNl (baseLines ++ [metaLine, friendlyLine]))

/-- `rangesOverlap` (half-open overlap test on normalized ranges). -/
def rangesOverlap (a b : TimeRange) : Bool :=
  let rangeA := normalizeRange a
  let rangeB := normalizeRange b
  decide (rangeA.startMinutes < rangeB.endMinutes) &&
    decide (rangeB.startMinutes < rangeA.endMinutes)

/-- `clampRangeToBounds` (intersection with `bounds`, `null` if empty). -/
def clampRangeToBounds (range bounds : TimeRange) : Option TimeRange :=
  let normalizedRange := normalizeRange range
  let normalizedBounds := normalizeRange bounds
  let start := max normalizedRange.startMinutes normalizedBounds.startMinutes
  let e := min normalizedRange.endMinutes normalizedBounds.endMinutes
  if e ≤ start then none else some { startMinutes := start, endMinutes := e }

/-- `rangeDuration`. -/
def rangeDuration (range : TimeRange) : Int :=
  (normalizeRange range).endMinutes - (normalizeRange range).startMinutes

/-! ## Routine catalog — `src/hooks/useTasks.ts` -/

/-- `title.toLowerCase()`. -/
def toLowerString (s : String) : String := String.mk (lowerChars s.data)

def WAKE_START : Int := 4 * 60
def WAKE_END : Int := 5 * 60
def SLEEP_START : Int := 22 * 60
def MIN_MEAL_DURATION : Int := 60
def EARLIEST_BREAKFAST : Int := WAKE_END
def LATEST_BREAKFAST : Int := 11 * 60
def LATEST_LUNCH : Int := 17 * 60
def LATEST_DINNER : Int := SLEEP_START - MIN_MEAL_DURATION

/-- The `ROUTINE_TITLES` record, one definition per field. -/
def titleWake : String := "Wake up and personal duties"

def titleWorkEarly : String := "Schedule any work (early)"

def titleBreakfast : String := "Breakfast"

def titleWorkLateMorning : String := "Schedule any work (late morning)"

def titleLunch : String := "Lunch"

def titleWorkAfternoon : String := "Schedule any work (afternoon)"

def titleDinner : String := "Dinner"

def titleWorkEvening : String := "Schedule any work (evening)"

def titleSleep : String := "Sleep"

/-- `FLEXIBLE_ROUTINE_TITLES` (a `Set` of lowercased titles, embedded as a list). -/
def FLEXIBLE_ROUTINE_TITLES : List String :=
  [titleWorkEarly, titleWorkLateMorning, titleWorkAfternoon, titleWorkEvening].map toLowerString

/-- `FOOD_ROUTINE_TITLES`. -/
def FOOD_ROUTINE_TITLES : List String :=
  [titleBreakfast, titleLunch, titleDinner].map toLowerString

/-- `ANCHOR_ROUTINE_TITLES = FOOD_ROUTINE_TITLES ∪ {sleep}`. -/
def ANCHOR_ROUTINE_TITLES : List String :=
  FOOD_ROUTINE_TITLES ++ [toLowerString titleSleep]

def MIN_ROUTINE_MINUTES : Int := 2

/-- `interface MealPreferences` (`src/storage/meal-preferences.ts`). -/
structure MealPreferences where
  breakfastStart : Int
  lunchStart : Int
  dinnerStart : Int
deriving DecidableEq

def DEFAULT_MEAL_PREFERENCES : MealPreferences :=
  { breakfastStart := 8 * 60, lunchStart := 14 * 60, dinnerStart := 20 * 60 }

/-- `clamp(value, min, max) = Math.min(Math.max(value, min), max)`. -/
def clamp (value lo hi : Int) : Int := min (max value lo) hi

/-- `normalizeMealPreferences`. -/
def normalizeMealPreferences (prefs : MealPreferences) : MealPreferences :=
  let breakfast := clamp prefs.breakfastStart EARLIEST_BREAKFAST LATEST_BREAKFAST
  let lunch := clamp prefs.lunchStart (breakfast + MIN_MEAL_DURATION) LATEST_LUNCH
  let dinner := clamp prefs.dinnerStart (lunch + MIN_MEAL_DURATION) LATEST_DINNER
  { breakfastStart := breakfast, lunchStart := lunch, dinnerStart := dinner }

/-- The `{hour, minute}` pair returned by `minutesToHourMinute`. -/
structure HourMinute where
  hour : Int
  minute : Int
deriving DecidableEq

/-- `minutesToHourMinute`. -/
def minutesToHourMinute (minutes : Int) : HourMinute :=
  let normalized := jsNormMinute minutes
  { hour := normalized / 60, minute := normalized % 60 }

/-- `interface DefaultRoutineSeed`. -/
structure DefaultRoutineSeed where
  title : String
  summary : String
  startHour : Int
  startMinute : Int
  endHour : Int
  endMinute : Int
  reminder : Option HourMinute := none
  isFlexible : Bool := false
deriving DecidableEq

/-- `buildRoutineSeeds(prefs)`: the nine canonical routine seeds. -/
def buildRoutineSeeds (prefs : MealPreferences) : List DefaultRoutineSeed :=
  let normalized := normalizeMealPreferences prefs
  let breakfastStart := normalized.breakfastStart
  let breakfastEnd := breakfastStart + MIN_MEAL_DURATION
  let lunchStart := max normalized.lunchStart (breakfastEnd + MIN_MEAL_DURATION)
  let lunchEnd := lunchStart + MIN_MEAL_DURATION
  let dinnerStart := max normalized.dinnerStart (lunchEnd + MIN_MEAL_DURATION)
  let dinnerEnd := dinnerStart + MIN_MEAL_DURATION
  let earlyWork : Int × Int := (WAKE_END, breakfastStart)
  let lateMorningWork : Int × Int := (breakfastEnd, lunchStart)
  let afternoonWork : Int × Int := (lunchEnd, dinnerStart)
  let eveningWorkStart := min dinnerEnd SLEEP_START
  let eveningWork : Int × Int := (eveningWorkStart, SLEEP_START)
  [ { title := titleWake
      summary := "Ease into the day with stretching or reflection."
      startHour := (minutesToHourMinute WAKE_START).hour
      startMinute := (minutesToHourMinute WAKE_START).minute
      endHour := (minutesToHourMinute WAKE_END).hour
      endMinute := (minutesToHourMinute WAKE_END).minute },
    { title := titleWorkEarly
      summary := "Tackle deep work before breakfast."
      startHour := (minutesToHourMinute earlyWork.1).hour
      startMinute := (minutesToHourMinute earlyWork.1).minute
      endHour := (minutesToHourMinute earlyWork.2).hour
      endMinute := (minutesToHourMinute earlyWork.2).minute
      isFlexible := true },
    { title := titleBreakfast
      summary := "Fuel up for the morning ahead."
      startHour := (minutesToHourMinute breakfastStart).hour
      startMinute := (minutesToHourMinute breakfastStart).minute
      endHour := (minutesToHourMinute breakfastEnd).hour
      endMinute := (minutesToHourMinute breakfastEnd).minute
      reminder := some (minutesToHourMinute breakfastStart) },
    { title := titleWorkLateMorning
      summary := "Meetings, planning, and momentum building."
      startHour := (minutesToHourMinute lateMorningWork.1).hour
      startMinute := (minutesToHourMinute lateMorningWork.1).minute
      endHour := (minutesToHourMinute lateMorningWork.2).hour
      endMinute := (minutesToHourMinute lateMorningWork.2).minute
      isFlexible := true },
    { title := titleLunch
      summary := "Pause, refuel, and reset for the afternoon."
      startHour := (minutesToHourMinute lunchStart).hour
      startMinute := (minutesToHourMinute lunchStart).minute
      endHour := (minutesToHourMinute lunchEnd).hour
      endMinute := (minutesToHourMinute lunchEnd).minute
      reminder := some (minutesToHourMinute lunchStart) },
    { title := titleWorkAfternoon
      summary := "Focus on execution and collaborative work."
      startHour := (minutesToHourMinute afternoonWork.1).hour
      startMinute := (minutesToHourMinute afternoonWork.1).minute
      endHour := (minutesToHourMinute afternoonWork.2).hour
      endMinute := (minutesToHourMinute afternoonWork.2).minute
      isFlexible := true },
    { title := titleDinner
      summary := "Close the day with a nourishing meal."
      startHour := (minutesToHourMinute dinnerStart).hour
      startMinute := (minutesToHourMinute dinnerStart).minute
      endHour := (minutesToHourMinute dinnerEnd).hour
      endMinute := (minutesToHourMinute dinnerEnd).minute
      reminder := some (minutesToHourMinute dinnerStart) },
    { title := titleWorkEvening
      summary := "Tie up loose ends or pursue a side project."
      startHour := (minutesToHourMinute eveningWork.1).hour
      startMinute := (minutesToHourMinute eveningWork.1).minute
      endHour := (minutesToHourMinute eveningWork.2).hour
      endMinute := (minutesToHourMinute eveningWork.2).minute
      isFlexible := true },
    { title := titleSleep
      summary := "Rest well to prepare for tomorrow."
      startHour := (minutesToHourMinute SLEEP_START).hour
      startMinute := (minutesToHourMinute SLEEP_START).minute
      endHour := (minutesToHourMinute WAKE_START).hour
      endMinute := (minutesToHourMinute WAKE_START).minute
      reminder := some (minutesToHourMinute SLEEP_START) } ]

/-- `seedToRange(seed)`. -/
def seedToRange (seed : DefaultRoutineSeed) : TimeRange :=
  normalizeRange
    { startMinutes := seed.startHour * 60 + seed.startMinute
      endMinutes := seed.endHour * 60 + seed.endMinute }

/-- `buildRoutineDescription(seed)`. -/
def buildRoutineDescription (seed : DefaultRoutineSeed) : String :=
  injectTimeMetadata (some seed.summary) (seedToRange seed)

/-! ## Task records and day ranges

Timestamps (`due_at`, `created_at`, the selected date) are embedded as epoch
minutes (`Int`); `startOfDay` truncates to the containing day. -/

/-- The persisted `Task` entity (`src/types/task.ts`), with timestamps in epoch
minutes and `reminder_at` kept as its raw ISO string (only compared, never
interpreted, by the logic embedded here). -/
structure Task where
  id : String
  title : String
  description : Option String
  due_at : Option Int
  reminder_at : Option String := none
  is_completed : Bool := false
  created_at : Int := 0
deriving DecidableEq

/-- `isRoutineTask(task) = !task.due_at`. -/
def isRoutineTask (task : Task) : Bool := task.due_at.isNone

/-- `startOfDay(date)` (model: truncate epoch minutes to the containing day). -/
def startOfDay (date : Int) : Int := 1440 * (date / 1440)

/-- `getRangeForDate(value)`: the half-open day `[start, start + 1 day)`. -/
structure DayRange where
  start : Int
  stop : Int
deriving DecidableEq

def getRangeForDate (value : Int) : DayRange :=
  { start := startOfDay value, stop := startOfDay value + 1440 }

/-- `isTaskWithinRange(task, range)`. -/
def isTaskWithinRange (task : Task) (range : DayRange) : Bool :=
  match task.due_at with
  | none => true
  | some dueDate => decide (range.start ≤ dueDate) && decide (dueDate < range.stop)

/-- `sanitizeDescription`. -/
def sanitizeDescription (description : Option String) : String :=
  stripTimeMetadata description

/-- `withTimeRange(task, range)`. -/
def withTimeRange (task : Task) (range : TimeRange) : Task :=
  { task with
    description := some (injectTimeMetadata (some (sanitizeDescription task.description)) range) }

/-! ## Schedule reconciler — `applyScheduleAdjustments` and helpers -/

/-- `toBlockingRange`. -/
def toBlockingRange (range : TimeRange) : TimeRange := normalizeRange range

/-- The in-place merge loop of `mergeOverlaps`: `current` is the last merged
segment, still open for extension. -/
def mergeLoop : TimeRange → List TimeRange → List TimeRange
  | current, [] => [current]
  | current, next :: rest =>
    if next.startMinutes ≤ current.endMinutes then
      mergeLoop { startMinutes := current.startMinutes
                  endMinutes := max current.endMinutes next.endMinutes } rest
    else current :: mergeLoop next rest

/-- `mergeOverlaps(segments)`: normalize, sort by start (the source uses the
stable `Array.prototype.sort` with comparator `a.start - b.start`; a stable
insertion sort produces the identical list), then merge touching segments. -/
def mergeOverlaps (segments : List TimeRange) : List TimeRange :=
  match (segments.map normalizeRange).insertionSort
      (fun a b => a.startMinutes ≤ b.startMinutes) with
  | [] => []
  | s :: rest => mergeLoop s rest

/-- `if (!best || rangeDuration(candidate) > rangeDuration(best)) best = candidate`. -/
def considerCandidate (best : Option TimeRange) (candidate : TimeRange) : Option TimeRange :=
  match best with
  | none => some candidate
  | some b => if rangeDuration candidate > rangeDuration b then some candidate else some b

/-- The cursor scan of `findLargestGap` over the merged blocks, including the
tail gap `[cursor, hi)` after the last block. -/
def scanGaps (hi : Int) : List TimeRange → Int → Option TimeRange → Option TimeRange
  | [], cursor, best =>
    if cursor < hi then considerCandidate best { startMinutes := cursor, endMinutes := hi }
    else best
  | block :: rest, cursor, best =>
    let best' :=
      if cursor < block.startMinutes then
        considerCandidate best { startMinutes := cursor, endMinutes := block.startMinutes }
      else best
    scanGaps hi rest (max cursor block.endMinutes) best'

/-- `findLargestGap(bounds, blockers)`. -/
def findLargestGap (bounds : TimeRange) (blockers : List TimeRange) : Option TimeRange :=
  let normalizedBounds := normalizeRange bounds
  let relevantBlocks :=
    mergeOverlaps (blockers.filterMap (fun block => clampRangeToBounds block normalizedBounds))
  scanGaps normalizedBounds.endMinutes relevantBlocks normalizedBounds.startMinutes none

/-- `adjustFlexibleRange(seedRange, blockers)`. -/
def adjustFlexibleRange (seedRange : TimeRange) (blockers : List TimeRange) : Option TimeRange :=
  findLargestGap seedRange blockers

/-- `adjustFoodRange(seedRange, blockers)`; `Math.max(...ends)` over the
non-empty list of overlapping blockers is a left fold of `max`. -/
def adjustFoodRange (seedRange : TimeRange) (blockers : List TimeRange) : TimeRange :=
  let normalizedSeed := normalizeRange seedRange
  let duration := rangeDuration normalizedSeed
  let overlapping := blockers.filter (fun block => rangesOverlap block normalizedSeed)
  match overlapping with
  | [] => normalizedSeed
  | b :: bs =>
    let latestEnd :=
      (bs.map (fun block => (normalizeRange block).endMinutes)).foldl max
        ((normalizeRange b).endMinutes)
    let start0 := max normalizedSeed.startMinutes latestEnd
    let start :=
      if start0 + duration > MINUTES_IN_DAY then MINUTES_IN_DAY - duration else start0
    { startMinutes := start, endMinutes := start + duration }

/-- `routineByTitle` (a `Map` filled by iteration: the last routine with a given
lowercased title wins). -/
def lookupRoutineByTitle (routineTasks : List Task) (key : String) : Option Task :=
  routineTasks.foldl (fun acc task => if toLowerString task.title = key then some task else acc)
    none

/-- `updates.get(id)` for the `Map` filled by `updates.set` (last binding wins). -/
def getUpdate (updates : List (String × Task)) (id : String) : Option Task :=
  updates.foldl (fun acc p => if p.1 = id then some p.2 else acc) none

/-- The mutable state of one `applyScheduleAdjustments` pass. -/
structure AdjState where
  blocking : List TimeRange
  updates : List (String × Task)
  removed : List String

/-- The body of the `for (const seed of seeds)` loop of `applyScheduleAdjustments`. -/
def adjStep (routineByTitle : String → Option Task) (rangeMap : String → Option TimeRange)
    (flexibleTitles foodTitles : List String) (st : AdjState) (seed : DefaultRoutineSeed) :
    AdjState :=
  let key := toLowerString seed.title
  match routineByTitle key with
  | none => st
  | some routineTask =>
    let seedRange := (rangeMap key).getD (seedToRange seed)
    match parseTimeRange routineTask.description with
    | some existingRange =>
      let normalizedBaseRange := normalizeRange existingRange
      { st with
        blocking := st.blocking ++ [toBlockingRange normalizedBaseRange]
        updates := st.updates ++ [(routineTask.id, withTimeRange routineTask normalizedBaseRange)] }
    | none =>
      if foodTitles.contains key then
        let range := adjustFoodRange seedRange st.blocking
        { st with
          blocking := st.blocking ++ [toBlockingRange range]
          updates := st.updates ++ [(routineTask.id, withTimeRange routineTask range)] }
      else if flexibleTitles.contains key then
        match adjustFlexibleRange seedRange st.blocking with
        | none => { st with removed := st.removed ++ [routineTask.id] }
        | some gap =>
          { st with
            blocking := st.blocking ++ [toBlockingRange gap]
            updates := st.updates ++ [(routineTask.id, withTimeRange routineTask gap)] }
      else
        { st with
          blocking := st.blocking ++ [toBlockingRange seedRange]
          updates := st.updates ++ [(routineTask.id, withTimeRange routineTask seedRange)] }

/-- The mutable state (`blocking`/`updates`/`removed`) at the end of the
`for (const seed of seeds)` loop of `applyScheduleAdjustments`. -/
def applySAFinalState (tasks : List Task) (selectedDate : Int)
    (seeds : List DefaultRoutineSeed) (rangeMap : String → Option TimeRange)
    (flexibleTitles foodTitles : List String) : AdjState :=
  let routineTasks := tasks.filter (fun task => task.due_at.isNone)
  let routineByTitle := lookupRoutineByTitle routineTasks
  let dayRange := getRangeForDate selectedDate
  let blocking0 :=
    ((tasks.filter (fun task => task.due_at.isSome && isTaskWithinRange task dayRange)).filterMap
        (fun task => parseTimeRange task.description)).map normalizeRange
  seeds.foldl (adjStep routineByTitle rangeMap flexibleTitles foodTitles)
    { blocking := blocking0, updates := [], removed := [] }

/-- `applyScheduleAdjustments(tasks, selectedDate, seeds, rangeMap, flexibleTitles,
foodTitles, allowedTitles)`. -/
def applyScheduleAdjustments (tasks : List Task) (selectedDate : Int)
    (seeds : List DefaultRoutineSeed) (rangeMap : String → Option TimeRange)
    (flexibleTitles foodTitles allowedTitles : List String) : List Task :=
  let finalState :=
    applySAFinalState tasks selectedDate seeds rangeMap flexibleTitles foodTitles
  (tasks.filter (fun task =>
      match task.due_at with
      | none =>
        allowedTitles.contains (toLowerString task.title) &&
          !(finalState.removed.contains task.id)
      | some _ => true)).map
    (fun task =>
      match task.due_at with
      | none => (getUpdate finalState.updates task.id).getD task
      | some _ => task)

/-- `routineRangeMap` (`useMemo` in `useTasks`): lowercased title ↦ seed range,
a `Map` filled by `forEach`/`set` (last binding wins). -/
def routineRangeMapOf (seeds : List DefaultRoutineSeed) : String → Option TimeRange :=
  fun key =>
    seeds.foldl
      (fun acc seed => if toLowerString seed.title = key then some (seedToRange seed) else acc)
      none

/-- `allowedRoutineTitles`: the lowercased catalog titles. -/
def allowedRoutineTitlesOf (seeds : List DefaultRoutineSeed) : List String :=
  seeds.map (fun seed => toLowerString seed.title)

/-- The Reconciler as configured by `adjustForSelectedDate` (minus the final
display sort, which neither drops entries nor rewrites descriptions): the
catalog seeds of the user's preferences, the derived range map, and the constant
title sets. -/
def reconcile (prefs : MealPreferences) (tasks : List Task) (selectedDate : Int) : List Task :=
  let seeds := buildRoutineSeeds prefs
  applyScheduleAdjustments tasks selectedDate seeds (routineRangeMapOf seeds)
    FLEXIBLE_ROUTINE_TITLES FOOD_ROUTINE_TITLES (allowedRoutineTitlesOf seeds)

/-! ## Cascade redistributor — the routine-edit re-flow loop of `handleUpdateTask`

The pure window computation of `useTasks.ts` lines 1069–1121: given the edited
routine's new end, the boundary anchor's start, and the current (normalized)
windows of the flexible routines strictly between them, produce the windows the
cascade writes back.  All windows are integer-valued, so the source's
`Math.round`/`Math.floor`/`Math.ceil` are the identity. -/

/-- The duration allocated to the current target of the cascade loop body
(`originalDuration` / `maxForCurrent` / `minAllowable` block of lines 1076–1099). -/
def cascadeAllocated (boundaryStart cursor : Int) (target : TimeRange) (remaining : Int) :
    Int :=
  let availableNow := boundaryStart - cursor
  let originalDuration := max MIN_ROUTINE_MINUTES (target.endMinutes - target.startMinutes)
  let minRequiredForRest := MIN_ROUTINE_MINUTES * remaining
  let maxForCurrent0 :=
    if remaining > 0 then max MIN_ROUTINE_MINUTES (availableNow - minRequiredForRest)
    else availableNow
  let maxForCurrent := min maxForCurrent0 availableNow
  let allocated0 := min originalDuration maxForCurrent
  let minAllowable := min MIN_ROUTINE_MINUTES availableNow
  if allocated0 < minAllowable then minAllowable else allocated0

/-- The allocation walk (`for (let idx = 0; ...)` with its `break`). -/
def cascadeLoop (boundaryStart : Int) : Int → List TimeRange → List TimeRange
  | _, [] => []
  | cursor, target :: rest =>
    if boundaryStart - cursor ≤ 0 then []
    else
      let endMinutes :=
        min (cursor + cascadeAllocated boundaryStart cursor target rest.length) boundaryStart
      { startMinutes := cursor, endMinutes := endMinutes } ::
        cascadeLoop boundaryStart endMinutes rest

/-- `if (lastAdjustment.range.endMinutes < boundaryStart) lastAdjustment.range.endMinutes = boundaryStart`. -/
def pinLast (boundaryStart : Int) : List TimeRange → List TimeRange
  | [] => []
  | [r] =>
    [if r.endMinutes < boundaryStart then
       { startMinutes := r.startMinutes, endMinutes := boundaryStart }
     else r]
  | r :: rest => r :: pinLast boundaryStart rest

/-- The full cascade window computation: cursor starts at
`min(editedRoutine.newEnd, boundary.start)`; the last produced window is pinned
to the boundary's start. -/
def cascadeAdjustments (sourceEnd boundaryStart : Int) (targets : List TimeRange) :
    List TimeRange :=
  pinLast boundaryStart (cascadeLoop boundaryStart (min sourceEnd boundaryStart) targets)

/-! ## Migration decision — the per-seed update logic of `ensureDefaultRoutines`

The pure decision of `useTasks.ts` lines 752–786 for an *existing* routine: which
fields (description, reminder) to send to the store.  The wall-clock-dependent
comparison `isSameMinute(currentReminderIso, desiredReminderIso)` is abstracted
as the boolean argument `remindersSameMinute`; the desired reminder timestamp as
the opaque `desiredReminderIso`. -/

/-- The update record assembled by the migration loop: `none` = field untouched
(`reminderUpdate = some none` is the explicit `reminder_at: null`). -/
structure RoutineUpdates where
  descriptionUpdate : Option String := none
  reminderUpdate : Option (Option String) := none
  needsUpdate : Bool := false
deriving DecidableEq

/-- `hasCustomRange`: the routine's parsed range differs from the freshly
computed seed range (both must parse). -/
def hasCustomRangeB (current : Task) (seed : DefaultRoutineSeed) : Bool :=
  match parseTimeRange (some (current.description.getD "")),
      parseTimeRange (some (buildRoutineDescription seed)) with
  | some currentRange, some seedRange =>
    decide (currentRange.startMinutes ≠ seedRange.startMinutes) ||
      decide (currentRange.endMinutes ≠ seedRange.endMinutes)
  | _, _ => false

/-- The migration update decision for an existing routine. -/
def migrationStep (current : Task) (seed : DefaultRoutineSeed)
    (desiredReminderIso : Option String) (remindersSameMinute : Bool) : RoutineUpdates :=
  let description := buildRoutineDescription seed
  let sanitizedCurrent := sanitizeDescription (some (current.description.getD ""))
  let sanitizedSeed := sanitizeDescription (some description)
  let currentRange := parseTimeRange (some (current.description.getD ""))
  let hasCustomRange := hasCustomRangeB current seed
  let afterDescription : RoutineUpdates :=
    if !hasCustomRange && sanitizedCurrent = sanitizedSeed && currentRange = none then
      if current.description.getD "" ≠ description then
        { descriptionUpdate := some description, needsUpdate := true }
      else {}
    else {}
  let currentReminderIso := current.reminder_at
  if !hasCustomRange then
    match seed.reminder with
    | some _ =>
      if !remindersSameMinute then
        { afterDescription with reminderUpdate := some desiredReminderIso, needsUpdate := true }
      else afterDescription
    | none =>
      match currentReminderIso with
      | some _ => { afterDescription with reminderUpdate := some none, needsUpdate := true }
      | none => afterDescription
  else afterDescription

/-! ## Derived quantities used by the statements below -/

/-- The range that `parseTimeRange` recovers from a description produced by
`injectTimeMetadata` for `range`: the codec writes both endpoints reduced modulo
a day and the parser bumps the end past the start again. -/
def roundTripRange (range : TimeRange) : TimeRange :=
  let normalized := normalizeRange range
  let a := jsNormMinute normalized.startMinutes
  { startMinutes := a, endMinutes := bumpEnd a (jsNormMinute normalized.endMinutes) }

/-! Concrete records used by the example-level statements. -/

/-- A fixed task occupying 08:00–08:45 on day 0. -/
def exampleFixed0800 : Task :=
  { id := "fixed-1", title := "Doctor appointment"
    description := some "@time 8:00-8:45", due_at := some 600 }

/-- A breakfast routine with no embedded time. -/
def exampleBreakfastRoutine : Task :=
  { id := "routine-breakfast", title := "Breakfast", description := none, due_at := none }

/-- Fixed tasks at 09:00–10:00 and 12:00–12:30 on day 0. -/
def exampleFixed0900 : Task :=
  { id := "fixed-2", title := "Standup"
    description := some "@time 9:00-10:00", due_at := some 30 }

def exampleFixed1200 : Task :=
  { id := "fixed-3", title := "Sync"
    description := some "@time 12:00-12:30", due_at := some 40 }

/-- A late-morning work routine (catalog seed window 09:00–14:00 under the
default meal preferences) with no embedded time. -/
def exampleWorkRoutine : Task :=
  { id := "routine-work", title := "Schedule any work (late morning)"
    description := none, due_at := none }

/-- Two overlapping fixed tasks, both at 08:00–09:00 on day 0. -/
def exampleOverlapA : Task :=
  { id := "overlap-a", title := "Call", description := some "@time 8:00-9:00", due_at := some 15 }

def exampleOverlapB : Task :=
  { id := "overlap-b", title := "Review", description := some "@time 8:00-9:00", due_at := some 25 }

/-- A fixed task covering the whole early-work seed window 05:00–08:00. -/
def exampleFixedCover : Task :=
  { id := "fixed-cover", title := "Travel"
    description := some "@time 5:00-8:00", due_at := some 10 }

/-- Two routines sharing the early-work title (a duplicate-titled task list). -/
def exampleDupEarlyA : Task :=
  { id := "dup-a", title := "Schedule any work (early)", description := none, due_at := none }

def exampleDupEarlyB : Task :=
  { id := "dup-b", title := "Schedule any work (early)", description := none, due_at := none }

/-- A breakfast routine the user moved to 10:00–10:30 via an embedded marker. -/
def exampleCustomBreakfast : Task :=
  { id := "routine-custom-bf", title := "Breakfast"
    description := some "@time 10:00-10:30", due_at := none }

/-- A routine with a user-chosen, non-catalog title carrying a parseable
09:00–10:00 marker. -/
def exampleCustomTitled : Task :=
  { id := "routine-custom-titled", title := "My errands"
    description := some "@time 9:00-10:00", due_at := none }

end TodoApp

namespace TodoApp

/-! # Theorems

## Arithmetic groundwork: the while loop `bumpEnd` and the JS modulo idiom -/

/-- `bumpEnd` satisfies the defining equation of the source's
`while (end <= start) end += MINUTES_IN_DAY` loop. -/
theorem bumpEnd_eq_loop (start e : Int) :
    bumpEnd start e = if e ≤ start then bumpEnd start (e + 1440) else e := by
  unfold bumpEnd
  rcases le_or_lt e start with h | h
  · rcases le_or_lt (e + 1440) start with h2 | h2
    · simp only [if_pos h, if_pos h2]
      omega
    · simp only [if_pos h, if_neg (not_le.mpr h2)]
      omega
  · simp [not_le.mpr h]

theorem lt_bumpEnd (start e : Int) : start < bumpEnd start e := by
  unfold bumpEnd
  rcases le_or_lt e start with h | h
  · simp only [if_pos h]
    omega
  · simp [not_le.mpr h, h]

theorem bumpEnd_of_lt {start e : Int} (h : start < e) : bumpEnd start e = e := by
  simp [bumpEnd, not_le.mpr h]

theorem bumpEnd_le (start e : Int) (h : e ≤ start) : bumpEnd start e ≤ start + 1440 := by
  unfold bumpEnd
  simp only [if_pos h]
  omega

theorem bumpEnd_emod (start e : Int) : bumpEnd start e % 1440 = e % 1440 := by
  unfold bumpEnd
  rcases le_or_lt e start with h | h
  · simp only [if_pos h]
    omega
  · simp [not_le.mpr h]

theorem normalizeRange_of_lt {r : TimeRange} (h : r.startMinutes < r.endMinutes) :
    normalizeRange r = r := by
  simp [normalizeRange, bumpEnd_of_lt h]

theorem normalizeRange_idem (r : TimeRange) :
    normalizeRange (normalizeRange r) = normalizeRange r :=
  normalizeRange_of_lt (lt_bumpEnd _ _)

theorem normalizeRange_startMinutes (r : TimeRange) :
    (normalizeRange r).startMinutes = r.startMinutes := rfl

theorem lt_normalizeRange_endMinutes (r : TimeRange) :
    (normalizeRange r).startMinutes < (normalizeRange r).endMinutes :=
  lt_bumpEnd _ _

theorem tmod_1440_bounds (m : Int) : -1440 < m.tmod 1440 ∧ m.tmod 1440 < 1440 := by
  constructor
  · rcases le_or_lt 0 m with h | h
    · have := Int.tmod_nonneg 1440 h
      omega
    · have hd : m.tmod 1440 = m - 1440 * m.tdiv 1440 := Int.tmod_def m 1440
      have hneg : (-m).tmod 1440 = -m - 1440 * (-m).tdiv 1440 := Int.tmod_def (-m) 1440
      rw [Int.neg_tdiv] at hneg
      have h1 : (-m).tmod 1440 < 1440 := Int.tmod_lt_of_pos (-m) (by norm_num)
      omega
  · exact Int.tmod_lt_of_pos m (by norm_num)

/-- The JS double-`%` idiom computes the canonical non-negative residue. -/
theorem jsNormMinute_eq_emod (m : Int) : jsNormMinute m = m % 1440 := by
  unfold jsNormMinute MINUTES_IN_DAY
  have hb := tmod_1440_bounds m
  have hnn : 0 ≤ m.tmod 1440 + 1440 := by omega
  rw [show ((24 : Int) * 60) = 1440 by norm_num] at *
  rw [Int.tmod_eq_emod hnn (by norm_num : (0:Int) ≤ 1440)]
  have hd : m.tmod 1440 = m - 1440 * m.tdiv 1440 := Int.tmod_def m 1440
  rw [hd]
  omega

theorem jsNormMinute_bounds (m : Int) : 0 ≤ jsNormMinute m ∧ jsNormMinute m < 1440 := by
  rw [jsNormMinute_eq_emod]
  constructor
  · exact Int.emod_nonneg m (by norm_num)
  · exact Int.emod_lt_of_pos m (by norm_num)

theorem jsNormMinute_of_bounds {m : Int} (h0 : 0 ≤ m) (h1 : m < 1440) :
    jsNormMinute m = m := by
  rw [jsNormMinute_eq_emod]
  exact Int.emod_eq_of_lt h0 h1

theorem jsNormMinute_congr {a b : Int} (h : a % 1440 = b % 1440) :
    jsNormMinute a = jsNormMinute b := by
  rw [jsNormMinute_eq_emod, jsNormMinute_eq_emod, h]

/-! ## Lines: `split('\n')`, `join('\n')`, `trim` -/

theorem splitNl_cons (c : Char) (rest : List Char) :
    splitNl (c :: rest) =
      if c = '\n' then [] :: splitNl rest
      else
        match splitNl rest with
        | [] => [[c]]
        | h :: t => (c :: h) :: t := rfl

theorem splitNl_ne_nil (l : List Char) : splitNl l ≠ [] := by
  induction l with
  | nil => exact List.cons_ne_nil _ _
  | cons c rest ih =>
    rw [splitNl_cons]
    split
    · simp
    · cases h : splitNl rest with
      | nil => simp
      | cons a t => simp

theorem mem_splitNl_not_newline (l : List Char) : ∀ p ∈ splitNl l, '\n' ∉ p := by
  induction l with
  | nil =>
    intro p hp
    simp [splitNl] at hp
    subst hp
    simp
  | cons c rest ih =>
    intro p hp
    rw [splitNl_cons] at hp
    by_cases hc : c = '\n'
    · rw [if_pos hc] at hp
      rcases List.mem_cons.mp hp with hp | hp
      · subst hp; simp
      · exact ih _ hp
    · rw [if_neg hc] at hp
      cases hs : splitNl rest with
      | nil => exact absurd hs (splitNl_ne_nil rest)
      | cons a t =>
        rw [hs] at hp
        rcases List.mem_cons.mp hp with hp | hp
        · subst hp
          intro hmem
          rcases List.mem_cons.mp hmem with h1 | h1
          · exact hc h1.symm
          · exact ih a (by rw [hs]; exact List.mem_cons_self a t) h1
        · exact ih p (by rw [hs]; exact List.mem_cons_of_mem _ hp)

theorem splitNl_no_newline {l : List Char} (h : '\n' ∉ l) : splitNl l = [l] := by
  induction l with
  | nil => rfl
  | cons c rest ih =>
    have hc : c ≠ '\n' := fun e => h (by simp [e])
    have hrest : '\n' ∉ rest := fun m => h (List.mem_cons_of_mem _ m)
    rw [splitNl_cons, if_neg hc, ih hrest]

theorem splitNl_append {x : List Char} (t : List Char) (h : '\n' ∉ x) :
    splitNl (x ++ '\n' :: t) = x :: splitNl t := by
  induction x with
  | nil => simp [splitNl_cons]
  | cons c rest ih =>
    have hc : c ≠ '\n' := fun e => h (by simp [e])
    have hrest : '\n' ∉ rest := fun m => h (List.mem_cons_of_mem _ m)
    rw [List.cons_append, splitNl_cons, if_neg hc, ih hrest]

theorem splitNl_intercalateNl :
    ∀ {ps : List (List Char)}, ps ≠ [] → (∀ p ∈ ps, '\n' ∉ p) →
      splitNl (intercalateNl ps) = ps
  | [], h, _ => absurd rfl h
  | [x], _, hp => by
    simpa [intercalateNl] using splitNl_no_newline (hp x (by simp))
  | x :: y :: rest, _, hp => by
    rw [show intercalateNl (x :: y :: rest) = x ++ '\n' :: intercalateNl (y :: rest) from rfl]
    rw [splitNl_append _ (hp x (by simp))]
    rw [splitNl_intercalateNl (by simp)
      (fun p hmem => hp p (List.mem_cons_of_mem _ hmem))]

theorem intercalateNl_ne_nil {x : List Char} (rest : List (List Char)) (hx : x ≠ []) :
    intercalateNl (x :: rest) ≠ [] := by
  cases rest with
  | nil => simpa [intercalateNl] using hx
  | cons y t => simp [intercalateNl]

theorem dropWhile_eq_self_of_head {p : Char → Bool} {l : List Char}
    (h : ∀ c, l.head? = some c → p c = false) : l.dropWhile p = l := by
  cases l with
  | nil => rfl
  | cons a t => simp [List.dropWhile_cons, h a rfl]

theorem head?_dropWhile {p : Char → Bool} (l : List Char) :
    ∀ c, (l.dropWhile p).head? = some c → p c = false := by
  induction l with
  | nil =>
    intro c hc
    simp at hc
  | cons a t ih =>
    intro c hc
    rw [List.dropWhile_cons] at hc
    by_cases hp : p a
    · exact ih c (by simpa [hp] using hc)
    · simp [hp] at hc
      subst hc
      simpa using hp

theorem trimChars_prefixOf (l : List Char) :
    trimChars l <+: l.dropWhile isJsWhitespace := by
  unfold trimChars
  obtain ⟨t, ht⟩ :=
    @List.dropWhile_suffix Char ((l.dropWhile isJsWhitespace).reverse) isJsWhitespace
  exact ⟨t.reverse, by rw [← List.reverse_append, ht, List.reverse_reverse]⟩

theorem head?_eq_of_prefix {α : Type} {l₁ l₂ : List α} (h : l₁ <+: l₂) (hne : l₁ ≠ []) :
    l₂.head? = l₁.head? := by
  obtain ⟨t, rfl⟩ := h
  cases l₁ with
  | nil => exact absurd rfl hne
  | cons a s => rfl

theorem trimChars_head_not_ws (l : List Char) :
    ∀ c, (trimChars l).head? = some c → isJsWhitespace c = false := by
  intro c hc
  have hne : trimChars l ≠ [] := by
    intro h
    rw [h] at hc
    exact Option.noConfusion hc
  have h1 := head?_eq_of_prefix (trimChars_prefixOf l) hne
  exact head?_dropWhile l c (h1.trans hc)

theorem trimChars_getLast_not_ws (l : List Char) :
    ∀ c, (trimChars l).getLast? = some c → isJsWhitespace c = false := by
  intro c hc
  rw [← List.head?_reverse] at hc
  unfold trimChars at hc
  rw [List.reverse_reverse] at hc
  exact head?_dropWhile _ c hc

theorem trimChars_eq_self {l : List Char}
    (h1 : ∀ c, l.head? = some c → isJsWhitespace c = false)
    (h2 : ∀ c, l.getLast? = some c → isJsWhitespace c = false) : trimChars l = l := by
  unfold trimChars
  rw [dropWhile_eq_self_of_head h1]
  rw [dropWhile_eq_self_of_head (fun c hc => h2 c (by rwa [← List.head?_reverse]))]
  simp

theorem trimChars_idem (l : List Char) : trimChars (trimChars l) = trimChars l :=
  trimChars_eq_self (trimChars_head_not_ws l) (trimChars_getLast_not_ws l)

theorem trimChars_subset (l : List Char) : trimChars l ⊆ l := by
  intro a ha
  have h1 : a ∈ l.dropWhile isJsWhitespace := (trimChars_prefixOf l).subset ha
  exact (List.dropWhile_sublist _).subset h1

/-! ## Digits, `pad2`, and the marker-line matcher -/

theorem digitFacts :
    ∀ d : Nat, d < 10 →
      (Char.ofNat (48 + d)).isDigit = true ∧ digitVal (Char.ofNat (48 + d)) = d ∧
        isJsWhitespace (Char.ofNat (48 + d)) = false ∧ Char.ofNat (48 + d) ≠ ':' ∧
        Char.ofNat (48 + d) ≠ '-' ∧ Char.ofNat (48 + d) ≠ '\n' ∧
        Char.ofNat (48 + d) ≠ '@' := by decide

theorem pad2_eq (n : Nat) :
    pad2 n = [Char.ofNat (48 + n / 10), Char.ofNat (48 + n % 10)] := rfl

theorem readHourColon_pad2 {n : Nat} (h : n ≤ 99) (rest : List Char) :
    readHourColon (pad2 n ++ ':' :: rest) = some (n, rest) := by
  obtain ⟨hd1, hv1, -, -, -, -, -⟩ := digitFacts (n / 10) (by omega)
  obtain ⟨hd2, hv2, -, -, -, -, -⟩ := digitFacts (n % 10) (by omega)
  rw [pad2_eq]
  simp only [List.cons_append, List.nil_append, readHourColon, hd1, hd2, if_true, if_pos rfl]
  rw [hv1, hv2]
  congr 1
  rw [Prod.mk.injEq]
  exact ⟨by omega, rfl⟩

theorem readTwoDigits_pad2 {n : Nat} (h : n ≤ 99) (rest : List Char) :
    readTwoDigits (pad2 n ++ rest) = some (n, rest) := by
  obtain ⟨hd1, hv1, -, -, -, -, -⟩ := digitFacts (n / 10) (by omega)
  obtain ⟨hd2, hv2, -, -, -, -, -⟩ := digitFacts (n % 10) (by omega)
  rw [pad2_eq]
  simp only [List.cons_append, List.nil_append, readTwoDigits, hd1, hd2, Bool.and_self, if_true]
  rw [hv1, hv2]
  congr 1
  rw [Prod.mk.injEq]
  exact ⟨by omega, rfl⟩

theorem dropAtTimeMarker_marker (rest : List Char) :
    dropAtTimeMarker (timeMetaMarker ++ rest) = some rest := rfl

theorem dropWsPlus_space {rest : List Char}
    (h : ∀ c, rest.head? = some c → isJsWhitespace c = false) :
    dropWsPlus (' ' :: rest) = some rest := by
  have hsp : isJsWhitespace ' ' = true := by decide
  simp [dropWsPlus, hsp, dropWhile_eq_self_of_head h]

/-- The marker line `@time HH:MM-HH:MM` built by `injectTimeMetadata` matches
`TIME_LINE_REGEX` and decodes to its four fields. -/
theorem matchTimeLine_meta (s e : Int) :
    matchTimeLine (timeMetaMarker ++ ' ' :: minutesToTimeKey s ++ '-' :: minutesToTimeKey e) =
      some ((jsNormMinute s / 60).toNat, (jsNormMinute s % 60).toNat,
        (jsNormMinute e / 60).toNat, (jsNormMinute e % 60).toNat) := by
  obtain ⟨hs0, hs1⟩ := jsNormMinute_bounds s
  obtain ⟨he0, he1⟩ := jsNormMinute_bounds e
  have hsh : (jsNormMinute s / 60).toNat ≤ 99 := by omega
  have hsm : (jsNormMinute s % 60).toNat ≤ 99 := by omega
  have heh : (jsNormMinute e / 60).toNat ≤ 99 := by omega
  have hem : (jsNormMinute e % 60).toNat ≤ 99 := by omega
  obtain ⟨hd1, -, hw1, -, -, -, -⟩ := digitFacts ((jsNormMinute s / 60).toNat / 10) (by omega)
  have e1 : timeMetaMarker ++ ' ' :: minutesToTimeKey s ++ '-' :: minutesToTimeKey e =
      timeMetaMarker ++ (' ' :: (pad2 (jsNormMinute s / 60).toNat ++ ':' ::
        (pad2 (jsNormMinute s % 60).toNat ++ ('-' :: (pad2 (jsNormMinute e / 60).toNat ++ ':' ::
          (pad2 (jsNormMinute e % 60).toNat ++ ([] : List Char))))))) := by
    unfold minutesToTimeKey
    simp
  have hhead : ∀ c, (pad2 (jsNormMinute s / 60).toNat ++ ':' ::
      (pad2 (jsNormMinute s % 60).toNat ++ ('-' :: (pad2 (jsNormMinute e / 60).toNat ++ ':' ::
        (pad2 (jsNormMinute e % 60).toNat ++ ([] : List Char)))))).head? = some c →
      isJsWhitespace c = false := by
    intro c hc
    rw [pad2_eq] at hc
    simp only [List.cons_append, List.head?_cons, Option.some.injEq] at hc
    rw [← hc]
    exact hw1
  rw [e1]
  unfold matchTimeLine
  rw [dropAtTimeMarker_marker]
  simp only [Option.bind_eq_bind, Option.some_bind]
  rw [dropWsPlus_space hhead]
  simp only [Option.some_bind]
  rw [readHourColon_pad2 hsh]
  simp only [Option.some_bind]
  rw [readTwoDigits_pad2 hsm]
  simp only [Option.some_bind]
  rw [readHourColon_pad2 heh]
  simp only [Option.some_bind]
  rw [readTwoDigits_pad2 hem]
  simp

/-! ## Structure of the two generated lines -/

theorem pad2_not_newline {n : Nat} (h : n ≤ 99) : '\n' ∉ pad2 n := by
  obtain ⟨-, -, -, -, -, hn1, -⟩ := digitFacts (n / 10) (by omega)
  obtain ⟨-, -, -, -, -, hn2, -⟩ := digitFacts (n % 10) (by omega)
  rw [pad2_eq]
  intro hmem
  rcases List.mem_cons.mp hmem with hh | hh
  · exact hn1 hh.symm
  · rcases List.mem_cons.mp hh with hh2 | hh2
    · exact hn2 hh2.symm
    · simp at hh2

theorem key_not_newline (m : Int) : '\n' ∉ minutesToTimeKey m := by
  obtain ⟨h0, h1⟩ := jsNormMinute_bounds m
  unfold minutesToTimeKey
  intro hmem
  rcases List.mem_append.mp hmem with hh | hh
  · exact pad2_not_newline (by omega) hh
  · rcases List.mem_cons.mp hh with hh2 | hh2
    · exact absurd hh2 (by decide)
    · exact pad2_not_newline (by omega) hh2

theorem metaLineChars_not_newline (s e : Int) : '\n' ∉ metaLineChars s e := by
  unfold metaLineChars
  intro hmem
  rcases List.mem_append.mp hmem with hh | hh
  · rcases List.mem_append.mp hh with h1 | h1
    · revert h1; decide
    · rcases List.mem_cons.mp h1 with h2 | h2
      · exact absurd h2.symm (by decide)
      · exact key_not_newline s h2
  · rcases List.mem_cons.mp hh with h2 | h2
    · exact absurd h2.symm (by decide)
    · exact key_not_newline e h2

theorem hour12_le (h24 : Nat) : 1 ≤ (if h24 % 12 = 0 then 12 else h24 % 12) ∧
    (if h24 % 12 = 0 then 12 else h24 % 12) ≤ 12 := by
  split
  · omega
  · omega

theorem hour12Chars_not_newline {h : Nat} (hle : h ≤ 12) : '\n' ∉ hour12Chars h := by
  unfold hour12Chars
  split
  · obtain ⟨-, -, -, -, -, hn, -⟩ := digitFacts h (by omega)
    intro hmem
    rcases List.mem_cons.mp hmem with h2 | h2
    · exact hn h2.symm
    · simp at h2
  · obtain ⟨-, -, -, -, -, hn, -⟩ := digitFacts (h - 10) (by omega)
    have harith : (48 : Nat) + (h - 10) = 48 + h - 10 := by omega
    intro hmem
    rcases List.mem_cons.mp hmem with h2 | h2
    · exact absurd h2.symm (by decide)
    · rcases List.mem_cons.mp h2 with h3 | h3
      · exact hn (by rw [harith]; exact h3.symm)
      · simp at h3

theorem formatTime12_not_newline (m : Int) : '\n' ∉ formatTime12 m := by
  obtain ⟨h0, h1⟩ := jsNormMinute_bounds m
  unfold formatTime12
  intro hmem
  rcases List.mem_append.mp hmem with hh | hh
  · rcases List.mem_append.mp hh with h2 | h2
    · exact hour12Chars_not_newline (hour12_le _).2 h2
    · rcases List.mem_cons.mp h2 with h3 | h3
      · exact absurd h3.symm (by decide)
      · exact pad2_not_newline (by omega) h3
  · revert hh
    split
    · decide
    · decide

theorem friendlyLineChars_not_newline (r : TimeRange) : '\n' ∉ friendlyLineChars r := by
  unfold friendlyLineChars timeRangeToFriendly
  intro hmem
  rcases List.mem_append.mp hmem with hh | hh
  · revert hh; decide
  · rcases List.mem_append.mp hh with h2 | h2
    · rcases List.mem_append.mp h2 with h3 | h3
      · exact formatTime12_not_newline _ h3
      · revert h3; decide
    · exact formatTime12_not_newline _ h2

theorem metaLineChars_head (s e : Int) : (metaLineChars s e).head? = some '@' := by
  simp [metaLineChars, timeMetaMarker]

theorem metaLineChars_getLast (s e : Int) :
    ∃ c, (metaLineChars s e).getLast? = some c ∧ isJsWhitespace c = false := by
  obtain ⟨he0, he1⟩ := jsNormMinute_bounds e
  obtain ⟨-, -, hw, -, -, -, -⟩ := digitFacts ((jsNormMinute e % 60).toNat % 10) (by omega)
  refine ⟨Char.ofNat (48 + (jsNormMinute e % 60).toNat % 10), ?_, hw⟩
  rw [← List.head?_reverse]
  simp [metaLineChars, minutesToTimeKey, pad2_eq, timeMetaMarker]

theorem trimChars_metaLineChars (s e : Int) :
    trimChars (metaLineChars s e) = metaLineChars s e := by
  obtain ⟨c, hc, hw⟩ := metaLineChars_getLast s e
  refine trimChars_eq_self ?_ ?_
  · intro d hd
    rw [metaLineChars_head] at hd
    cases hd
    decide
  · intro d hd
    rw [hc] at hd
    cases hd
    exact hw

theorem formatTime12_concat (m : Int) : ∃ pre, formatTime12 m = pre ++ ['M'] := by
  unfold formatTime12
  by_cases h : jsNormMinute m < 720
  · refine ⟨hour12Chars
      (if (jsNormMinute m / 60).toNat % 12 = 0 then 12 else (jsNormMinute m / 60).toNat % 12) ++
        ':' :: (pad2 (jsNormMinute m % 60).toNat ++ [' ', 'A']), ?_⟩
    simp [h]
  · refine ⟨hour12Chars
      (if (jsNormMinute m / 60).toNat % 12 = 0 then 12 else (jsNormMinute m / 60).toNat % 12) ++
        ':' :: (pad2 (jsNormMinute m % 60).toNat ++ [' ', 'P']), ?_⟩
    simp [h]

theorem friendlyLineChars_head (r : TimeRange) : (friendlyLineChars r).head? = some 'T' := by
  simp [friendlyLineChars]

theorem friendlyLineChars_getLast (r : TimeRange) :
    (friendlyLineChars r).getLast? = some 'M' := by
  obtain ⟨pre, hpre⟩ := formatTime12_concat (normalizeRange r).endMinutes
  rw [← List.head?_reverse]
  simp [friendlyLineChars, timeRangeToFriendly, hpre]

theorem trimChars_friendlyLineChars (r : TimeRange) :
    trimChars (friendlyLineChars r) = friendlyLineChars r := by
  refine trimChars_eq_self ?_ ?_
  · intro d hd
    rw [friendlyLineChars_head] at hd
    cases hd
    decide
  · intro d hd
    rw [friendlyLineChars_getLast] at hd
    cases hd
    decide

theorem startsWithChars_append_self (pre l : List Char) :
    startsWithChars pre (pre ++ l) = true := by
  unfold startsWithChars
  induction pre with
  | nil => simp [List.isPrefixOf]
  | cons a t ih => simp [List.isPrefixOf, ih]

theorem lowerChars_timeMetaMarker : lowerChars timeMetaMarker = timeMetaMarker := by decide

theorem startsWith_atTime_metaLineChars (s e : Int) :
    startsWithChars timeMetaMarker (lowerChars (trimChars (metaLineChars s e))) = true := by
  rw [trimChars_metaLineChars]
  have hassoc : metaLineChars s e =
      timeMetaMarker ++ (' ' :: minutesToTimeKey s ++ '-' :: minutesToTimeKey e) := by
    simp [metaLineChars]
  rw [hassoc]
  unfold lowerChars
  rw [List.map_append]
  rw [show List.map Char.toLower timeMetaMarker = timeMetaMarker from lowerChars_timeMetaMarker]
  exact startsWithChars_append_self _ _

theorem isTimeMetadataLine_metaLineChars (s e : Int) :
    isTimeMetadataLine (metaLineChars s e) = true := by
  unfold isTimeMetadataLine
  rw [startsWith_atTime_metaLineChars]
  rfl

theorem isTimeMetadataLine_friendlyLineChars (r : TimeRange) :
    isTimeMetadataLine (friendlyLineChars r) = true := by
  unfold isTimeMetadataLine
  rw [trimChars_friendlyLineChars]
  unfold friendlyLineChars lowerChars
  rw [List.map_append]
  have hmap : List.map Char.toLower ('T' :: 'i' :: 'm' :: 'e' :: ':' :: ' ' :: []) =
      't' :: 'i' :: 'm' :: 'e' :: ':' :: ' ' :: [] := by decide
  rw [hmap]
  simp [startsWithChars, List.isPrefixOf]

theorem not_startsWith_atTime_friendlyLineChars (r : TimeRange) :
    startsWithChars timeMetaMarker (lowerChars (trimChars (friendlyLineChars r))) = false := by
  rw [trimChars_friendlyLineChars]
  unfold friendlyLineChars lowerChars
  rw [List.map_append]
  have hmap : List.map Char.toLower ('T' :: 'i' :: 'm' :: 'e' :: ':' :: ' ' :: []) =
      't' :: 'i' :: 'm' :: 'e' :: ':' :: ' ' :: [] := by decide
  rw [hmap]
  simp [startsWithChars, List.isPrefixOf, timeMetaMarker]

/-! ## `cleanLines` and the parse scan -/

theorem map_trimChars_id {qs : List (List Char)} (h : ∀ p ∈ qs, trimChars p = p) :
    qs.map trimChars = qs := by
  induction qs with
  | nil => rfl
  | cons a t ih =>
    rw [List.map_cons, h a (by simp), ih (fun p hp => h p (List.mem_cons_of_mem _ hp))]

theorem mem_cleanLines_props {cs : List Char} {p : List Char} (hp : p ∈ cleanLines cs) :
    p ≠ [] ∧ trimChars p = p ∧ isTimeMetadataLine p = false ∧ '\n' ∉ p := by
  unfold cleanLines at hp
  obtain ⟨hmem, hfilt⟩ := List.mem_filter.mp hp
  obtain ⟨q, hq, rfl⟩ := List.mem_map.mp hmem
  simp only [Bool.and_eq_true, Bool.not_eq_true'] at hfilt
  refine ⟨?_, trimChars_idem q, hfilt.2, ?_⟩
  · intro hnil
    rw [hnil] at hfilt
    simp [List.isEmpty] at hfilt
  · intro hmem2
    exact mem_splitNl_not_newline cs q hq (trimChars_subset q hmem2)

theorem cleanLines_nil : cleanLines [] = [] := rfl

theorem cleanLines_of_clean {ps : List (List Char)}
    (h : ∀ p ∈ ps, p ≠ [] ∧ trimChars p = p ∧ isTimeMetadataLine p = false)
    (hn : ∀ p ∈ ps, '\n' ∉ p) : cleanLines (intercalateNl ps) = ps := by
  cases ps with
  | nil => exact cleanLines_nil
  | cons x t =>
    unfold cleanLines
    rw [splitNl_intercalateNl (List.cons_ne_nil x t) hn]
    rw [map_trimChars_id (fun p hp => (h p hp).2.1)]
    rw [List.filter_eq_self.mpr]
    intro p hp
    obtain ⟨h1, -, h3⟩ := h p hp
    simp [h3, List.isEmpty_eq_true, h1]

theorem parseLines_append_of_skip {pre rest : List (List Char)}
    (h : ∀ p ∈ pre, startsWithChars timeMetaMarker (lowerChars (trimChars p)) = false) :
    parseLines (pre ++ rest) = parseLines rest := by
  induction pre with
  | nil => rfl
  | cons a t ih =>
    have ha := h a (by simp)
    rw [List.cons_append]
    simp only [parseLines, ha, Bool.false_eq_true, if_false]
    exact ih (fun p hp => h p (List.mem_cons_of_mem _ hp))

theorem cleanLines_intercalate_filter {ps : List (List Char)}
    (h : ∀ p ∈ ps, p ≠ [] ∧ trimChars p = p) (hn : ∀ p ∈ ps, '\n' ∉ p) :
    cleanLines (intercalateNl ps) = ps.filter (fun p => !isTimeMetadataLine p) := by
  cases ps with
  | nil => exact cleanLines_nil
  | cons x t =>
    unfold cleanLines
    rw [splitNl_intercalateNl (List.cons_ne_nil x t) hn]
    rw [map_trimChars_id (fun p hp => (h p hp).2)]
    refine List.filter_congr ?_
    intro p hp
    have h1 := (h p hp).1
    simp [List.isEmpty_eq_true, h1]

/-! ## The codec round trip -/

theorem mem_cleanLines_not_meta_start {cs : List Char} {p : List Char} (hp : p ∈ cleanLines cs) :
    startsWithChars timeMetaMarker (lowerChars (trimChars p)) = false := by
  obtain ⟨-, htrim, hmeta, -⟩ := mem_cleanLines_props hp
  rw [htrim]
  unfold isTimeMetadataLine at hmeta
  rw [htrim] at hmeta
  exact (Bool.or_eq_false_iff.mp hmeta).1

theorem metaLineChars_ne_nil (s e : Int) : metaLineChars s e ≠ [] := by
  simp [metaLineChars, timeMetaMarker]

theorem roundTripRange_lt (range : TimeRange) :
    (roundTripRange range).startMinutes < (roundTripRange range).endMinutes :=
  lt_bumpEnd _ _

theorem normalizeRange_roundTripRange (range : TimeRange) :
    normalizeRange (roundTripRange range) = roundTripRange range :=
  normalizeRange_of_lt (roundTripRange_lt range)

/-- `parseTimeRange` recovers `roundTripRange range` from any injected description. -/
theorem parseTimeRange_injectTimeMetadata (content : Option String) (range : TimeRange) :
    parseTimeRange (some (injectTimeMetadata content range)) = some (roundTripRange range) := by
  unfold injectTimeMetadata
  simp only [parseTimeRange]
  set n := normalizeRange range with hn
  set base := cleanLines (content.getD "").data with hbase
  set meta := metaLineChars n.startMinutes n.endMinutes with hmeta
  set friendly := friendlyLineChars n with hfriendly
  have hall : ∀ p ∈ base ++ [meta, friendly], '\n' ∉ p := by
    intro p hp
    rcases List.mem_append.mp hp with hh | hh
    · exact (mem_cleanLines_props hh).2.2.2
    · rcases List.mem_cons.mp hh with h1 | h1
      · rw [h1, hmeta]; exact metaLineChars_not_newline _ _
      · rcases List.mem_cons.mp h1 with h2 | h2
        · rw [h2, hfriendly]; exact friendlyLineChars_not_newline _
        · simp at h2
  have hne : base ++ [meta, friendly] ≠ [] := by simp
  have hinil : intercalateNl (base ++ [meta, friendly]) ≠ [] := by
    cases hb : base with
    | nil =>
      rw [List.nil_append]
      exact intercalateNl_ne_nil _ (metaLineChars_ne_nil _ _)
    | cons b bs =>
      have hbc : cleanLines (content.getD "").data = b :: bs := by rw [← hbase]; exact hb
      have hbmem : b ∈ cleanLines (content.getD "").data := by rw [hbc]; simp
      rw [List.cons_append]
      exact intercalateNl_ne_nil _ (mem_cleanLines_props hbmem).1
  rw [if_neg hinil]
  rw [splitNl_intercalateNl hne hall]
  rw [show base ++ [meta, friendly] = base ++ ([meta, friendly] : List (List Char)) from rfl]
  rw [parseLines_append_of_skip (fun p hp => mem_cleanLines_not_meta_start hp)]
  simp only [parseLines, hmeta]
  rw [startsWith_atTime_metaLineChars]
  simp only [if_true]
  rw [trimChars_metaLineChars]
  unfold metaLineChars
  rw [matchTimeLine_meta]
  obtain ⟨hs0, hs1⟩ := jsNormMinute_bounds n.startMinutes
  obtain ⟨he0, he1⟩ := jsNormMinute_bounds n.endMinutes
  have hcs : ((jsNormMinute n.startMinutes / 60).toNat : Int) * 60 +
      ((jsNormMinute n.startMinutes % 60).toNat : Int) = jsNormMinute n.startMinutes := by
    omega
  have hce : ((jsNormMinute n.endMinutes / 60).toNat : Int) * 60 +
      ((jsNormMinute n.endMinutes % 60).toNat : Int) = jsNormMinute n.endMinutes := by
    omega
  unfold roundTripRange
  rw [← hn]
  simp only [Option.some.injEq]
  have e1 : (jsNormMinute n.startMinutes / 60 ⊔ 0) * 60 + (jsNormMinute n.startMinutes % 60 ⊔ 0) =
      jsNormMinute n.startMinutes := by omega
  have e2 : (jsNormMinute n.endMinutes / 60 ⊔ 0) * 60 + (jsNormMinute n.endMinutes % 60 ⊔ 0) =
      jsNormMinute n.endMinutes := by omega
  simp only [Int.ofNat_toNat]
  rw [e1, e2]

/-- `stripTimeMetadata` removes exactly the two generated lines. -/
theorem stripTimeMetadata_injectTimeMetadata (content : Option String) (range : TimeRange) :
    stripTimeMetadata (some (injectTimeMetadata content range)) =
      String.mk (intercalateNl (cleanLines (content.getD "").data)) := by
  unfold injectTimeMetadata
  simp only [stripTimeMetadata]
  set n := normalizeRange range with hn
  set base := cleanLines (content.getD "").data with hbase
  set meta := metaLineChars n.startMinutes n.endMinutes with hmeta
  set friendly := friendlyLineChars n with hfriendly
  have hclean : ∀ p ∈ base ++ [meta, friendly], p ≠ [] ∧ trimChars p = p := by
    intro p hp
    rcases List.mem_append.mp hp with hh | hh
    · exact ⟨(mem_cleanLines_props hh).1, (mem_cleanLines_props hh).2.1⟩
    · rcases List.mem_cons.mp hh with h1 | h1
      · rw [h1, hmeta]
        exact ⟨metaLineChars_ne_nil _ _, trimChars_metaLineChars _ _⟩
      · rcases List.mem_cons.mp h1 with h2 | h2
        · rw [h2, hfriendly]
          refine ⟨?_, trimChars_friendlyLineChars _⟩
          simp [friendlyLineChars]
        · simp at h2
  have hall : ∀ p ∈ base ++ [meta, friendly], '\n' ∉ p := by
    intro p hp
    rcases List.mem_append.mp hp with hh | hh
    · exact (mem_cleanLines_props hh).2.2.2
    · rcases List.mem_cons.mp hh with h1 | h1
      · rw [h1, hmeta]; exact metaLineChars_not_newline _ _
      · rcases List.mem_cons.mp h1 with h2 | h2
        · rw [h2, hfriendly]; exact friendlyLineChars_not_newline _
        · simp at h2
  rw [cleanLines_intercalate_filter hclean hall]
  rw [List.filter_append]
  rw [List.filter_eq_self.mpr (fun p hp => by
    simp [(mem_cleanLines_props (by rw [hbase] at hp; exact hp)).2.2.1])]
  have hfm : [meta, friendly].filter (fun p => !isTimeMetadataLine p) = [] := by
    rw [show ([meta, friendly] : List (List Char)) = [meta, friendly] from rfl]
    simp only [List.filter, hmeta, hfriendly, isTimeMetadataLine_metaLineChars,
      isTimeMetadataLine_friendlyLineChars, Bool.not_true]
  rw [hfm, List.append_nil]

theorem minutesToTimeKey_congr {a b : Int} (h : jsNormMinute a = jsNormMinute b) :
    minutesToTimeKey a = minutesToTimeKey b := by
  unfold minutesToTimeKey
  rw [h]

theorem formatTime12_congr {a b : Int} (h : jsNormMinute a = jsNormMinute b) :
    formatTime12 a = formatTime12 b := by
  unfold formatTime12
  rw [h]

theorem jsNormMinute_idem (m : Int) : jsNormMinute (jsNormMinute m) = jsNormMinute m :=
  jsNormMinute_of_bounds (jsNormMinute_bounds m).1 (jsNormMinute_bounds m).2

theorem jsNormMinute_bumpEnd (s e : Int) : jsNormMinute (bumpEnd s e) = jsNormMinute e := by
  rw [jsNormMinute_eq_emod, jsNormMinute_eq_emod, bumpEnd_emod]

theorem roundTripRange_start_norm (r : TimeRange) :
    jsNormMinute (roundTripRange r).startMinutes =
      jsNormMinute (normalizeRange r).startMinutes :=
  jsNormMinute_idem _

theorem roundTripRange_end_norm (r : TimeRange) :
    jsNormMinute (roundTripRange r).endMinutes =
      jsNormMinute (normalizeRange r).endMinutes := by
  unfold roundTripRange
  rw [jsNormMinute_bumpEnd, jsNormMinute_idem]

/-- Re-injecting the parsed-back range over the same base lines reproduces the
description verbatim: the codec writes both endpoints modulo a day. -/
theorem injectTimeMetadata_roundTrip_eq (content' content : Option String) (range : TimeRange)
    (hbase : cleanLines (content'.getD "").data = cleanLines (content.getD "").data) :
    injectTimeMetadata content' (roundTripRange range) = injectTimeMetadata content range := by
  have hmeta : metaLineChars (roundTripRange range).startMinutes
      (roundTripRange range).endMinutes =
      metaLineChars (normalizeRange range).startMinutes (normalizeRange range).endMinutes := by
    unfold metaLineChars
    rw [minutesToTimeKey_congr (roundTripRange_start_norm range),
      minutesToTimeKey_congr (roundTripRange_end_norm range)]
  have hfriendly : friendlyLineChars (roundTripRange range) =
      friendlyLineChars (normalizeRange range) := by
    simp only [friendlyLineChars, timeRangeToFriendly]
    rw [normalizeRange_roundTripRange, normalizeRange_idem]
    rw [formatTime12_congr (roundTripRange_start_norm range),
      formatTime12_congr (roundTripRange_end_norm range)]
  simp only [injectTimeMetadata]
  rw [hbase, normalizeRange_roundTripRange, hmeta, hfriendly]

theorem cleanLines_stripTimeMetadata (content : Option String) (range : TimeRange) :
    cleanLines (stripTimeMetadata (some (injectTimeMetadata content range))).data =
      cleanLines (content.getD "").data := by
  rw [stripTimeMetadata_injectTimeMetadata]
  rw [show (String.mk (intercalateNl (cleanLines (content.getD "").data))).data =
      intercalateNl (cleanLines (content.getD "").data) from rfl]
  exact cleanLines_of_clean
    (fun p hp => ⟨(mem_cleanLines_props hp).1, (mem_cleanLines_props hp).2.1,
      (mem_cleanLines_props hp).2.2.1⟩)
    (fun p hp => (mem_cleanLines_props hp).2.2.2)

/-- The description-stability identity behind reconciliation idempotence. -/
theorem injectTimeMetadata_stable (content : Option String) (range : TimeRange) :
    injectTimeMetadata (some (stripTimeMetadata (some (injectTimeMetadata content range))))
      (roundTripRange range) = injectTimeMetadata content range := by
  apply injectTimeMetadata_roundTrip_eq
  exact cleanLines_stripTimeMetadata content range

/-- In-day ranges (start in `[0, 1440)`, duration in `[1, 1440]`) round-trip to
themselves. -/
theorem roundTripRange_eq_self {r : TimeRange} (h0 : 0 ≤ r.startMinutes)
    (h1 : r.startMinutes < 1440) (h2 : r.startMinutes < r.endMinutes)
    (h3 : r.endMinutes ≤ r.startMinutes + 1440) : roundTripRange r = r := by
  obtain ⟨s, e⟩ := r
  simp only at h0 h1 h2 h3
  unfold roundTripRange
  rw [normalizeRange_of_lt h2]
  simp only
  have ha : jsNormMinute s = s := jsNormMinute_of_bounds h0 h1
  rw [ha]
  rcases lt_or_le e 1440 with he | he
  · have hb : jsNormMinute e = e := jsNormMinute_of_bounds (by omega) he
    rw [hb, bumpEnd_of_lt h2]
  · have hb : jsNormMinute e = e - 1440 := by
      rw [jsNormMinute_eq_emod]
      omega
    rw [hb]
    unfold bumpEnd
    rw [if_pos (by omega)]
    have hq : (s - (e - 1440)) / 1440 = 0 := by omega
    rw [hq]
    simp only [TimeRange.mk.injEq, true_and]
    omega

/-- Re-parsing and re-injecting a routine whose description was produced by
`withTimeRange` leaves the task unchanged. -/
theorem withTimeRange_roundTrip_self {t : Task} {c : Option String} {r : TimeRange}
    (hd : t.description = some (injectTimeMetadata c r)) :
    withTimeRange t (roundTripRange r) = t := by
  unfold withTimeRange sanitizeDescription
  obtain ⟨id, title, description, due_at, reminder_at, is_completed, created_at⟩ := t
  simp only at hd
  subst hd
  simp only [Task.mk.injEq, true_and, and_true]
  exact congrArg some (injectTimeMetadata_stable c r)

/-! ## Characterization of `parseTimeRange` on arbitrary text -/

theorem matchTimeLine_startsWith {l : List Char} {v : Nat × Nat × Nat × Nat}
    (h : matchTimeLine l = some v) :
    startsWithChars timeMetaMarker (lowerChars l) = true := by
  have hdrop : ∃ rest, dropAtTimeMarker l = some rest := by
    unfold matchTimeLine at h
    cases hd : dropAtTimeMarker l with
    | none =>
      rw [hd] at h
      simp at h
    | some r => exact ⟨r, rfl⟩
  obtain ⟨rest, hrest⟩ := hdrop
  unfold dropAtTimeMarker at hrest
  split at hrest
  · rename_i c1 c2 c3 c4 r
    split at hrest
    · rename_i hguard
      simp only [Bool.and_eq_true, decide_eq_true_eq] at hguard
      obtain ⟨⟨⟨h1, h2⟩, h3⟩, h4⟩ := hguard
      unfold lowerChars startsWithChars timeMetaMarker
      simp [List.isPrefixOf, h1, h2, h3, h4]
    · exact Option.noConfusion hrest
  · exact Option.noConfusion hrest

theorem parseLines_some {lines : List (List Char)} {r : TimeRange}
    (h : parseLines lines = some r) :
    ∃ raw ∈ lines, ∃ h1 m1 h2 m2 : Nat,
      matchTimeLine (trimChars raw) = some (h1, m1, h2, m2) ∧
        r.startMinutes = (h1 : Int) * 60 + (m1 : Int) ∧
        r.endMinutes = bumpEnd r.startMinutes ((h2 : Int) * 60 + (m2 : Int)) := by
  induction lines with
  | nil => exact Option.noConfusion h
  | cons a t ih =>
    by_cases hs : startsWithChars timeMetaMarker (lowerChars (trimChars a)) = true
    · simp only [parseLines, hs, if_true] at h
      cases hm : matchTimeLine (trimChars a) with
      | none =>
        rw [hm] at h
        obtain ⟨raw, hraw, rest⟩ := ih h
        exact ⟨raw, List.mem_cons_of_mem _ hraw, rest⟩
      | some v =>
        obtain ⟨h1, m1, h2, m2⟩ := v
        rw [hm] at h
        simp only [Option.some.injEq] at h
        refine ⟨a, by simp, h1, m1, h2, m2, hm, ?_, ?_⟩
        · rw [← h]
        · rw [← h]
    · simp only [parseLines, hs, if_false] at h
      obtain ⟨raw, hraw, rest⟩ := ih h
      exact ⟨raw, List.mem_cons_of_mem _ hraw, rest⟩

theorem parseLines_none {lines : List (List Char)}
    (h : ∀ raw ∈ lines, matchTimeLine (trimChars raw) = none) : parseLines lines = none := by
  induction lines with
  | nil => rfl
  | cons a t ih =>
    have ha := h a (by simp)
    have ht := ih (fun p hp => h p (List.mem_cons_of_mem _ hp))
    by_cases hs : startsWithChars timeMetaMarker (lowerChars (trimChars a)) = true
    · simp only [parseLines, hs, if_true, ha]
      exact ht
    · simp only [parseLines, hs, if_false]
      exact ht

theorem parseLines_first {pre : List (List Char)} {raw : List Char} {post : List (List Char)}
    {h1 m1 h2 m2 : Nat} (hpre : ∀ p ∈ pre, matchTimeLine (trimChars p) = none)
    (hm : matchTimeLine (trimChars raw) = some (h1, m1, h2, m2)) :
    parseLines (pre ++ raw :: post) =
      some { startMinutes := (h1 : Int) * 60 + (m1 : Int)
             endMinutes := bumpEnd ((h1 : Int) * 60 + (m1 : Int))
               ((h2 : Int) * 60 + (m2 : Int)) } := by
  induction pre with
  | nil =>
    rw [List.nil_append]
    have hs := matchTimeLine_startsWith hm
    simp only [parseLines, hs, if_true, hm]
  | cons p t ih =>
    have hp := hpre p (by simp)
    have ht := ih (fun q hq => hpre q (List.mem_cons_of_mem _ hq))
    rw [List.cons_append]
    by_cases hs : startsWithChars timeMetaMarker (lowerChars (trimChars p)) = true
    · simp only [parseLines, hs, if_true, hp]
      exact ht
    · simp only [parseLines, hs, if_false]
      exact ht

/-! ## Claim C7 — codec round trip -/

/-- C7: for every `TimeRange` with `0 ≤ startMinutes < 1440` and duration between
1 and 1440 minutes, and for every text, `parseTimeRange (injectTimeMetadata text
range)` returns exactly the normalized range (start unchanged, end = start +
duration; such a range is its own normalization). -/
theorem C7_parse_inject_round_trip (text : Option String) (range : TimeRange)
    (h0 : 0 ≤ range.startMinutes) (h1 : range.startMinutes < 1440)
    (hd1 : 1 ≤ range.endMinutes - range.startMinutes)
    (hd2 : range.endMinutes - range.startMinutes ≤ 1440) :
    parseTimeRange (some (injectTimeMetadata text range)) = some (normalizeRange range) ∧
      normalizeRange range = range := by
  have h2 : range.startMinutes < range.endMinutes := by omega
  have hself := roundTripRange_eq_self h0 h1 h2 (by omega)
  refine ⟨?_, normalizeRange_of_lt h2⟩
  rw [parseTimeRange_injectTimeMetadata, hself, normalizeRange_of_lt h2]

/-- Witness for C7: a cross-midnight range 23:00–01:00 over a non-trivial note. -/
theorem C7_parse_inject_round_trip_witness :
    parseTimeRange (some (injectTimeMetadata (some "buy milk") ⟨1380, 1500⟩)) =
        some (normalizeRange ⟨1380, 1500⟩) ∧
      normalizeRange (⟨1380, 1500⟩ : TimeRange) = ⟨1380, 1500⟩ :=
  C7_parse_inject_round_trip (some "buy milk") ⟨1380, 1500⟩ (by norm_num) (by norm_num)
    (by norm_num) (by norm_num)

/-! ## Claim C8 — the marker grammar of `parseTimeRange` -/

/-- C8 (counterexample): `TIME_LINE_REGEX` carries no numeric range check, so a
marker line with hour 25 parses to a non-null range — the claim's "returns null
for any text whose only marker line carries an hour above 23" is false. -/
theorem C8_counterexample_hour_over_23 :
    parseTimeRange (some "@time 25:00-26:00") = some ⟨1500, 1560⟩ ∧
      parseTimeRange (some "@time 25:00-26:00") ≠ none := by
  constructor
  · rfl
  · intro h
    exact Option.noConfusion h

/-- C8 (amended): `parseTimeRange` is non-null exactly on texts with a line
matching the digit-shape grammar `@time (\d{1,2}):(\d{2})-(\d{1,2}):(\d{2})`
(case-insensitive, no 0–23/0–59 value check); it decodes the first matching
line, adding 1440 to the end until it exceeds the start, and returns `none` —
it is a total function — on `null`, the empty string, and every text with no
matching line. -/
theorem C8_parse_grammar :
    parseTimeRange none = none ∧
    (∀ s : String, s.data = [] → parseTimeRange (some s) = none) ∧
    (∀ (s : String) (r : TimeRange), parseTimeRange (some s) = some r →
      ∃ raw ∈ splitNl s.data, ∃ h1 m1 h2 m2 : Nat,
        matchTimeLine (trimChars raw) = some (h1, m1, h2, m2) ∧
          r.startMinutes = (h1 : Int) * 60 + (m1 : Int) ∧
          r.endMinutes = bumpEnd r.startMinutes ((h2 : Int) * 60 + (m2 : Int)) ∧
          r.startMinutes < r.endMinutes) ∧
    (∀ s : String, (∀ raw ∈ splitNl s.data, matchTimeLine (trimChars raw) = none) →
      parseTimeRange (some s) = none) ∧
    (∀ (s : String) (pre : List (List Char)) (raw : List Char) (post : List (List Char))
        (h1 m1 h2 m2 : Nat),
      s.data ≠ [] → splitNl s.data = pre ++ raw :: post →
      (∀ p ∈ pre, matchTimeLine (trimChars p) = none) →
      matchTimeLine (trimChars raw) = some (h1, m1, h2, m2) →
      parseTimeRange (some s) =
        some { startMinutes := (h1 : Int) * 60 + (m1 : Int)
               endMinutes := bumpEnd ((h1 : Int) * 60 + (m1 : Int))
                 ((h2 : Int) * 60 + (m2 : Int)) }) := by
  refine ⟨rfl, ?_, ?_, ?_, ?_⟩
  · intro s hs
    simp [parseTimeRange, hs]
  · intro s r h
    simp only [parseTimeRange] at h
    by_cases hs : s.data = []
    · rw [if_pos hs] at h
      exact Option.noConfusion h
    · rw [if_neg hs] at h
      obtain ⟨raw, hraw, h1, m1, h2, m2, hm, he1, he2⟩ := parseLines_some h
      exact ⟨raw, hraw, h1, m1, h2, m2, hm, he1, he2, he2 ▸ lt_bumpEnd _ _⟩
  · intro s hall
    simp only [parseTimeRange]
    by_cases hs : s.data = []
    · rw [if_pos hs]
    · rw [if_neg hs]
      exact parseLines_none hall
  · intro s pre raw post h1 m1 h2 m2 hs hsplit hpre hm
    simp only [parseTimeRange]
    rw [if_neg hs, hsplit]
    exact parseLines_first hpre hm

/-- Witness for C8 (amended): a marker with minutes 99 and a wrapping end decodes
through the first-match rule. -/
theorem C8_parse_grammar_witness :
    parseTimeRange (some "@time 9:99-1:00") = some ⟨639, 1500⟩ := by
  have h := C8_parse_grammar.2.2.2.2 "@time 9:99-1:00" [] ("@time 9:99-1:00".data) []
    9 99 1 0 (by decide) (by decide) (by simp) (by decide)
  rw [h]
  decide

/-! ## Claims about `adjustFoodRange` (C2) -/

theorem le_foldl_max (l : List Int) (init : Int) : init ≤ l.foldl max init := by
  induction l generalizing init with
  | nil => exact le_refl init
  | cons x t ih => exact le_trans (le_max_left init x) (ih (max init x))

theorem foldl_max_le {l : List Int} {b : Int} :
    ∀ {init : Int}, init ≤ b → (∀ x ∈ l, x ≤ b) → l.foldl max init ≤ b := by
  induction l with
  | nil => intro init h _; exact h
  | cons x t ih =>
    intro init h hall
    exact ih (max_le h (hall x (by simp))) (fun y hy => hall y (List.mem_cons_of_mem _ hy))

theorem foldl_max_mem_le {l : List Int} {y : Int} (hy : y ∈ l) (init : Int) :
    y ≤ l.foldl max init := by
  induction l generalizing init with
  | nil => simp at hy
  | cons x t ih =>
    rcases List.mem_cons.mp hy with rfl | hy2
    · exact le_trans (le_max_right init y) (le_foldl_max t _)
    · exact ih hy2 _

theorem foldl_max_eq {l : List Int} {init b : Int} (h1 : init ≤ b) (h2 : ∀ x ∈ l, x ≤ b)
    (h3 : b = init ∨ b ∈ l) : l.foldl max init = b := by
  refine le_antisymm (foldl_max_le h1 h2) ?_
  rcases h3 with rfl | h3
  · exact le_foldl_max l b
  · exact foldl_max_mem_le h3 init

theorem rangeDuration_normalize (r : TimeRange) :
    rangeDuration (normalizeRange r) = rangeDuration r := by
  unfold rangeDuration
  rw [normalizeRange_idem]

theorem rangesOverlap_start_lt_end {blk seed : TimeRange}
    (h : rangesOverlap blk seed = true) :
    seed.startMinutes < (normalizeRange blk).endMinutes := by
  unfold rangesOverlap at h
  simp only [Bool.and_eq_true, decide_eq_true_eq] at h
  exact h.2

theorem adjustFoodRange_no_overlap {seedRange : TimeRange} {blockers : List TimeRange}
    (h : ∀ blk ∈ blockers, rangesOverlap blk (normalizeRange seedRange) = false) :
    adjustFoodRange seedRange blockers = normalizeRange seedRange := by
  have hfilt : blockers.filter (fun b => rangesOverlap b (normalizeRange seedRange)) = [] := by
    rw [List.filter_eq_nil_iff]
    intro b hb
    simp [h b hb]
  simp only [adjustFoodRange]
  rw [hfilt]

theorem adjustFoodRange_overlap {seedRange : TimeRange} {blockers : List TimeRange} {L : Int}
    (hmem : ∃ blk ∈ blockers, rangesOverlap blk (normalizeRange seedRange) = true ∧
      (normalizeRange blk).endMinutes = L)
    (hub : ∀ blk ∈ blockers, rangesOverlap blk (normalizeRange seedRange) = true →
      (normalizeRange blk).endMinutes ≤ L) :
    (normalizeRange seedRange).startMinutes < L ∧
      adjustFoodRange seedRange blockers =
        (if L + rangeDuration seedRange > MINUTES_IN_DAY
         then { startMinutes := MINUTES_IN_DAY - rangeDuration seedRange
                endMinutes := MINUTES_IN_DAY }
         else { startMinutes := L, endMinutes := L + rangeDuration seedRange }) := by
  obtain ⟨blk0, hblk0, hov0, hend0⟩ := hmem
  have hLgt : (normalizeRange seedRange).startMinutes < L := by
    rw [← hend0]
    exact rangesOverlap_start_lt_end hov0
  refine ⟨hLgt, ?_⟩
  simp only [adjustFoodRange]
  cases hfilt : blockers.filter (fun b => rangesOverlap b (normalizeRange seedRange)) with
  | nil =>
    exfalso
    have : blk0 ∈ blockers.filter (fun b => rangesOverlap b (normalizeRange seedRange)) :=
      List.mem_filter.mpr ⟨hblk0, hov0⟩
    rw [hfilt] at this
    simp at this
  | cons b bs =>
    have hbmem : b ∈ blockers.filter (fun x => rangesOverlap x (normalizeRange seedRange)) := by
      rw [hfilt]; simp
    have hble : (normalizeRange b).endMinutes ≤ L := by
      obtain ⟨hb1, hb2⟩ := List.mem_filter.mp hbmem
      exact hub b hb1 hb2
    have hLmem : L = (normalizeRange b).endMinutes ∨
        L ∈ bs.map (fun block => (normalizeRange block).endMinutes) := by
      have hblk0' : blk0 ∈ b :: bs := by
        rw [← hfilt]
        exact List.mem_filter.mpr ⟨hblk0, hov0⟩
      rcases List.mem_cons.mp hblk0' with rfl | hmem2
      · exact Or.inl hend0.symm
      · exact Or.inr (List.mem_map.mpr ⟨blk0, hmem2, hend0⟩)
    have hall : ∀ x ∈ bs.map (fun block => (normalizeRange block).endMinutes), x ≤ L := by
      intro x hx
      obtain ⟨blk, hblk, rfl⟩ := List.mem_map.mp hx
      have hblk' : blk ∈ blockers.filter (fun y => rangesOverlap y (normalizeRange seedRange)) := by
        rw [hfilt]
        exact List.mem_cons_of_mem _ hblk
      obtain ⟨hb1, hb2⟩ := List.mem_filter.mp hblk'
      exact hub blk hb1 hb2
    have hfold : (bs.map (fun block => (normalizeRange block).endMinutes)).foldl max
        ((normalizeRange b).endMinutes) = L := by
      exact foldl_max_eq hble hall hLmem
    dsimp only
    rw [hfold]
    rw [max_eq_right (le_of_lt hLgt)]
    rw [rangeDuration_normalize]
    by_cases hclamp : L + rangeDuration seedRange > MINUTES_IN_DAY
    · rw [if_pos hclamp, if_pos hclamp]
      have : MINUTES_IN_DAY - rangeDuration seedRange + rangeDuration seedRange =
          MINUTES_IN_DAY := by ring
      rw [this]
    · rw [if_neg hclamp, if_neg hclamp]

/-! ## Merging blockers: `mergeLoop` / `mergeOverlaps` (towards C3) -/

theorem mergeLoop_start_le {current : TimeRange} {rest : List TimeRange}
    (hs : ∀ m ∈ rest, current.startMinutes ≤ m.startMinutes)
    (hp : List.Pairwise (fun a b => a.startMinutes ≤ b.startMinutes) rest) :
    ∀ r ∈ mergeLoop current rest, current.startMinutes ≤ r.startMinutes := by
  induction rest generalizing current with
  | nil =>
    intro r hr
    simp only [mergeLoop, List.mem_singleton] at hr
    exact hr ▸ le_refl _
  | cons next t ih =>
    intro r hr
    obtain ⟨hph, hpt⟩ := List.pairwise_cons.mp hp
    rw [mergeLoop] at hr
    split at hr
    · exact @ih { startMinutes := current.startMinutes
                  endMinutes := max current.endMinutes next.endMinutes }
        (fun m hm => hs m (List.mem_cons_of_mem _ hm)) hpt r hr
    · rcases List.mem_cons.mp hr with rfl | hr2
      · exact le_refl _
      · exact le_trans (hs next (by simp)) (@ih next hph hpt r hr2)

theorem mergeLoop_props {lo hi : Int} {current : TimeRange} {rest : List TimeRange}
    (hc : current.startMinutes < current.endMinutes ∧ lo ≤ current.startMinutes ∧
      current.endMinutes ≤ hi)
    (hr : ∀ m ∈ rest, m.startMinutes < m.endMinutes ∧ lo ≤ m.startMinutes ∧
      m.endMinutes ≤ hi) :
    ∀ r ∈ mergeLoop current rest, r.startMinutes < r.endMinutes ∧ lo ≤ r.startMinutes ∧
      r.endMinutes ≤ hi := by
  induction rest generalizing current with
  | nil =>
    intro r hmem
    simp only [mergeLoop, List.mem_singleton] at hmem
    exact hmem ▸ hc
  | cons next t ih =>
    intro r hmem
    rw [mergeLoop] at hmem
    obtain ⟨hn1, hn2, hn3⟩ := hr next (by simp)
    split at hmem
    · exact @ih { startMinutes := current.startMinutes
                  endMinutes := max current.endMinutes next.endMinutes }
        ⟨lt_of_lt_of_le hc.1 (le_max_left _ _), hc.2.1, max_le hc.2.2 hn3⟩
        (fun m hm => hr m (List.mem_cons_of_mem _ hm)) r hmem
    · rcases List.mem_cons.mp hmem with rfl | hmem2
      · exact hc
      · exact @ih next ⟨hn1, hn2, hn3⟩ (fun m hm => hr m (List.mem_cons_of_mem _ hm)) r hmem2

theorem mergeLoop_sep {current : TimeRange} {rest : List TimeRange}
    (hs : ∀ m ∈ rest, current.startMinutes ≤ m.startMinutes)
    (hp : List.Pairwise (fun a b => a.startMinutes ≤ b.startMinutes) rest) :
    List.Pairwise (fun a b => a.endMinutes < b.startMinutes) (mergeLoop current rest) := by
  induction rest generalizing current with
  | nil => simp [mergeLoop]
  | cons next t ih =>
    rw [mergeLoop]
    obtain ⟨hph, hpt⟩ := List.pairwise_cons.mp hp
    split
    · exact @ih { startMinutes := current.startMinutes
                  endMinutes := max current.endMinutes next.endMinutes }
        (fun m hm => hs m (List.mem_cons_of_mem _ hm)) hpt
    · rename_i hpush
      push_neg at hpush
      refine List.pairwise_cons.mpr ⟨?_, @ih next hph hpt⟩
      intro r hrmem
      exact lt_of_lt_of_le hpush (mergeLoop_start_le hph hpt r hrmem)

theorem mergeLoop_cov {current : TimeRange} {rest : List TimeRange}
    (hs : ∀ m ∈ rest, current.startMinutes ≤ m.startMinutes)
    (hp : List.Pairwise (fun a b => a.startMinutes ≤ b.startMinutes) rest) :
    ∀ x : Int, (∃ r ∈ mergeLoop current rest, r.startMinutes ≤ x ∧ x < r.endMinutes) ↔
      (∃ r ∈ current :: rest, r.startMinutes ≤ x ∧ x < r.endMinutes) := by
  induction rest generalizing current with
  | nil =>
    intro x
    simp [mergeLoop]
  | cons next t ih =>
    intro x
    rw [mergeLoop]
    obtain ⟨hph, hpt⟩ := List.pairwise_cons.mp hp
    split
    · rename_i hmerge
      have hiff := @ih { startMinutes := current.startMinutes
                         endMinutes := max current.endMinutes next.endMinutes }
        (fun m hm => hs m (List.mem_cons_of_mem _ hm)) hpt x
      rw [hiff]
      constructor
      · rintro ⟨r, hrmem, hrx⟩
        rcases List.mem_cons.mp hrmem with rfl | hm2
        · simp only at hrx
          by_cases hcx : x < current.endMinutes
          · exact ⟨current, by simp, hrx.1, hcx⟩
          · refine ⟨next, by simp, ?_, ?_⟩
            · omega
            · have := hrx.2
              rw [max_def] at this
              split at this <;> omega
        · exact ⟨r, List.mem_cons_of_mem _ (List.mem_cons_of_mem _ hm2), hrx⟩
      · rintro ⟨r, hrmem, hrx⟩
        rcases List.mem_cons.mp hrmem with rfl | hm2
        · exact ⟨_, List.mem_cons_self _ _, hrx.1, lt_of_lt_of_le hrx.2 (le_max_left _ _)⟩
        · rcases List.mem_cons.mp hm2 with rfl | hm3
          · exact ⟨_, List.mem_cons_self _ _, le_trans (hs r (by simp)) hrx.1,
              lt_of_lt_of_le hrx.2 (le_max_right _ _)⟩
          · exact ⟨r, List.mem_cons_of_mem _ hm3, hrx⟩
    · have hiff := @ih next hph hpt x
      constructor
      · rintro ⟨r, hrmem, hrx⟩
        rcases List.mem_cons.mp hrmem with rfl | hm2
        · exact ⟨r, by simp, hrx⟩
        · obtain ⟨r', hr'mem, hr'x⟩ := hiff.mp ⟨r, hm2, hrx⟩
          exact ⟨r', List.mem_cons_of_mem _ hr'mem, hr'x⟩
      · rintro ⟨r, hrmem, hrx⟩
        rcases List.mem_cons.mp hrmem with rfl | hm2
        · exact ⟨r, by simp, hrx⟩
        · obtain ⟨r', hr'mem, hr'x⟩ := hiff.mpr ⟨r, hm2, hrx⟩
          exact ⟨r', List.mem_cons_of_mem _ hr'mem, hr'x⟩

theorem map_normalizeRange_id {segments : List TimeRange}
    (h : ∀ s ∈ segments, s.startMinutes < s.endMinutes) :
    segments.map normalizeRange = segments := by
  induction segments with
  | nil => rfl
  | cons a t ih =>
    rw [List.map_cons, normalizeRange_of_lt (h a (by simp)),
      ih (fun s hs => h s (List.mem_cons_of_mem _ hs))]

theorem mergeOverlaps_facts {lo hi : Int} {segments : List TimeRange}
    (h : ∀ s ∈ segments, s.startMinutes < s.endMinutes ∧ lo ≤ s.startMinutes ∧
      s.endMinutes ≤ hi) :
    (∀ r ∈ mergeOverlaps segments, r.startMinutes < r.endMinutes ∧ lo ≤ r.startMinutes ∧
      r.endMinutes ≤ hi) ∧
    List.Pairwise (fun a b => a.endMinutes < b.startMinutes) (mergeOverlaps segments) ∧
    (∀ x : Int, (∃ r ∈ mergeOverlaps segments, r.startMinutes ≤ x ∧ x < r.endMinutes) ↔
      (∃ s ∈ segments, s.startMinutes ≤ x ∧ x < s.endMinutes)) := by
  haveI : IsTotal TimeRange (fun a b => a.startMinutes ≤ b.startMinutes) :=
    ⟨fun a b => le_total _ _⟩
  haveI : IsTrans TimeRange (fun a b => a.startMinutes ≤ b.startMinutes) :=
    ⟨fun _ _ _ hab hbc => le_trans hab hbc⟩
  have hperm := List.perm_insertionSort
    (fun a b : TimeRange => a.startMinutes ≤ b.startMinutes) segments
  have hsorted := List.sorted_insertionSort
    (fun a b : TimeRange => a.startMinutes ≤ b.startMinutes) segments
  unfold mergeOverlaps
  rw [map_normalizeRange_id (fun s hs => (h s hs).1)]
  cases hs : segments.insertionSort (fun a b => a.startMinutes ≤ b.startMinutes) with
  | nil =>
    have hnil : segments = [] := by
      have := hperm
      rw [hs] at this
      exact (List.Perm.nil_eq this).symm
    subst hnil
    refine ⟨by simp, by simp, ?_⟩
    intro x
    simp
  | cons s rest =>
    rw [hs] at hperm hsorted
    have hmem : ∀ m ∈ s :: rest, m ∈ segments := fun m hm => hperm.subset hm
    obtain ⟨hph, hpt⟩ := List.pairwise_cons.mp hsorted
    have hcur := h s (hmem s (by simp))
    have hrest : ∀ m ∈ rest, m.startMinutes < m.endMinutes ∧ lo ≤ m.startMinutes ∧
        m.endMinutes ≤ hi :=
      fun m hm => h m (hmem m (List.mem_cons_of_mem _ hm))
    refine ⟨mergeLoop_props hcur hrest, mergeLoop_sep hph hpt, ?_⟩
    intro x
    rw [mergeLoop_cov hph hpt x]
    constructor
    · rintro ⟨r, hrmem, hrx⟩
      exact ⟨r, hmem r hrmem, hrx⟩
    · rintro ⟨r, hrmem, hrx⟩
      exact ⟨r, hperm.mem_iff.mpr hrmem, hrx⟩

theorem considerCandidate_ge {best : Option TimeRange} {c : TimeRange}
    (hcne : c.startMinutes < c.endMinutes)
    (hbne : ∀ g, best = some g → g.startMinutes < g.endMinutes) :
    ∃ g', considerCandidate best c = some g' ∧
      c.endMinutes - c.startMinutes ≤ g'.endMinutes - g'.startMinutes ∧
      (∀ g₀, best = some g₀ → g₀.endMinutes - g₀.startMinutes ≤
        g'.endMinutes - g'.startMinutes) ∧
      (g' = c ∨ best = some g') := by
  cases best with
  | none =>
    exact ⟨c, rfl, le_refl _, fun g₀ h => Option.noConfusion h, Or.inl rfl⟩
  | some b =>
    have hb : b.startMinutes < b.endMinutes := hbne b rfl
    simp only [considerCandidate]
    unfold rangeDuration
    rw [normalizeRange_of_lt hcne, normalizeRange_of_lt hb]
    by_cases hgt : c.endMinutes - c.startMinutes > b.endMinutes - b.startMinutes
    · rw [if_pos hgt]
      exact ⟨c, rfl, le_refl _, fun g₀ h => by cases h; omega, Or.inl rfl⟩
    · rw [if_neg hgt]
      refine ⟨b, rfl, by omega, fun g₀ h => by cases h; exact le_refl _, Or.inr rfl⟩

/-- The cursor scan of `findLargestGap`, verified: any returned gap lies in
`[lo, hi)` and avoids every covered point, and its width dominates every
interval of `[lo, hi)` that avoids `Cov`. -/
theorem scanGaps_spec (hi lo : Int) (Cov : Int → Prop) :
    ∀ (M : List TimeRange) (cursor : Int) (best : Option TimeRange),
    List.Pairwise (fun a b => a.endMinutes < b.startMinutes) M →
    (∀ m ∈ M, m.startMinutes < m.endMinutes ∧ m.endMinutes ≤ hi ∧
      cursor ≤ m.startMinutes) →
    lo ≤ cursor →
    (∀ m ∈ M, ∀ x, m.startMinutes ≤ x → x < m.endMinutes → Cov x) →
    (∀ x, Cov x → x < cursor ∨ ∃ m ∈ M, m.startMinutes ≤ x ∧ x < m.endMinutes) →
    (cursor = lo ∨ Cov (cursor - 1)) →
    (∀ g, best = some g → lo ≤ g.startMinutes ∧ g.startMinutes < g.endMinutes ∧
      g.endMinutes ≤ hi ∧ ∀ x, g.startMinutes ≤ x → x < g.endMinutes → ¬ Cov x) →
    (∀ a b, lo ≤ a → a < b → b ≤ cursor → (∀ x, a ≤ x → x < b → ¬ Cov x) →
      ∃ g, best = some g ∧ b - a ≤ g.endMinutes - g.startMinutes) →
    (∀ g, scanGaps hi M cursor best = some g →
      lo ≤ g.startMinutes ∧ g.startMinutes < g.endMinutes ∧ g.endMinutes ≤ hi ∧
      ∀ x, g.startMinutes ≤ x → x < g.endMinutes → ¬ Cov x) ∧
    (∀ a b, lo ≤ a → a < b → b ≤ hi → (∀ x, a ≤ x → x < b → ¬ Cov x) →
      ∃ g, scanGaps hi M cursor best = some g ∧
        b - a ≤ g.endMinutes - g.startMinutes) := by
  intro M
  induction M with
  | nil =>
    intro cursor best _ _ hlocur _ hB2 hB3 hbestS hbestM
    constructor
    · intro g hg
      rw [scanGaps] at hg
      split at hg
      · rename_i hcur
        have hcand : lo ≤ cursor ∧ cursor < hi ∧ hi ≤ hi ∧
            (∀ x, cursor ≤ x → x < hi → ¬ Cov x) := by
          refine ⟨hlocur, hcur, le_refl _, ?_⟩
          intro x hx1 _ hcov
          rcases hB2 x hcov with h | h
          · omega
          · obtain ⟨m, hm, -⟩ := h
            simp at hm
        obtain ⟨g', hg', -, -, hor⟩ := @considerCandidate_ge best ⟨cursor, hi⟩ hcand.2.1
          (fun g0 h0 => (hbestS g0 h0).2.1)
        rw [hg'] at hg
        cases hg
        rcases hor with rfl | hbest
        · exact ⟨hcand.1, hcand.2.1, hcand.2.2.1, hcand.2.2.2⟩
        · exact hbestS g hbest
      · exact hbestS g hg
    · intro a b hloa hab hbhi hfree
      rcases le_or_lt b cursor with hbc | hbc
      · obtain ⟨g, hg, hdur⟩ := hbestM a b hloa hab hbc hfree
        rcases lt_or_le cursor hi with hcur | hcur
        · rw [scanGaps, if_pos hcur]
          obtain ⟨g', hg', -, hge, -⟩ := @considerCandidate_ge best ⟨cursor, hi⟩ hcur
            (fun g0 h0 => (hbestS g0 h0).2.1)
          exact ⟨g', hg', le_trans hdur (hge g hg)⟩
        · rw [scanGaps, if_neg (not_lt.mpr hcur)]
          exact ⟨g, hg, hdur⟩
      · have ha_ge : cursor ≤ a := by
          by_contra hlt
          push_neg at hlt
          rcases hB3 with rfl | hcov
          · omega
          · exact hfree (cursor - 1) (by omega) (by omega) hcov
        have hcur : cursor < hi := by omega
        rw [scanGaps, if_pos hcur]
        obtain ⟨g', hg', hge, -, -⟩ := @considerCandidate_ge best ⟨cursor, hi⟩ hcur
          (fun g0 h0 => (hbestS g0 h0).2.1)
        refine ⟨g', hg', ?_⟩
        simp only at hge
        omega
  | cons m0 rest ih =>
    intro cursor best hsep hM hlocur hB1 hB2 hB3 hbestS hbestM
    obtain ⟨hseph, hsept⟩ := List.pairwise_cons.mp hsep
    obtain ⟨hm0ne, hm0hi, hm0cur⟩ := hM m0 (by simp)
    -- facts about the candidate step
    have hstep :
        ∀ g, (if cursor < m0.startMinutes then
            considerCandidate best ⟨cursor, m0.startMinutes⟩ else best) = some g →
          lo ≤ g.startMinutes ∧ g.startMinutes < g.endMinutes ∧ g.endMinutes ≤ hi ∧
          ∀ x, g.startMinutes ≤ x → x < g.endMinutes → ¬ Cov x := by
      intro g hg
      split at hg
      · rename_i hlt
        have hcand : (∀ x, cursor ≤ x → x < m0.startMinutes → ¬ Cov x) := by
          intro x hx1 hx2 hcov
          rcases hB2 x hcov with h | h
          · omega
          · obtain ⟨m, hm, hxm⟩ := h
            rcases List.mem_cons.mp hm with rfl | hm2
            · omega
            · have := hseph m hm2
              omega
        obtain ⟨g', hg', -, -, hor⟩ := @considerCandidate_ge best ⟨cursor, m0.startMinutes⟩
          (by simpa using hlt) (fun g0 h0 => (hbestS g0 h0).2.1)
        rw [hg'] at hg
        cases hg
        rcases hor with rfl | hbest
        · exact ⟨hlocur, by simpa, by simp only; omega, hcand⟩
        · exact hbestS g hbest
      · exact hbestS g hg
    have hstepM :
        ∀ a b, lo ≤ a → a < b → b ≤ max cursor m0.endMinutes →
          (∀ x, a ≤ x → x < b → ¬ Cov x) →
          ∃ g, (if cursor < m0.startMinutes then
              considerCandidate best ⟨cursor, m0.startMinutes⟩ else best) = some g ∧
            b - a ≤ g.endMinutes - g.startMinutes := by
      intro a b hloa hab hbmax hfree
      rcases le_or_lt b cursor with hbc | hbc
      · obtain ⟨g, hg, hdur⟩ := hbestM a b hloa hab hbc hfree
        split
        · rename_i hlt2
          obtain ⟨g', hg', -, hge, -⟩ := @considerCandidate_ge best
            ⟨cursor, m0.startMinutes⟩ (by simpa using hlt2)
            (fun g0 h0 => (hbestS g0 h0).2.1)
          exact ⟨g', hg', le_trans hdur (hge g hg)⟩
        · exact ⟨g, hg, hdur⟩
      · -- b > cursor: the free interval must fit before m0
        have ha_ge : cursor ≤ a := by
          by_contra hlt
          push_neg at hlt
          rcases hB3 with rfl | hcov
          · omega
          · exact hfree (cursor - 1) (by omega) (by omega) hcov
        have hbm0 : b ≤ m0.startMinutes := by
          by_contra hgt
          push_neg at hgt
          have hx0 : max a m0.startMinutes < m0.endMinutes := by omega
          refine hfree (max a m0.startMinutes) (le_max_left _ _) ?_
            (hB1 m0 (by simp) _ (le_max_right _ _) hx0)
          omega
        have hlt : cursor < m0.startMinutes := by omega
        rw [if_pos hlt]
        obtain ⟨g', hg', hge, -, -⟩ := @considerCandidate_ge best
          ⟨cursor, m0.startMinutes⟩ (by simpa using hlt)
          (fun g0 h0 => (hbestS g0 h0).2.1)
        refine ⟨g', hg', ?_⟩
        simp only at hge
        omega
    rw [scanGaps]
    refine ih (max cursor m0.endMinutes) _ hsept ?_ ?_ ?_ ?_ ?_ hstep hstepM
    · intro m hm
      obtain ⟨h1, h2, h3⟩ := hM m (List.mem_cons_of_mem _ hm)
      have := hseph m hm
      refine ⟨h1, h2, ?_⟩
      omega
    · omega
    · exact fun m hm => hB1 m (List.mem_cons_of_mem _ hm)
    · intro x hcov
      rcases hB2 x hcov with h | h
      · left; omega
      · obtain ⟨m, hm, hxm⟩ := h
        rcases List.mem_cons.mp hm with rfl | hm2
        · left; omega
        · exact Or.inr ⟨m, hm2, hxm⟩
    · rcases le_or_lt m0.endMinutes cursor with hle | hlt
      · rw [max_eq_left hle]
        exact hB3
      · rw [max_eq_right (le_of_lt hlt)]
        exact Or.inr (hB1 m0 (by simp) _ (by omega) (by omega))

theorem clampRangeToBounds_some {blk B c : TimeRange} (h : clampRangeToBounds blk B = some c) :
    c.startMinutes = max (normalizeRange blk).startMinutes (normalizeRange B).startMinutes ∧
    c.endMinutes = min (normalizeRange blk).endMinutes (normalizeRange B).endMinutes ∧
    c.startMinutes < c.endMinutes := by
  simp only [clampRangeToBounds] at h
  split at h
  · exact Option.noConfusion h
  · rename_i hlt
    cases h
    refine ⟨rfl, rfl, ?_⟩
    show max (normalizeRange blk).startMinutes (normalizeRange B).startMinutes <
      min (normalizeRange blk).endMinutes (normalizeRange B).endMinutes
    omega

theorem clampRangeToBounds_of_common {blk B : TimeRange} {x : Int}
    (hxB : (normalizeRange B).startMinutes ≤ x ∧ x < (normalizeRange B).endMinutes)
    (hxb : (normalizeRange blk).startMinutes ≤ x ∧ x < (normalizeRange blk).endMinutes) :
    ∃ c, clampRangeToBounds blk B = some c ∧ c.startMinutes ≤ x ∧ x < c.endMinutes := by
  simp only [clampRangeToBounds]
  split
  · rename_i hle
    exfalso
    omega
  · exact ⟨_, rfl, by simp only; omega, by simp only; omega⟩

theorem rangesOverlap_eq_false_iff {blk r : TimeRange} (hr : r.startMinutes < r.endMinutes) :
    rangesOverlap blk r = false ↔ ∀ x, r.startMinutes ≤ x → x < r.endMinutes →
      ¬((normalizeRange blk).startMinutes ≤ x ∧ x < (normalizeRange blk).endMinutes) := by
  unfold rangesOverlap
  rw [normalizeRange_of_lt hr]
  have hblk := lt_normalizeRange_endMinutes blk
  simp only [Bool.and_eq_false_iff, decide_eq_false_iff_not, not_lt]
  constructor
  · intro h x hx1 hx2 hxin
    rcases h with h | h
    · omega
    · omega
  · intro h
    by_contra hcon
    push_neg at hcon
    obtain ⟨h1, h2⟩ := hcon
    exact h (max r.startMinutes (normalizeRange blk).startMinutes) (le_max_left _ _)
      (by omega) ⟨le_max_right _ _, by omega⟩

/-- Full correctness of `findLargestGap`: a returned gap is a sub-interval of
the normalized bounds touching no blocker, there is no wider blocker-free
sub-interval, and (contrapositive) `none` is returned only when every
sub-interval meets a blocker. -/
theorem findLargestGap_spec (bounds : TimeRange) (blockers : List TimeRange) :
    (∀ g, findLargestGap bounds blockers = some g →
      (bounds.startMinutes ≤ g.startMinutes ∧ g.startMinutes < g.endMinutes ∧
        g.endMinutes ≤ (normalizeRange bounds).endMinutes) ∧
      ∀ blk ∈ blockers, rangesOverlap blk g = false) ∧
    (∀ a b : Int, bounds.startMinutes ≤ a → a < b →
      b ≤ (normalizeRange bounds).endMinutes →
      (∀ blk ∈ blockers, rangesOverlap blk ⟨a, b⟩ = false) →
      ∃ g, findLargestGap bounds blockers = some g ∧
        b - a ≤ g.endMinutes - g.startMinutes) := by
  have hlohi := lt_normalizeRange_endMinutes bounds
  have hBidem : normalizeRange (normalizeRange bounds) = normalizeRange bounds :=
    normalizeRange_idem bounds
  have hclip : ∀ c ∈ blockers.filterMap
      (fun block => clampRangeToBounds block (normalizeRange bounds)),
      c.startMinutes < c.endMinutes ∧
        (normalizeRange bounds).startMinutes ≤ c.startMinutes ∧
        c.endMinutes ≤ (normalizeRange bounds).endMinutes := by
    intro c hc
    obtain ⟨blk, -, hcl⟩ := List.mem_filterMap.mp hc
    obtain ⟨h1, h2, h3⟩ := clampRangeToBounds_some hcl
    rw [hBidem] at h1 h2
    refine ⟨h3, ?_, ?_⟩
    · rw [h1]; exact le_max_right _ _
    · rw [h2]; exact min_le_right _ _
  obtain ⟨hMprops, hMsep, hMcov⟩ := mergeOverlaps_facts hclip
  have hB1 : ∀ m ∈ mergeOverlaps (blockers.filterMap
      (fun block => clampRangeToBounds block (normalizeRange bounds))),
      ∀ x, m.startMinutes ≤ x → x < m.endMinutes →
        ((normalizeRange bounds).startMinutes ≤ x ∧ x < (normalizeRange bounds).endMinutes ∧
          ∃ blk ∈ blockers, (normalizeRange blk).startMinutes ≤ x ∧
            x < (normalizeRange blk).endMinutes) := by
    intro m hm x hx1 hx2
    obtain ⟨c, hcmem, hcx⟩ := (hMcov x).mp ⟨m, hm, hx1, hx2⟩
    obtain ⟨blk, hblkmem, hcl⟩ := List.mem_filterMap.mp hcmem
    obtain ⟨h1, h2, -⟩ := clampRangeToBounds_some hcl
    rw [hBidem] at h1 h2
    obtain ⟨hc1, hc2, hc3⟩ := hclip c hcmem
    refine ⟨le_trans hc2 hcx.1, lt_of_lt_of_le hcx.2 hc3, blk, hblkmem, ?_, ?_⟩
    · have : (normalizeRange blk).startMinutes ≤ c.startMinutes := by
        rw [h1]; exact le_max_left _ _
      omega
    · have : c.endMinutes ≤ (normalizeRange blk).endMinutes := by
        rw [h2]; exact min_le_left _ _
      omega
  have hspec := scanGaps_spec (normalizeRange bounds).endMinutes
    (normalizeRange bounds).startMinutes
    (fun x => (normalizeRange bounds).startMinutes ≤ x ∧
      x < (normalizeRange bounds).endMinutes ∧
      ∃ blk ∈ blockers, (normalizeRange blk).startMinutes ≤ x ∧
        x < (normalizeRange blk).endMinutes)
    (mergeOverlaps (blockers.filterMap
      (fun block => clampRangeToBounds block (normalizeRange bounds))))
    (normalizeRange bounds).startMinutes none
    hMsep
    (fun m hm => ⟨(hMprops m hm).1, (hMprops m hm).2.2, (hMprops m hm).2.1⟩)
    (le_refl _)
    hB1
    (by
      intro x hcov
      obtain ⟨hx1, hx2, blk, hblkmem, hxb⟩ := hcov
      obtain ⟨c, hcl, hcx⟩ := clampRangeToBounds_of_common
        (by rw [hBidem]; exact ⟨hx1, hx2⟩) hxb
      refine Or.inr ((hMcov x).mpr ⟨c, ?_, hcx⟩)
      exact List.mem_filterMap.mpr ⟨blk, hblkmem, hcl⟩)
    (Or.inl rfl)
    (fun g hg => Option.noConfusion hg)
    (fun a b h1 h2 h3 _ => absurd (lt_of_lt_of_le h2 h3) (not_lt.mpr h1))
  obtain ⟨hsound, hmax⟩ := hspec
  constructor
  · intro g hg
    have hg' : scanGaps (normalizeRange bounds).endMinutes
        (mergeOverlaps (blockers.filterMap
          (fun block => clampRangeToBounds block (normalizeRange bounds))))
        (normalizeRange bounds).startMinutes none = some g := hg
    obtain ⟨hs1, hs2, hs3, hfree⟩ := hsound g hg'
    refine ⟨⟨hs1, hs2, hs3⟩, ?_⟩
    intro blk hblk
    rw [rangesOverlap_eq_false_iff hs2]
    intro x hx1 hx2 hxin
    exact hfree x hx1 hx2 ⟨le_trans hs1 hx1, lt_of_lt_of_le hx2 hs3, blk, hblk, hxin⟩
  · intro a b ha hab hb hnov
    refine hmax a b ha hab hb ?_
    intro x hx1 hx2 hcov
    obtain ⟨-, -, blk, hblkmem, hxb⟩ := hcov
    have := (@rangesOverlap_eq_false_iff blk ⟨a, b⟩ hab).mp (hnov blk hblkmem)
    exact this x hx1 hx2 hxb

/-- C3: `adjustFlexibleRange` (the largest-gap computation) places a flexible
routine on a blocker-free sub-interval of its seed window of maximal width;
it returns `none` exactly when every sub-interval of the window meets a
blocker; and on the spec's example — flexible seed 09:00–14:00 against fixed
tasks 09:00–10:00 and 12:00–12:30 — the Reconciler places the routine at
10:00–12:00. -/
theorem C3_flexible_largest_gap :
    (∀ (bounds : TimeRange) (blockers : List TimeRange) (g : TimeRange),
      adjustFlexibleRange bounds blockers = some g →
      (bounds.startMinutes ≤ g.startMinutes ∧ g.startMinutes < g.endMinutes ∧
        g.endMinutes ≤ (normalizeRange bounds).endMinutes) ∧
      (∀ blk ∈ blockers, rangesOverlap blk g = false)) ∧
    (∀ (bounds : TimeRange) (blockers : List TimeRange) (a b : Int),
      bounds.startMinutes ≤ a → a < b → b ≤ (normalizeRange bounds).endMinutes →
      (∀ blk ∈ blockers, rangesOverlap blk ⟨a, b⟩ = false) →
      ∃ g, adjustFlexibleRange bounds blockers = some g ∧
        b - a ≤ g.endMinutes - g.startMinutes) ∧
    (∀ (bounds : TimeRange) (blockers : List TimeRange),
      adjustFlexibleRange bounds blockers = none →
      ∀ a b : Int, bounds.startMinutes ≤ a → a < b →
        b ≤ (normalizeRange bounds).endMinutes →
        ∃ blk ∈ blockers, rangesOverlap blk ⟨a, b⟩ = true) ∧
    reconcile DEFAULT_MEAL_PREFERENCES
        [exampleFixed0900, exampleFixed1200, exampleWorkRoutine] 0 =
      [exampleFixed0900, exampleFixed1200, withTimeRange exampleWorkRoutine ⟨600, 720⟩] ∧
    parseTimeRange (withTimeRange exampleWorkRoutine ⟨600, 720⟩).description =
      some ⟨600, 720⟩ := by
  refine ⟨?_, ?_, ?_, ?_, ?_⟩
  · intro bounds blockers g hg
    exact (findLargestGap_spec bounds blockers).1 g hg
  · intro bounds blockers a b h1 h2 h3 h4
    exact (findLargestGap_spec bounds blockers).2 a b h1 h2 h3 h4
  · intro bounds blockers hnone a b h1 h2 h3
    by_contra hcon
    push_neg at hcon
    have hfalse : ∀ blk ∈ blockers, rangesOverlap blk ⟨a, b⟩ = false := by
      intro blk hblk
      have := hcon blk hblk
      exact Bool.eq_false_iff.mpr this
    obtain ⟨g, hg, -⟩ := (findLargestGap_spec bounds blockers).2 a b h1 h2 h3 hfalse
    rw [show adjustFlexibleRange bounds blockers = findLargestGap bounds blockers from rfl]
      at hnone
    rw [hnone] at hg
    exact Option.noConfusion hg
  · rfl
  · rfl

/-- Witness for C3: seed 09:00–14:00 against blockers 09:00–10:00 and
12:00–12:30; the gap 10:00–12:00 is sound and every free interval fits in it. -/
theorem C3_flexible_largest_gap_witness :
    (((540 : Int) ≤ 600 ∧ (600 : Int) < 720 ∧
        (720 : Int) ≤ (normalizeRange ⟨540, 840⟩).endMinutes) ∧
      (∀ blk ∈ [(⟨540, 600⟩ : TimeRange), ⟨720, 750⟩],
        rangesOverlap blk ⟨600, 720⟩ = false)) ∧
    (∃ g, adjustFlexibleRange ⟨540, 840⟩ [⟨540, 600⟩, ⟨720, 750⟩] = some g ∧
      (840 : Int) - 750 ≤ g.endMinutes - g.startMinutes) := by
  constructor
  · exact C3_flexible_largest_gap.1 ⟨540, 840⟩ [⟨540, 600⟩, ⟨720, 750⟩] ⟨600, 720⟩ rfl
  · exact C3_flexible_largest_gap.2.1 ⟨540, 840⟩ [⟨540, 600⟩, ⟨720, 750⟩] 750 840
      (by norm_num) (by norm_num) (by decide) (by decide)

/-- C2: a food routine with no overlapping blocker keeps its (normalized) seed
range; with overlapping blockers whose latest normalized end is `L`, its start
shifts to `L` with duration preserved, clamped so that `start + duration = 1440`
when the shifted window would pass the end of the day; in particular a fixed
task at 08:00–08:45 displaces a breakfast seeded at 08:00–09:00 (default
preferences) to 08:45–09:45 in the Reconciler's output. -/
theorem C2_food_displacement :
    (∀ (seedRange : TimeRange) (blockers : List TimeRange),
      (∀ blk ∈ blockers, rangesOverlap blk (normalizeRange seedRange) = false) →
      adjustFoodRange seedRange blockers = normalizeRange seedRange) ∧
    (∀ (seedRange : TimeRange) (blockers : List TimeRange) (L : Int),
      (∃ blk ∈ blockers, rangesOverlap blk (normalizeRange seedRange) = true ∧
        (normalizeRange blk).endMinutes = L) →
      (∀ blk ∈ blockers, rangesOverlap blk (normalizeRange seedRange) = true →
        (normalizeRange blk).endMinutes ≤ L) →
      (normalizeRange seedRange).startMinutes < L ∧
        adjustFoodRange seedRange blockers =
          (if L + rangeDuration seedRange > MINUTES_IN_DAY
           then { startMinutes := MINUTES_IN_DAY - rangeDuration seedRange
                  endMinutes := MINUTES_IN_DAY }
           else { startMinutes := L, endMinutes := L + rangeDuration seedRange })) ∧
    reconcile DEFAULT_MEAL_PREFERENCES [exampleFixed0800, exampleBreakfastRoutine] 0 =
      [exampleFixed0800, withTimeRange exampleBreakfastRoutine ⟨525, 585⟩] ∧
    parseTimeRange (withTimeRange exampleBreakfastRoutine ⟨525, 585⟩).description =
      some ⟨525, 585⟩ := by
  refine ⟨fun s b h => adjustFoodRange_no_overlap h,
    fun s b L hm hu => adjustFoodRange_overlap hm hu, ?_, ?_⟩
  · rfl
  · rfl

/-- Witness for C2: the 08:00–08:45 blocker against the 08:00–09:00 breakfast
seed, through `adjustFoodRange` directly. -/
theorem C2_food_displacement_witness :
    (480 : Int) < 525 ∧
      adjustFoodRange ⟨480, 540⟩ [⟨480, 525⟩] =
        (if (525 : Int) + rangeDuration ⟨480, 540⟩ > MINUTES_IN_DAY
         then { startMinutes := MINUTES_IN_DAY - rangeDuration ⟨480, 540⟩
                endMinutes := MINUTES_IN_DAY }
         else { startMinutes := 525, endMinutes := 525 + rangeDuration ⟨480, 540⟩ }) := by
  have h := (C2_food_displacement.2.1) ⟨480, 540⟩ [⟨480, 525⟩] 525
    ⟨⟨480, 525⟩, by simp, by decide, by decide⟩
    (by intro blk hblk hov; simp at hblk; rw [hblk]; decide)
  exact ⟨by decide, h.2⟩

/-! ## Claim C10 — migration never touches a custom-ranged routine -/

/-- C10: an existing routine whose parsed `TimeRange` differs from the freshly
computed catalog seed range (`hasCustomRange`) receives no update at all from
the migration pass: its description — hence its custom time window — and even
its reminder are left untouched, for any reminder target and any reminder
comparison outcome. -/
theorem C10_migration_preserves_custom_range (current : Task) (seed : DefaultRoutineSeed)
    (desiredReminderIso : Option String) (remindersSameMinute : Bool)
    (hcustom : hasCustomRangeB current seed = true) :
    migrationStep current seed desiredReminderIso remindersSameMinute =
      { descriptionUpdate := none, reminderUpdate := none, needsUpdate := false } := by
  unfold migrationStep
  simp [hcustom]

/-- Witness for C10: a breakfast routine moved by the user to 07:00–07:30, against
the catalog seed at 08:00–09:00. -/
theorem C10_migration_preserves_custom_range_witness :
    hasCustomRangeB
        { id := "m", title := "Breakfast", description := some "@time 07:00-07:30"
          due_at := none, reminder_at := some "2024-01-01T08:00:00Z" }
        { title := "Breakfast", summary := "Fuel up for the morning ahead."
          startHour := 8, startMinute := 0, endHour := 9, endMinute := 0
          reminder := some { hour := 8, minute := 0 } } = true ∧
      migrationStep
        { id := "m", title := "Breakfast", description := some "@time 07:00-07:30"
          due_at := none, reminder_at := some "2024-01-01T08:00:00Z" }
        { title := "Breakfast", summary := "Fuel up for the morning ahead."
          startHour := 8, startMinute := 0, endHour := 9, endMinute := 0
          reminder := some { hour := 8, minute := 0 } }
        (some "2024-01-02T08:00:00Z") false =
        { descriptionUpdate := none, reminderUpdate := none, needsUpdate := false } := by
  constructor
  · decide
  · exact C10_migration_preserves_custom_range _ _ _ _ (by decide)

/-! ### Cascade (C6) -/

/-- The loop body never allocates less than `min MIN_ROUTINE_MINUTES availableNow`. -/
theorem cascadeAllocated_ge (bs cursor : Int) (t : TimeRange) (rem : Int) :
    min MIN_ROUTINE_MINUTES (bs - cursor) ≤ cascadeAllocated bs cursor t rem := by
  simp only [cascadeAllocated, MIN_ROUTINE_MINUTES]
  split <;> omega

/-- Every window the cascade loop emits starts at or after the cursor, is
non-degenerate, ends by the boundary, and is at least
`min MIN_ROUTINE_MINUTES (boundary - start)` long. -/
theorem cascadeLoop_props (bs : Int) (targets : List TimeRange) : ∀ cursor : Int,
    ∀ w ∈ cascadeLoop bs cursor targets,
      cursor ≤ w.startMinutes ∧ w.startMinutes < w.endMinutes ∧ w.endMinutes ≤ bs ∧
      min MIN_ROUTINE_MINUTES (bs - w.startMinutes) ≤ w.endMinutes - w.startMinutes := by
  induction targets with
  | nil =>
      intro cursor w hw
      simp [cascadeLoop] at hw
  | cons t rest ih =>
      intro cursor w hw
      simp only [cascadeLoop] at hw
      by_cases hav : bs - cursor ≤ 0
      · rw [if_pos hav] at hw
        simp at hw
      · rw [if_neg hav] at hw
        have halloc := cascadeAllocated_ge bs cursor t (rest.length : Int)
        simp only [MIN_ROUTINE_MINUTES] at halloc ⊢
        rcases List.mem_cons.mp hw with hw1 | hw2
        · subst hw1
          refine ⟨le_refl _, ?_, ?_, ?_⟩
          · show cursor < min (cursor + cascadeAllocated bs cursor t (rest.length : Int)) bs
            omega
          · show min (cursor + cascadeAllocated bs cursor t (rest.length : Int)) bs ≤ bs
            omega
          · show min 2 (bs - cursor) ≤
              min (cursor + cascadeAllocated bs cursor t (rest.length : Int)) bs - cursor
            omega
        · obtain ⟨h1, h2, h3, h4⟩ := ih _ w hw2
          exact ⟨by omega, h2, h3, h4⟩

/-- The first window the cascade loop emits starts exactly at the cursor. -/
theorem cascadeLoop_head (bs cursor : Int) (targets : List TimeRange) (w : TimeRange)
    (hw : (cascadeLoop bs cursor targets).head? = some w) : w.startMinutes = cursor := by
  cases targets with
  | nil => simp [cascadeLoop] at hw
  | cons t rest =>
      simp only [cascadeLoop] at hw
      by_cases hav : bs - cursor ≤ 0
      · rw [if_pos hav] at hw
        simp at hw
      · rw [if_neg hav] at hw
        simp only [List.head?_cons, Option.some.injEq] at hw
        subst hw
        rfl

/-- Consecutive windows of the cascade loop are adjacent: each ends where the
next one starts. -/
theorem cascadeLoop_chain (bs : Int) (targets : List TimeRange) : ∀ cursor : Int,
    List.Chain' (fun a b => a.endMinutes = b.startMinutes) (cascadeLoop bs cursor targets) := by
  induction targets with
  | nil =>
      intro cursor
      simp [cascadeLoop]
  | cons t rest ih =>
      intro cursor
      simp only [cascadeLoop]
      by_cases hav : bs - cursor ≤ 0
      · rw [if_pos hav]
        exact List.chain'_nil
      · rw [if_neg hav]
        rw [List.chain'_cons']
        refine ⟨?_, ih _⟩
        intro b hb
        have hb2 := cascadeLoop_head bs _ rest b hb
        rw [hb2]

/-- `pinLast` keeps the list non-empty. -/
theorem pinLast_ne_nil (bs : Int) : ∀ l : List TimeRange, l ≠ [] → pinLast bs l ≠ [] := by
  intro l hl
  match l with
  | [r] =>
      simp only [pinLast]
      exact List.cons_ne_nil _ _
  | r :: z :: zs =>
      exact List.cons_ne_nil _ _

/-- `pinLast` on a non-empty list keeps the head's start unchanged. -/
theorem pinLast_cons_head (bs : Int) (x : TimeRange) (xs : List TimeRange) :
    ∃ y l, pinLast bs (x :: xs) = y :: l ∧ y.startMinutes = x.startMinutes := by
  cases xs with
  | nil =>
      by_cases h : x.endMinutes < bs
      · refine ⟨{ startMinutes := x.startMinutes, endMinutes := bs }, [], ?_, rfl⟩
        simp only [pinLast]
        rw [if_pos h]
      · refine ⟨x, [], ?_, rfl⟩
        simp only [pinLast]
        rw [if_neg h]
  | cons z zs => exact ⟨x, _, rfl, rfl⟩

/-- Every window of `pinLast l` comes from a window of `l` with the same start
and an end that is either unchanged or moved up to the boundary. -/
theorem mem_pinLast (bs : Int) : ∀ (l : List TimeRange) (w : TimeRange), w ∈ pinLast bs l →
    ∃ v ∈ l, w.startMinutes = v.startMinutes ∧ v.endMinutes ≤ w.endMinutes ∧
      (w.endMinutes = v.endMinutes ∨ w.endMinutes = bs) := by
  intro l
  induction l with
  | nil =>
      intro w hw
      simp [pinLast] at hw
  | cons r rest ih =>
      cases rest with
      | nil =>
          intro w hw
          simp only [pinLast] at hw
          by_cases h : r.endMinutes < bs
          · rw [if_pos h] at hw
            simp only [List.mem_singleton] at hw
            subst hw
            exact ⟨r, List.mem_singleton.mpr rfl, rfl, le_of_lt h, Or.inr rfl⟩
          · rw [if_neg h] at hw
            simp only [List.mem_singleton] at hw
            subst hw
            exact ⟨w, List.mem_singleton.mpr rfl, rfl, le_refl _, Or.inl rfl⟩
      | cons z zs =>
          intro w hw
          rw [show pinLast bs (r :: z :: zs) = r :: pinLast bs (z :: zs) from rfl] at hw
          rcases List.mem_cons.mp hw with h1 | h2
          · subst h1
            exact ⟨w, List.mem_cons_self _ _, rfl, le_refl _, Or.inl rfl⟩
          · obtain ⟨v, hv, h3, h4, h5⟩ := ih w h2
            exact ⟨v, List.mem_cons_of_mem r hv, h3, h4, h5⟩

/-- If every end is at most the boundary, the last window after `pinLast` ends
exactly at the boundary. -/
theorem pinLast_getLast (bs : Int) : ∀ l : List TimeRange,
    (∀ v ∈ l, v.endMinutes ≤ bs) → ∀ w, (pinLast bs l).getLast? = some w →
      w.endMinutes = bs := by
  intro l
  induction l with
  | nil =>
      intro _ w hw
      simp [pinLast] at hw
  | cons r rest ih =>
      cases rest with
      | nil =>
          intro hb w hw
          simp only [pinLast] at hw
          by_cases h : r.endMinutes < bs
          · rw [if_pos h] at hw
            rw [List.getLast?_singleton, Option.some.injEq] at hw
            subst hw
            rfl
          · rw [if_neg h] at hw
            rw [List.getLast?_singleton, Option.some.injEq] at hw
            subst hw
            have h2 := hb r (List.mem_singleton.mpr rfl)
            omega
      | cons z zs =>
          intro hb w hw
          rw [show pinLast bs (r :: z :: zs) = r :: pinLast bs (z :: zs) from rfl] at hw
          have hne : pinLast bs (z :: zs) ≠ [] :=
            pinLast_ne_nil bs _ (List.cons_ne_nil _ _)
          obtain ⟨y, l2, hyl⟩ := List.exists_cons_of_ne_nil hne
          rw [hyl, List.getLast?_cons_cons, ← hyl] at hw
          exact ih (fun v hv => hb v (List.mem_cons_of_mem r hv)) w hw

/-- `pinLast` preserves window adjacency. -/
theorem pinLast_chain (bs : Int) : ∀ l : List TimeRange,
    List.Chain' (fun a b => a.endMinutes = b.startMinutes) l →
    List.Chain' (fun a b => a.endMinutes = b.startMinutes) (pinLast bs l) := by
  intro l
  induction l with
  | nil =>
      intro _
      simp [pinLast]
  | cons r rest ih =>
      cases rest with
      | nil =>
          intro _
          simp only [pinLast]
          exact List.chain'_singleton _
      | cons z zs =>
          intro hc
          rw [show pinLast bs (r :: z :: zs) = r :: pinLast bs (z :: zs) from rfl]
          obtain ⟨hrz, hcz⟩ := List.chain'_cons'.mp hc
          rw [List.chain'_cons']
          refine ⟨?_, ih hcz⟩
          intro y hy
          obtain ⟨y2, l2, hyl, hstart⟩ := pinLast_cons_head bs z zs
          rw [hyl] at hy
          simp only [List.head?_cons, Option.mem_def, Option.some.injEq] at hy
          subst hy
          rw [hstart]
          exact hrz z rfl

/-- `pinLast` preserves the head's start. -/
theorem pinLast_head (bs : Int) (l : List TimeRange) (w : TimeRange)
    (hw : (pinLast bs l).head? = some w) :
    ∃ v, l.head? = some v ∧ w.startMinutes = v.startMinutes := by
  cases l with
  | nil => simp [pinLast] at hw
  | cons x xs =>
      obtain ⟨y, l2, hyl, hstart⟩ := pinLast_cons_head bs x xs
      rw [hyl] at hw
      simp only [List.head?_cons, Option.some.injEq] at hw
      subst hw
      exact ⟨x, rfl, hstart⟩

/-! ### Catalog (C9) -/

/-- For an in-day minute count, `minutesToHourMinute` splits it exactly. -/
theorem minutesToHourMinute_decomp {m : Int} (h0 : 0 ≤ m) (h1 : m < 1440) :
    (minutesToHourMinute m).hour * 60 + (minutesToHourMinute m).minute = m := by
  simp only [minutesToHourMinute, jsNormMinute_of_bounds h0 h1]
  omega

/-- The clamp chain of `normalizeMealPreferences` gives breakfast in
[05:00, 11:00], lunch at least an hour later and by 17:00, dinner at least an
hour after lunch and by 21:00. -/
theorem normalizeMealPreferences_bounds (prefs : MealPreferences) :
    300 ≤ (normalizeMealPreferences prefs).breakfastStart ∧
    (normalizeMealPreferences prefs).breakfastStart ≤ 660 ∧
    (normalizeMealPreferences prefs).breakfastStart + 60 ≤
      (normalizeMealPreferences prefs).lunchStart ∧
    (normalizeMealPreferences prefs).lunchStart ≤ 1020 ∧
    (normalizeMealPreferences prefs).lunchStart + 60 ≤
      (normalizeMealPreferences prefs).dinnerStart ∧
    (normalizeMealPreferences prefs).dinnerStart ≤ 1260 := by
  simp only [normalizeMealPreferences, clamp, EARLIEST_BREAKFAST, WAKE_END, LATEST_BREAKFAST,
    MIN_MEAL_DURATION, LATEST_LUNCH, LATEST_DINNER, SLEEP_START]
  refine ⟨?_, ?_, ?_, ?_, ?_, ?_⟩ <;> omega

/-- **C9.** For every `MealPreferences` input, `buildRoutineSeeds` returns
exactly nine seeds in the fixed order wake-up, work-early, breakfast,
work-late-morning, lunch, work-afternoon, dinner, work-evening, sleep; exactly
the four work seeds are flexible; each meal seed window lasts exactly 60
minutes; each flexible work seed window is the gap between its two neighboring
anchors' seed windows; the sleep seed runs from the fixed 22:00 start to the
fixed 04:00 end, normalizing to 22:00–28:00 (crossing midnight); and exactly
the three meals and sleep carry a reminder equal to their start. -/
theorem C9_catalog_structure (prefs : MealPreferences) :
    ∃ wake workE bf workM lu workA di workV sl,
      buildRoutineSeeds prefs = [wake, workE, bf, workM, lu, workA, di, workV, sl] ∧
      (wake.title = titleWake ∧ workE.title = titleWorkEarly ∧ bf.title = titleBreakfast ∧
        workM.title = titleWorkLateMorning ∧ lu.title = titleLunch ∧
        workA.title = titleWorkAfternoon ∧ di.title = titleDinner ∧
        workV.title = titleWorkEvening ∧ sl.title = titleSleep) ∧
      (wake.isFlexible = false ∧ workE.isFlexible = true ∧ bf.isFlexible = false ∧
        workM.isFlexible = true ∧ lu.isFlexible = false ∧ workA.isFlexible = true ∧
        di.isFlexible = false ∧ workV.isFlexible = true ∧ sl.isFlexible = false) ∧
      ((seedToRange bf).endMinutes - (seedToRange bf).startMinutes = 60 ∧
        (seedToRange lu).endMinutes - (seedToRange lu).startMinutes = 60 ∧
        (seedToRange di).endMinutes - (seedToRange di).startMinutes = 60) ∧
      (workE.startHour * 60 + workE.startMinute = wake.endHour * 60 + wake.endMinute ∧
        workE.endHour * 60 + workE.endMinute = bf.startHour * 60 + bf.startMinute ∧
        workM.startHour * 60 + workM.startMinute = bf.endHour * 60 + bf.endMinute ∧
        workM.endHour * 60 + workM.endMinute = lu.startHour * 60 + lu.startMinute ∧
        workA.startHour * 60 + workA.startMinute = lu.endHour * 60 + lu.endMinute ∧
        workA.endHour * 60 + workA.endMinute = di.startHour * 60 + di.startMinute ∧
        workV.startHour * 60 + workV.startMinute = di.endHour * 60 + di.endMinute ∧
        workV.endHour * 60 + workV.endMinute = sl.startHour * 60 + sl.startMinute) ∧
      (sl.startHour * 60 + sl.startMinute = SLEEP_START ∧
        sl.endHour * 60 + sl.endMinute = WAKE_START ∧
        seedToRange sl = { startMinutes := 1320, endMinutes := 1680 }) ∧
      (wake.reminder = none ∧ workE.reminder = none ∧ workM.reminder = none ∧
        workA.reminder = none ∧ workV.reminder = none ∧
        bf.reminder = some { hour := bf.startHour, minute := bf.startMinute } ∧
        lu.reminder = some { hour := lu.startHour, minute := lu.startMinute } ∧
        di.reminder = some { hour := di.startHour, minute := di.startMinute } ∧
        sl.reminder = some { hour := sl.startHour, minute := sl.startMinute }) := by
  obtain ⟨hb1, hb2, hl1, hl2, hd1, hd2⟩ := normalizeMealPreferences_bounds prefs
  simp only [buildRoutineSeeds, MIN_MEAL_DURATION, WAKE_START, WAKE_END, SLEEP_START]
  set b := (normalizeMealPreferences prefs).breakfastStart with hbdef
  set l := (normalizeMealPreferences prefs).lunchStart with hldef
  set d := (normalizeMealPreferences prefs).dinnerStart with hddef
  have db : (minutesToHourMinute b).hour * 60 + (minutesToHourMinute b).minute = b :=
    minutesToHourMinute_decomp (by omega) (by omega)
  have dbe : (minutesToHourMinute (b + 60)).hour * 60 +
      (minutesToHourMinute (b + 60)).minute = b + 60 :=
    minutesToHourMinute_decomp (by omega) (by omega)
  have dL : (minutesToHourMinute (max l (b + 60 + 60))).hour * 60 +
      (minutesToHourMinute (max l (b + 60 + 60))).minute = max l (b + 60 + 60) :=
    minutesToHourMinute_decomp (by omega) (by omega)
  have dLe : (minutesToHourMinute (max l (b + 60 + 60) + 60)).hour * 60 +
      (minutesToHourMinute (max l (b + 60 + 60) + 60)).minute =
        max l (b + 60 + 60) + 60 :=
    minutesToHourMinute_decomp (by omega) (by omega)
  have dD : (minutesToHourMinute (max d (max l (b + 60 + 60) + 60 + 60))).hour * 60 +
      (minutesToHourMinute (max d (max l (b + 60 + 60) + 60 + 60))).minute =
        max d (max l (b + 60 + 60) + 60 + 60) :=
    minutesToHourMinute_decomp (by omega) (by omega)
  have dDe : (minutesToHourMinute (max d (max l (b + 60 + 60) + 60 + 60) + 60)).hour * 60 +
      (minutesToHourMinute (max d (max l (b + 60 + 60) + 60 + 60) + 60)).minute =
        max d (max l (b + 60 + 60) + 60 + 60) + 60 :=
    minutesToHourMinute_decomp (by omega) (by omega)
  have hmin : min (max d (max l (b + 60 + 60) + 60 + 60) + 60) (22 * 60) =
      max d (max l (b + 60 + 60) + 60 + 60) + 60 := by omega
  refine ⟨_, _, _, _, _, _, _, _, _, rfl, ?_, ?_, ?_, ?_, ?_, ?_⟩
  · exact ⟨rfl, rfl, rfl, rfl, rfl, rfl, rfl, rfl, rfl⟩
  · exact ⟨rfl, rfl, rfl, rfl, rfl, rfl, rfl, rfl, rfl⟩
  · refine ⟨?_, ?_, ?_⟩
    · simp only [seedToRange, normalizeRange]
      rw [db, dbe, bumpEnd_of_lt (show b < b + 60 by omega)]
      omega
    · simp only [seedToRange, normalizeRange]
      rw [dL, dLe, bumpEnd_of_lt (show max l (b + 60 + 60) < max l (b + 60 + 60) + 60 by omega)]
      omega
    · simp only [seedToRange, normalizeRange]
      rw [dD, dDe, bumpEnd_of_lt (show max d (max l (b + 60 + 60) + 60 + 60) <
        max d (max l (b + 60 + 60) + 60 + 60) + 60 by omega)]
      omega
  · refine ⟨rfl, rfl, rfl, rfl, rfl, rfl, ?_, rfl⟩
    dsimp only
    rw [hmin]
  · refine ⟨by decide, by decide, ?_⟩
    rfl
  · exact ⟨rfl, rfl, rfl, rfl, rfl, rfl, rfl, rfl, rfl⟩

/-! ### Reconciler fold machinery (shared by C1, C4, C5) -/

theorem withTimeRange_id (t : Task) (r : TimeRange) : (withTimeRange t r).id = t.id := rfl

theorem withTimeRange_title (t : Task) (r : TimeRange) :
    (withTimeRange t r).title = t.title := rfl

theorem withTimeRange_due_at (t : Task) (r : TimeRange) :
    (withTimeRange t r).due_at = t.due_at := rfl

theorem withTimeRange_description (t : Task) (r : TimeRange) :
    (withTimeRange t r).description =
      some (injectTimeMetadata (some (sanitizeDescription t.description)) r) := rfl

/-- A successful `routineByTitle` lookup returns a member whose lowercased title
is the key. -/
theorem lookup_foldl_some : ∀ (l : List Task) (k : String) (acc : Option Task) (w : Task),
    l.foldl (fun acc task => if toLowerString task.title = k then some task else acc) acc =
      some w →
    acc = some w ∨ (w ∈ l ∧ toLowerString w.title = k) := by
  intro l
  induction l with
  | nil =>
      intro k acc w h
      exact Or.inl h
  | cons t rest ih =>
      intro k acc w h
      simp only [List.foldl_cons] at h
      rcases ih k _ w h with h1 | h2
      · by_cases ht : toLowerString t.title = k
        · rw [if_pos ht] at h1
          injection h1 with h1
          subst h1
          exact Or.inr ⟨List.mem_cons_self _ _, ht⟩
        · rw [if_neg ht] at h1
          exact Or.inl h1
      · exact Or.inr ⟨List.mem_cons_of_mem _ h2.1, h2.2⟩

theorem lookupRoutineByTitle_some {l : List Task} {k : String} {w : Task}
    (h : lookupRoutineByTitle l k = some w) : w ∈ l ∧ toLowerString w.title = k := by
  rcases lookup_foldl_some l k none w h with h1 | h2
  · exact Option.noConfusion h1
  · exact h2

/-- Once the accumulator holds `t` and every later key match is `t` itself, the
lookup fold keeps returning `t`. -/
theorem lookup_foldl_keep (k : String) (t : Task) :
    ∀ l : List Task, (∀ u ∈ l, toLowerString u.title = k → u = t) →
      l.foldl (fun acc task => if toLowerString task.title = k then some task else acc)
        (some t) = some t := by
  intro l
  induction l with
  | nil =>
      intro _
      rfl
  | cons u rest ih =>
      intro h
      simp only [List.foldl_cons]
      by_cases hu : toLowerString u.title = k
      · rw [if_pos hu, h u (List.mem_cons_self _ _) hu]
        exact ih (fun v hv hvk => h v (List.mem_cons_of_mem _ hv) hvk)
      · rw [if_neg hu]
        exact ih (fun v hv hvk => h v (List.mem_cons_of_mem _ hv) hvk)

theorem lookup_foldl_hit (k : String) (t : Task) (hk : toLowerString t.title = k) :
    ∀ (l : List Task) (acc : Option Task), t ∈ l →
      (∀ u ∈ l, toLowerString u.title = k → u = t) →
      l.foldl (fun acc task => if toLowerString task.title = k then some task else acc) acc =
        some t := by
  intro l
  induction l with
  | nil =>
      intro acc hmem _
      simp at hmem
  | cons u rest ih =>
      intro acc hmem huni
      simp only [List.foldl_cons]
      rcases List.mem_cons.mp hmem with h1 | h2
      · subst h1
        rw [if_pos hk]
        exact lookup_foldl_keep k t rest (fun v hv hvk => huni v (List.mem_cons_of_mem _ hv) hvk)
      · exact ih _ h2 (fun v hv hvk => huni v (List.mem_cons_of_mem _ hv) hvk)

/-- A routine that is the unique holder of its lowercased title is its own
`routineByTitle` winner. -/
theorem lookupRoutineByTitle_eq_of_unique {l : List Task} {t : Task}
    (hmem : t ∈ l)
    (huni : ∀ u ∈ l, toLowerString u.title = toLowerString t.title → u = t) :
    lookupRoutineByTitle l (toLowerString t.title) = some t :=
  lookup_foldl_hit (toLowerString t.title) t rfl l none hmem huni

/-- A successful `updates.get` comes from a stored binding. -/
theorem getUpdate_foldl_some :
    ∀ (l : List (String × Task)) (acc : Option Task) (j : String) (u : Task),
      l.foldl (fun acc p => if p.1 = j then some p.2 else acc) acc = some u →
      acc = some u ∨ (j, u) ∈ l := by
  intro l
  induction l with
  | nil =>
      intro acc j u h
      exact Or.inl h
  | cons p rest ih =>
      intro acc j u h
      simp only [List.foldl_cons] at h
      rcases ih _ j u h with h1 | h2
      · by_cases hp : p.1 = j
        · rw [if_pos hp] at h1
          injection h1 with h1
          refine Or.inr ?_
          have hpu : p = (j, u) := by
            obtain ⟨a, b⟩ := p
            simp_all
          rw [hpu]
          exact List.mem_cons_self _ _
        · rw [if_neg hp] at h1
          exact Or.inl h1
      · exact Or.inr (List.mem_cons_of_mem _ h2)

theorem getUpdate_some_mem {l : List (String × Task)} {j : String} {u : Task}
    (h : getUpdate l j = some u) : (j, u) ∈ l := by
  rcases getUpdate_foldl_some l none j u h with h1 | h2
  · exact Option.noConfusion h1
  · exact h2

/-- `updates.set` then `updates.get`: the appended binding wins for its own id
and is invisible to other ids. -/
theorem getUpdate_append_one (l : List (String × Task)) (i : String) (v : Task) (j : String) :
    getUpdate (l ++ [(i, v)]) j = if i = j then some v else getUpdate l j := by
  unfold getUpdate
  rw [List.foldl_append]
  rfl

theorem contains_append_one_ne (l : List String) {x y : String} (h : x ≠ y) :
    (l ++ [x]).contains y = l.contains y := by
  by_cases hy : y ∈ l
  · simp [hy]
  · simp [hy, Ne.symm h]

theorem contains_append_one_self (l : List String) (x : String) :
    (l ++ [x]).contains x = true := by
  simp

theorem contains_mono (l : List String) {x : String} (h : l.contains x = true) (y : String) :
    (l ++ [y]).contains x = true := by
  have := List.elem_iff.mp h
  simp [this]

theorem map_eq_self_of_mem {α : Type} {l : List α} {f : α → α} (h : ∀ x ∈ l, f x = x) :
    l.map f = l := by
  induction l with
  | nil => rfl
  | cons a t ih =>
      simp only [List.map_cons, h a (List.mem_cons_self a t), List.cons.injEq, true_and]
      exact ih (fun x hx => h x (List.mem_cons_of_mem a hx))

/-- A seed whose key has no routine leaves the state untouched. -/
theorem adjStep_no_winner {rbt : String → Option Task} (rm : String → Option TimeRange)
    (ft fd : List String) (st : AdjState) (s : DefaultRoutineSeed)
    (hw : rbt (toLowerString s.title) = none) :
    adjStep rbt rm ft fd st s = st := by
  simp only [adjStep, hw]

/-- The custom-range branch: a parseable description short-circuits every
adjustment, re-injecting the normalized parsed range and blocking it. -/
theorem adjStep_custom {rbt : String → Option Task} (rm : String → Option TimeRange)
    (ft fd : List String) (st : AdjState) (s : DefaultRoutineSeed) {w : Task} {r : TimeRange}
    (hw : rbt (toLowerString s.title) = some w)
    (hp : parseTimeRange w.description = some r) :
    adjStep rbt rm ft fd st s =
      { blocking := st.blocking ++ [toBlockingRange (normalizeRange r)]
        updates := st.updates ++ [(w.id, withTimeRange w (normalizeRange r))]
        removed := st.removed } := by
  simp only [adjStep, hw, hp]

theorem adjStep_food {rbt : String → Option Task} (rm : String → Option TimeRange)
    (ft fd : List String) (st : AdjState) (s : DefaultRoutineSeed) {w : Task}
    (hw : rbt (toLowerString s.title) = some w)
    (hp : parseTimeRange w.description = none)
    (hfd : fd.contains (toLowerString s.title) = true) :
    adjStep rbt rm ft fd st s =
      { blocking := st.blocking ++
          [toBlockingRange (adjustFoodRange
            ((rm (toLowerString s.title)).getD (seedToRange s)) st.blocking)]
        updates := st.updates ++
          [(w.id, withTimeRange w (adjustFoodRange
            ((rm (toLowerString s.title)).getD (seedToRange s)) st.blocking))]
        removed := st.removed } := by
  simp only [adjStep, hw, hp, hfd, if_true]

theorem adjStep_flex_some {rbt : String → Option Task} (rm : String → Option TimeRange)
    (ft fd : List String) (st : AdjState) (s : DefaultRoutineSeed) {w : Task} {g : TimeRange}
    (hw : rbt (toLowerString s.title) = some w)
    (hp : parseTimeRange w.description = none)
    (hfd : fd.contains (toLowerString s.title) = false)
    (hft : ft.contains (toLowerString s.title) = true)
    (hg : adjustFlexibleRange ((rm (toLowerString s.title)).getD (seedToRange s))
      st.blocking = some g) :
    adjStep rbt rm ft fd st s =
      { blocking := st.blocking ++ [toBlockingRange g]
        updates := st.updates ++ [(w.id, withTimeRange w g)]
        removed := st.removed } := by
  simp only [adjStep, hw, hp, hfd, hft, hg, if_true, Bool.false_eq_true, if_false]

theorem adjStep_flex_none {rbt : String → Option Task} (rm : String → Option TimeRange)
    (ft fd : List String) (st : AdjState) (s : DefaultRoutineSeed) {w : Task}
    (hw : rbt (toLowerString s.title) = some w)
    (hp : parseTimeRange w.description = none)
    (hfd : fd.contains (toLowerString s.title) = false)
    (hft : ft.contains (toLowerString s.title) = true)
    (hg : adjustFlexibleRange ((rm (toLowerString s.title)).getD (seedToRange s))
      st.blocking = none) :
    adjStep rbt rm ft fd st s =
      { blocking := st.blocking
        updates := st.updates
        removed := st.removed ++ [w.id] } := by
  simp only [adjStep, hw, hp, hfd, hft, hg, if_true, Bool.false_eq_true, if_false]

theorem adjStep_else {rbt : String → Option Task} (rm : String → Option TimeRange)
    (ft fd : List String) (st : AdjState) (s : DefaultRoutineSeed) {w : Task}
    (hw : rbt (toLowerString s.title) = some w)
    (hp : parseTimeRange w.description = none)
    (hfd : fd.contains (toLowerString s.title) = false)
    (hft : ft.contains (toLowerString s.title) = false) :
    adjStep rbt rm ft fd st s =
      { blocking := st.blocking ++
          [toBlockingRange ((rm (toLowerString s.title)).getD (seedToRange s))]
        updates := st.updates ++
          [(w.id, withTimeRange w ((rm (toLowerString s.title)).getD (seedToRange s)))]
        removed := st.removed } := by
  simp only [adjStep, hw, hp, hfd, hft, Bool.false_eq_true, if_false]

/-- One reconciler step never discards a blocking range. -/
theorem adjStep_blocking_mono (rbt : String → Option Task) (rm : String → Option TimeRange)
    (ft fd : List String) (st : AdjState) (s : DefaultRoutineSeed) :
    ∀ b ∈ st.blocking, b ∈ (adjStep rbt rm ft fd st s).blocking := by
  intro b hb
  cases hw : rbt (toLowerString s.title) with
  | none =>
      rw [adjStep_no_winner rm ft fd st s hw]
      exact hb
  | some w =>
      cases hp : parseTimeRange w.description with
      | some r =>
          rw [adjStep_custom rm ft fd st s hw hp]
          exact List.mem_append_left _ hb
      | none =>
          cases hfd : fd.contains (toLowerString s.title) with
          | true =>
              rw [adjStep_food rm ft fd st s hw hp hfd]
              exact List.mem_append_left _ hb
          | false =>
              cases hft : ft.contains (toLowerString s.title) with
              | true =>
                  cases hg : adjustFlexibleRange
                      ((rm (toLowerString s.title)).getD (seedToRange s)) st.blocking with
                  | none =>
                      rw [adjStep_flex_none rm ft fd st s hw hp hfd hft hg]
                      exact hb
                  | some g =>
                      rw [adjStep_flex_some rm ft fd st s hw hp hfd hft hg]
                      exact List.mem_append_left _ hb
              | false =>
                  rw [adjStep_else rm ft fd st s hw hp hfd hft]
                  exact List.mem_append_left _ hb

/-- The whole reconciler pass never discards a blocking range — in particular
all fixed-task day ranges stay in force for every later placement. -/
theorem foldl_adjStep_blocking_mono (rbt : String → Option Task)
    (rm : String → Option TimeRange) (ft fd : List String) :
    ∀ (seeds : List DefaultRoutineSeed) (st : AdjState) (b : TimeRange),
      b ∈ st.blocking → b ∈ (seeds.foldl (adjStep rbt rm ft fd) st).blocking := by
  intro seeds
  induction seeds with
  | nil =>
      intro st b hb
      exact hb
  | cons s rest ih =>
      intro st b hb
      exact ih _ b (adjStep_blocking_mono rbt rm ft fd st s b hb)

/-- A seed with a different key leaves `t`'s update slot and removal flag
untouched (given id-uniqueness of routines). -/
theorem adjStep_other {rbt : String → Option Task} (rm : String → Option TimeRange)
    (ft fd : List String) (t : Task) (st : AdjState) (s : DefaultRoutineSeed)
    (htitle : ∀ k w, rbt k = some w → toLowerString w.title = k)
    (huniq : ∀ k w, rbt k = some w → w.id = t.id → w = t)
    (hks : toLowerString s.title ≠ toLowerString t.title) :
    getUpdate (adjStep rbt rm ft fd st s).updates t.id = getUpdate st.updates t.id ∧
    (adjStep rbt rm ft fd st s).removed.contains t.id = st.removed.contains t.id := by
  cases hw : rbt (toLowerString s.title) with
  | none =>
      rw [adjStep_no_winner rm ft fd st s hw]
      exact ⟨rfl, rfl⟩
  | some w =>
      have hwid : w.id ≠ t.id := by
        intro he
        have hwt := huniq _ _ hw he
        have hkey := htitle _ _ hw
        rw [hwt] at hkey
        exact hks hkey.symm
      cases hp : parseTimeRange w.description with
      | some r =>
          rw [adjStep_custom rm ft fd st s hw hp]
          exact ⟨by rw [getUpdate_append_one, if_neg hwid], rfl⟩
      | none =>
          cases hfd : fd.contains (toLowerString s.title) with
          | true =>
              rw [adjStep_food rm ft fd st s hw hp hfd]
              exact ⟨by rw [getUpdate_append_one, if_neg hwid], rfl⟩
          | false =>
              cases hft : ft.contains (toLowerString s.title) with
              | true =>
                  cases hg : adjustFlexibleRange
                      ((rm (toLowerString s.title)).getD (seedToRange s)) st.blocking with
                  | none =>
                      rw [adjStep_flex_none rm ft fd st s hw hp hfd hft hg]
                      exact ⟨rfl, contains_append_one_ne _ hwid⟩
                  | some g =>
                      rw [adjStep_flex_some rm ft fd st s hw hp hfd hft hg]
                      exact ⟨by rw [getUpdate_append_one, if_neg hwid], rfl⟩
              | false =>
                  rw [adjStep_else rm ft fd st s hw hp hfd hft]
                  exact ⟨by rw [getUpdate_append_one, if_neg hwid], rfl⟩

/-- Processing `t`'s own key with an unparseable description either writes an
update for `t.id` or marks it removed. -/
theorem adjStep_key_noparse {rbt : String → Option Task} (rm : String → Option TimeRange)
    (ft fd : List String) (t : Task) (st : AdjState) (s : DefaultRoutineSeed)
    (hw : rbt (toLowerString s.title) = some t)
    (hp : parseTimeRange t.description = none) :
    getUpdate (adjStep rbt rm ft fd st s).updates t.id ≠ none ∨
      (adjStep rbt rm ft fd st s).removed.contains t.id = true := by
  cases hfd : fd.contains (toLowerString s.title) with
  | true =>
      rw [adjStep_food rm ft fd st s hw hp hfd]
      left
      rw [getUpdate_append_one, if_pos rfl]
      simp
  | false =>
      cases hft : ft.contains (toLowerString s.title) with
      | true =>
          cases hg : adjustFlexibleRange
              ((rm (toLowerString s.title)).getD (seedToRange s)) st.blocking with
          | none =>
              rw [adjStep_flex_none rm ft fd st s hw hp hfd hft hg]
              right
              exact contains_append_one_self _ _
          | some g =>
              rw [adjStep_flex_some rm ft fd st s hw hp hfd hft hg]
              left
              rw [getUpdate_append_one, if_pos rfl]
              simp
      | false =>
          rw [adjStep_else rm ft fd st s hw hp hfd hft]
          left
          rw [getUpdate_append_one, if_pos rfl]
          simp

/-- One step preserves "updated or removed" for any routine id. -/
theorem adjStep_R (rbt : String → Option Task) (rm : String → Option TimeRange)
    (ft fd : List String) (t : Task) (st : AdjState) (s : DefaultRoutineSeed)
    (hR : getUpdate st.updates t.id ≠ none ∨ st.removed.contains t.id = true) :
    getUpdate (adjStep rbt rm ft fd st s).updates t.id ≠ none ∨
      (adjStep rbt rm ft fd st s).removed.contains t.id = true := by
  have happend : ∀ (i : String) (v : Task),
      getUpdate (st.updates ++ [(i, v)]) t.id ≠ none ∨ st.removed.contains t.id = true := by
    intro i v
    rw [getUpdate_append_one]
    by_cases hi : i = t.id
    · rw [if_pos hi]
      left
      simp
    · rw [if_neg hi]
      exact hR
  cases hw : rbt (toLowerString s.title) with
  | none =>
      rw [adjStep_no_winner rm ft fd st s hw]
      exact hR
  | some w =>
      cases hp : parseTimeRange w.description with
      | some r =>
          rw [adjStep_custom rm ft fd st s hw hp]
          exact happend _ _
      | none =>
          cases hfd : fd.contains (toLowerString s.title) with
          | true =>
              rw [adjStep_food rm ft fd st s hw hp hfd]
              exact happend _ _
          | false =>
              cases hft : ft.contains (toLowerString s.title) with
              | true =>
                  cases hg : adjustFlexibleRange
                      ((rm (toLowerString s.title)).getD (seedToRange s)) st.blocking with
                  | none =>
                      rw [adjStep_flex_none rm ft fd st s hw hp hfd hft hg]
                      rcases hR with h | h
                      · exact Or.inl h
                      · exact Or.inr (contains_mono _ h _)
                  | some g =>
                      rw [adjStep_flex_some rm ft fd st s hw hp hfd hft hg]
                      exact happend _ _
              | false =>
                  rw [adjStep_else rm ft fd st s hw hp hfd hft]
                  exact happend _ _

theorem foldl_adjStep_R (rbt : String → Option Task) (rm : String → Option TimeRange)
    (ft fd : List String) (t : Task) :
    ∀ (seeds : List DefaultRoutineSeed) (st : AdjState),
      (getUpdate st.updates t.id ≠ none ∨ st.removed.contains t.id = true) →
      getUpdate (seeds.foldl (adjStep rbt rm ft fd) st).updates t.id ≠ none ∨
        (seeds.foldl (adjStep rbt rm ft fd) st).removed.contains t.id = true := by
  intro seeds
  induction seeds with
  | nil =>
      intro st hR
      exact hR
  | cons s rest ih =>
      intro st hR
      exact ih _ (adjStep_R rbt rm ft fd t st s hR)

/-- If every winner's description parses, the pass removes nothing. -/
theorem foldl_adjStep_removed_all_parse (rbt : String → Option Task)
    (rm : String → Option TimeRange) (ft fd : List String)
    (hall : ∀ k w, rbt k = some w → parseTimeRange w.description ≠ none) :
    ∀ (seeds : List DefaultRoutineSeed) (st : AdjState),
      (seeds.foldl (adjStep rbt rm ft fd) st).removed = st.removed := by
  intro seeds
  induction seeds with
  | nil =>
      intro st
      rfl
  | cons s rest ih =>
      intro st
      rw [List.foldl_cons, ih]
      cases hw : rbt (toLowerString s.title) with
      | none => rw [adjStep_no_winner rm ft fd st s hw]
      | some w =>
          cases hp : parseTimeRange w.description with
          | some r => rw [adjStep_custom rm ft fd st s hw hp]
          | none => exact absurd hp (hall _ _ hw)

/-- Every stored update binding is a winner re-injected with some range. -/
theorem foldl_adjStep_prov (rbt : String → Option Task) (rm : String → Option TimeRange)
    (ft fd : List String)
    (htitle : ∀ k w, rbt k = some w → toLowerString w.title = k) :
    ∀ (seeds : List DefaultRoutineSeed) (st : AdjState),
      (∀ p ∈ st.updates, ∃ w ρ, p.1 = w.id ∧ p.2 = withTimeRange w ρ ∧
        rbt (toLowerString w.title) = some w) →
      ∀ p ∈ (seeds.foldl (adjStep rbt rm ft fd) st).updates,
        ∃ w ρ, p.1 = w.id ∧ p.2 = withTimeRange w ρ ∧
          rbt (toLowerString w.title) = some w := by
  intro seeds
  induction seeds with
  | nil =>
      intro st h
      exact h
  | cons s rest ih =>
      intro st h
      rw [List.foldl_cons]
      apply ih
      intro p hp
      have hofw : ∀ (w : Task) (ρ : TimeRange), rbt (toLowerString s.title) = some w →
          p ∈ st.updates ++ [(w.id, withTimeRange w ρ)] →
          ∃ w2 ρ2, p.1 = w2.id ∧ p.2 = withTimeRange w2 ρ2 ∧
            rbt (toLowerString w2.title) = some w2 := by
        intro w ρ hw hpmem
        rcases List.mem_append.mp hpmem with h1 | h1
        · exact h p h1
        · rw [List.mem_singleton] at h1
          subst h1
          refine ⟨w, ρ, rfl, rfl, ?_⟩
          rw [htitle _ _ hw]
          exact hw
      cases hw : rbt (toLowerString s.title) with
      | none =>
          rw [adjStep_no_winner rm ft fd st s hw] at hp
          exact h p hp
      | some w =>
          cases hpw : parseTimeRange w.description with
          | some r =>
              rw [adjStep_custom rm ft fd st s hw hpw] at hp
              exact hofw w _ hw hp
          | none =>
              cases hfd : fd.contains (toLowerString s.title) with
              | true =>
                  rw [adjStep_food rm ft fd st s hw hpw hfd] at hp
                  exact hofw w _ hw hp
              | false =>
                  cases hft : ft.contains (toLowerString s.title) with
                  | true =>
                      cases hg : adjustFlexibleRange
                          ((rm (toLowerString s.title)).getD (seedToRange s)) st.blocking with
                      | none =>
                          rw [adjStep_flex_none rm ft fd st s hw hpw hfd hft hg] at hp
                          exact h p hp
                      | some g =>
                          rw [adjStep_flex_some rm ft fd st s hw hpw hfd hft hg] at hp
                          exact hofw w _ hw hp
                  | false =>
                      rw [adjStep_else rm ft fd st s hw hpw hfd hft] at hp
                      exact hofw w _ hw hp

/-- The pass's effect on a routine `t` that is its own title's winner: seeds of
other keys leave its slots alone; once its key is processed, a parseable
description yields exactly the custom-branch update (with the parsed range
blocked), and an unparseable one yields an update or a removal. -/
theorem foldl_adjStep_winner (rbt : String → Option Task) (rm : String → Option TimeRange)
    (ft fd : List String) (t : Task)
    (htitle : ∀ k w, rbt k = some w → toLowerString w.title = k)
    (huniq : ∀ k w, rbt k = some w → w.id = t.id → w = t)
    (hwt : rbt (toLowerString t.title) = some t) :
    ∀ (seeds : List DefaultRoutineSeed) (st : AdjState),
      (toLowerString t.title ∉ seeds.map (fun s => toLowerString s.title) →
        getUpdate (seeds.foldl (adjStep rbt rm ft fd) st).updates t.id =
            getUpdate st.updates t.id ∧
          (seeds.foldl (adjStep rbt rm ft fd) st).removed.contains t.id =
            st.removed.contains t.id) ∧
      (toLowerString t.title ∈ seeds.map (fun s => toLowerString s.title) →
        (∀ r, parseTimeRange t.description = some r →
          getUpdate (seeds.foldl (adjStep rbt rm ft fd) st).updates t.id =
              some (withTimeRange t (normalizeRange r)) ∧
            (seeds.foldl (adjStep rbt rm ft fd) st).removed.contains t.id =
              st.removed.contains t.id ∧
            toBlockingRange (normalizeRange r) ∈
              (seeds.foldl (adjStep rbt rm ft fd) st).blocking) ∧
        (parseTimeRange t.description = none →
          getUpdate (seeds.foldl (adjStep rbt rm ft fd) st).updates t.id ≠ none ∨
            (seeds.foldl (adjStep rbt rm ft fd) st).removed.contains t.id = true)) := by
  intro seeds
  induction seeds with
  | nil =>
      intro st
      refine ⟨fun _ => ⟨rfl, rfl⟩, fun hmem => ?_⟩
      simp at hmem
  | cons s rest ih =>
      intro st
      by_cases hks : toLowerString s.title = toLowerString t.title
      · constructor
        · intro hnot
          exact absurd (by rw [List.map_cons, hks]; exact List.mem_cons_self _ _) hnot
        · intro _
          constructor
          · intro r hp
            have hstep := adjStep_custom rm ft fd st s (by rw [hks]; exact hwt) hp
            rw [List.foldl_cons, hstep]
            by_cases hmem : toLowerString t.title ∈ rest.map (fun s => toLowerString s.title)
            · obtain ⟨hu, hrm, hbl⟩ := ((ih _).2 hmem).1 r hp
              exact ⟨hu, hrm, hbl⟩
            · obtain ⟨hu, hrm⟩ := (ih _).1 hmem
              refine ⟨?_, hrm, ?_⟩
              · rw [hu]
                show getUpdate (st.updates ++ [(t.id, withTimeRange t (normalizeRange r))])
                  t.id = _
                rw [getUpdate_append_one, if_pos rfl]
              · refine foldl_adjStep_blocking_mono rbt rm ft fd rest _ _ ?_
                exact List.mem_append_right _ (List.mem_singleton.mpr rfl)
          · intro hp
            have hstepR := adjStep_key_noparse rm ft fd t st s (by rw [hks]; exact hwt) hp
            rw [List.foldl_cons]
            exact foldl_adjStep_R rbt rm ft fd t rest _ hstepR
      · have hstep := adjStep_other rm ft fd t st s htitle huniq hks
        constructor
        · intro hnot
          have hnot2 : toLowerString t.title ∉ rest.map (fun s => toLowerString s.title) :=
            fun hm => hnot (by rw [List.map_cons]; exact List.mem_cons_of_mem _ hm)
          obtain ⟨hu, hrm⟩ := (ih _).1 hnot2
          rw [List.foldl_cons]
          exact ⟨by rw [hu, hstep.1], by rw [hrm, hstep.2]⟩
        · intro hmem
          have hmem2 : toLowerString t.title ∈ rest.map (fun s => toLowerString s.title) := by
            rw [List.map_cons] at hmem
            rcases List.mem_cons.mp hmem with h1 | h1
            · exact absurd h1.symm hks
            · exact h1
          rw [List.foldl_cons]
          constructor
          · intro r hp
            obtain ⟨hu, hrm, hbl⟩ := ((ih _).2 hmem2).1 r hp
            exact ⟨hu, hrm.trans hstep.2, hbl⟩
          · intro hp
            exact ((ih _).2 hmem2).2 hp

/-- The loop state, written as the explicit fold it abbreviates. -/
theorem applySAFinalState_eq (tasks : List Task) (sd : Int)
    (seeds : List DefaultRoutineSeed) (rm : String → Option TimeRange)
    (ft fd : List String) :
    applySAFinalState tasks sd seeds rm ft fd =
      seeds.foldl
        (adjStep (lookupRoutineByTitle (tasks.filter (fun task => task.due_at.isNone)))
          rm ft fd)
        { blocking := ((tasks.filter (fun task => task.due_at.isSome &&
              isTaskWithinRange task (getRangeForDate sd))).filterMap
              (fun task => parseTimeRange task.description)).map normalizeRange
          updates := []
          removed := [] } := rfl

/-- The reconciler's output, written as the filter-and-map it abbreviates. -/
theorem applySA_unfold (tasks : List Task) (sd : Int) (seeds : List DefaultRoutineSeed)
    (rm : String → Option TimeRange) (ft fd allowed : List String) :
    applyScheduleAdjustments tasks sd seeds rm ft fd allowed =
      (tasks.filter (fun task =>
          match task.due_at with
          | none => allowed.contains (toLowerString task.title) &&
              !((applySAFinalState tasks sd seeds rm ft fd).removed.contains task.id)
          | some _ => true)).map
        (fun task =>
          match task.due_at with
          | none => (getUpdate (applySAFinalState tasks sd seeds rm ft fd).updates
              task.id).getD task
          | some _ => task) := rfl

/-- An allowed, not-removed routine with a stored update binding appears in the
reconciler's output as that binding. -/
theorem mem_applySA_of_update (tasks : List Task) (sd : Int)
    (seeds : List DefaultRoutineSeed) (rm : String → Option TimeRange)
    (ft fd allowed : List String) (t u : Task)
    (hmem : t ∈ tasks) (hroutine : t.due_at = none)
    (hallow : allowed.contains (toLowerString t.title) = true)
    (hrm : (applySAFinalState tasks sd seeds rm ft fd).removed.contains t.id = false)
    (hupd : getUpdate (applySAFinalState tasks sd seeds rm ft fd).updates t.id = some u) :
    u ∈ applyScheduleAdjustments tasks sd seeds rm ft fd allowed := by
  rw [applySA_unfold]
  refine List.mem_map.mpr ⟨t, ?_, ?_⟩
  · refine List.mem_filter.mpr ⟨hmem, ?_⟩
    simp only [hroutine, hallow, hrm]
    rfl
  · simp only [hroutine, hupd, Option.getD_some]

/-- A routine that is the unique holder of its title (and id) among the
routines of `tasks` is its own `routineByTitle` winner, and the lookup map is
title-faithful and id-unique. -/
theorem rbt_facts (tasks : List Task) (t : Task)
    (hmem : t ∈ tasks) (hroutine : t.due_at = none)
    (htuniq : ∀ u ∈ tasks, u.due_at = none →
      toLowerString u.title = toLowerString t.title → u = t)
    (hiduniq : ∀ u ∈ tasks, u.due_at = none → u.id = t.id → u = t) :
    (∀ k w, lookupRoutineByTitle (tasks.filter (fun task => task.due_at.isNone)) k =
        some w → toLowerString w.title = k) ∧
    (∀ k w, lookupRoutineByTitle (tasks.filter (fun task => task.due_at.isNone)) k =
        some w → w.id = t.id → w = t) ∧
    lookupRoutineByTitle (tasks.filter (fun task => task.due_at.isNone))
      (toLowerString t.title) = some t := by
  have hmemf : ∀ u, u ∈ tasks.filter (fun task => task.due_at.isNone) →
      u ∈ tasks ∧ u.due_at = none := by
    intro u hu
    obtain ⟨h1, h2⟩ := List.mem_filter.mp hu
    exact ⟨h1, Option.isNone_iff_eq_none.mp h2⟩
  refine ⟨?_, ?_, ?_⟩
  · intro k w h
    exact (lookupRoutineByTitle_some h).2
  · intro k w h hid
    obtain ⟨hw1, -⟩ := lookupRoutineByTitle_some h
    obtain ⟨hw2, hw3⟩ := hmemf w hw1
    exact hiduniq w hw2 hw3 hid
  · refine lookupRoutineByTitle_eq_of_unique ?_ ?_
    · exact List.mem_filter.mpr ⟨hmem, by rw [hroutine]; rfl⟩
    · intro u hu hk
      obtain ⟨h1, h2⟩ := hmemf u hu
      exact htuniq u h1 h2 hk

/-- **C4 (counterexample).** The claim is not universal: a routine whose title
is not a catalog key — representable, since the task form accepts arbitrary
titles — has a parseable 09:00–10:00 range, yet the Reconciler drops it from
the output entirely and its range never joins the blocking set (the final
blocking set is empty). -/
theorem C4_counterexample_noncatalog_dropped :
    parseTimeRange exampleCustomTitled.description =
      some { startMinutes := 540, endMinutes := 600 } ∧
    exampleCustomTitled.due_at = none ∧
    reconcile DEFAULT_MEAL_PREFERENCES [exampleCustomTitled] 0 = [] ∧
    (applySAFinalState [exampleCustomTitled] 0
        (buildRoutineSeeds DEFAULT_MEAL_PREFERENCES)
        (routineRangeMapOf (buildRoutineSeeds DEFAULT_MEAL_PREFERENCES))
        FLEXIBLE_ROUTINE_TITLES FOOD_ROUTINE_TITLES).blocking = [] := by
  exact ⟨rfl, rfl, rfl, rfl⟩

/-- **C4 (amended).** A routine whose description already carries a parseable
time range passes through the Reconciler with exactly that normalized range
re-injected, for every task list (hence regardless of the fixed-task blockers),
provided its lowercased title is a catalog seed key and it is the unique
routine with its title and id; the parsed range is added to the blocking set;
and the custom-range branch of the per-seed step bypasses the food-shift and
largest-gap adjustments entirely (its full effect is to block and re-inject the
parsed range). Without those provisos the claim fails: non-catalog-titled
routines are dropped and never blocked, and of duplicate-titled routines only
the last is reconciled. -/
theorem C4_custom_range_passthrough (prefs : MealPreferences) (tasks : List Task)
    (selectedDate : Int) (t : Task) (r : TimeRange)
    (hmem : t ∈ tasks) (hroutine : t.due_at = none)
    (hparse : parseTimeRange t.description = some r)
    (hallowed : toLowerString t.title ∈ allowedRoutineTitlesOf (buildRoutineSeeds prefs))
    (htuniq : ∀ u ∈ tasks, u.due_at = none →
      toLowerString u.title = toLowerString t.title → u = t)
    (hiduniq : ∀ u ∈ tasks, u.due_at = none → u.id = t.id → u = t) :
    withTimeRange t (normalizeRange r) ∈ reconcile prefs tasks selectedDate ∧
    toBlockingRange (normalizeRange r) ∈
      (applySAFinalState tasks selectedDate (buildRoutineSeeds prefs)
        (routineRangeMapOf (buildRoutineSeeds prefs)) FLEXIBLE_ROUTINE_TITLES
        FOOD_ROUTINE_TITLES).blocking ∧
    (∀ (rbt : String → Option Task) (rm : String → Option TimeRange)
        (ft fd : List String) (st : AdjState) (s : DefaultRoutineSeed)
        (w : Task) (r2 : TimeRange),
      rbt (toLowerString s.title) = some w → parseTimeRange w.description = some r2 →
      adjStep rbt rm ft fd st s =
        { blocking := st.blocking ++ [toBlockingRange (normalizeRange r2)]
          updates := st.updates ++ [(w.id, withTimeRange w (normalizeRange r2))]
          removed := st.removed }) := by
  obtain ⟨htitle, huniq, hwt⟩ := rbt_facts tasks t hmem hroutine htuniq hiduniq
  have hkey : toLowerString t.title ∈
      (buildRoutineSeeds prefs).map (fun s => toLowerString s.title) := hallowed
  obtain ⟨hupd, hrm, hblk⟩ :=
    ((foldl_adjStep_winner
        (lookupRoutineByTitle (tasks.filter (fun task => task.due_at.isNone)))
        (routineRangeMapOf (buildRoutineSeeds prefs)) FLEXIBLE_ROUTINE_TITLES
        FOOD_ROUTINE_TITLES t htitle huniq hwt (buildRoutineSeeds prefs)
        { blocking := ((tasks.filter (fun task => task.due_at.isSome &&
              isTaskWithinRange task (getRangeForDate selectedDate))).filterMap
              (fun task => parseTimeRange task.description)).map normalizeRange
          updates := []
          removed := [] }).2 hkey).1 r hparse
  refine ⟨?_, ?_, ?_⟩
  · refine mem_applySA_of_update tasks selectedDate (buildRoutineSeeds prefs)
      (routineRangeMapOf (buildRoutineSeeds prefs)) FLEXIBLE_ROUTINE_TITLES
      FOOD_ROUTINE_TITLES (allowedRoutineTitlesOf (buildRoutineSeeds prefs)) t _
      hmem hroutine ?_ ?_ ?_
    · exact List.elem_iff.mpr hallowed
    · rw [applySAFinalState_eq]
      exact hrm
    · rw [applySAFinalState_eq]
      exact hupd
  · rw [applySAFinalState_eq]
    exact hblk
  · intro rbt rm ft fd st s w r2 hw hp
    exact adjStep_custom rm ft fd st s hw hp

/-- Witness for C4: a breakfast routine moved to 10:00–10:30, reconciled against
a fixed 08:00–08:45 task, keeps its 10:00–10:30 window. -/
theorem C4_custom_range_passthrough_witness :
    withTimeRange exampleCustomBreakfast
        (normalizeRange { startMinutes := 600, endMinutes := 630 }) ∈
      reconcile DEFAULT_MEAL_PREFERENCES [exampleFixed0800, exampleCustomBreakfast] 0 :=
  (C4_custom_range_passthrough DEFAULT_MEAL_PREFERENCES
    [exampleFixed0800, exampleCustomBreakfast] 0 exampleCustomBreakfast
    { startMinutes := 600, endMinutes := 630 }
    (by decide) (by rfl) (by rfl) (by decide) (by decide) (by decide)).1

/-- **C1 (counterexample).** Two fixed tasks due on the selected day, both
parsed as 08:00–09:00, pass through the Reconciler unchanged: the output
contains two entries with parseable, overlapping time ranges, refuting the
non-overlap invariant. -/
theorem C1_counterexample_fixed_overlap :
    reconcile DEFAULT_MEAL_PREFERENCES [exampleOverlapA, exampleOverlapB] 0 =
      [exampleOverlapA, exampleOverlapB] ∧
    parseTimeRange exampleOverlapA.description =
      some { startMinutes := 480, endMinutes := 540 } ∧
    parseTimeRange exampleOverlapB.description =
      some { startMinutes := 480, endMinutes := 540 } ∧
    rangesOverlap { startMinutes := 480, endMinutes := 540 }
      { startMinutes := 480, endMinutes := 540 } = true ∧
    exampleOverlapA.due_at = some 15 ∧ exampleOverlapB.due_at = some 25 := by
  exact ⟨rfl, rfl, rfl, rfl, rfl, rfl⟩

/-- **C1 (amended).** What the Reconciler does guarantee: the blocking set only
grows during a pass (every fixed-task range stays in force for all later
placements); a flexible placement never overlaps any blocker of the set it is
computed against; and the flexible branch of the per-seed step writes exactly
the placed gap, which overlaps nothing in the current blocking set. Fixed
tasks themselves are passed through unchanged and may overlap each other. -/
theorem C1_nonoverlap_amended :
    (∀ (rbt : String → Option Task) (rm : String → Option TimeRange)
        (ft fd : List String) (seeds : List DefaultRoutineSeed) (st : AdjState)
        (b : TimeRange), b ∈ st.blocking →
        b ∈ (seeds.foldl (adjStep rbt rm ft fd) st).blocking) ∧
    (∀ (bounds : TimeRange) (blockers : List TimeRange) (g : TimeRange),
      adjustFlexibleRange bounds blockers = some g →
      ∀ blk ∈ blockers, rangesOverlap blk g = false) ∧
    (∀ (rbt : String → Option Task) (rm : String → Option TimeRange)
        (ft fd : List String) (st : AdjState) (s : DefaultRoutineSeed)
        (w : Task) (g : TimeRange),
      rbt (toLowerString s.title) = some w →
      parseTimeRange w.description = none →
      fd.contains (toLowerString s.title) = false →
      ft.contains (toLowerString s.title) = true →
      adjustFlexibleRange ((rm (toLowerString s.title)).getD (seedToRange s))
          st.blocking = some g →
      (adjStep rbt rm ft fd st s).updates =
          st.updates ++ [(w.id, withTimeRange w g)] ∧
        ∀ b ∈ st.blocking, rangesOverlap b g = false) := by
  refine ⟨?_, ?_, ?_⟩
  · intro rbt rm ft fd seeds st b hb
    exact foldl_adjStep_blocking_mono rbt rm ft fd seeds st b hb
  · intro bounds blockers g hg
    exact ((findLargestGap_spec bounds blockers).1 g hg).2
  · intro rbt rm ft fd st s w g hw hp hfd hft hg
    constructor
    · rw [adjStep_flex_some rm ft fd st s hw hp hfd hft hg]
    · exact ((findLargestGap_spec _ st.blocking).1 g hg).2

/-- Witness for the amended C1: the gap 10:00–14:00 placed in the window
09:00–14:00 against the blocker 09:00–10:00 does not overlap that blocker. -/
theorem C1_nonoverlap_amended_witness :
    rangesOverlap { startMinutes := 540, endMinutes := 600 }
      { startMinutes := 600, endMinutes := 840 } = false :=
  C1_nonoverlap_amended.2.1 { startMinutes := 540, endMinutes := 840 }
    [{ startMinutes := 540, endMinutes := 600 }]
    { startMinutes := 600, endMinutes := 840 } (by rfl)
    { startMinutes := 540, endMinutes := 600 } (by decide)

/-- The per-routine outcome of a full pass, for a routine that is the unique
holder of its title and id and whose title is a seed key. -/
theorem applySA_winner_facts (tasks : List Task) (sd : Int)
    (seeds : List DefaultRoutineSeed) (rm : String → Option TimeRange)
    (ft fd : List String) (t : Task)
    (hmem : t ∈ tasks) (hroutine : t.due_at = none)
    (htuniq : ∀ u ∈ tasks, u.due_at = none →
      toLowerString u.title = toLowerString t.title → u = t)
    (hiduniq : ∀ u ∈ tasks, u.due_at = none → u.id = t.id → u = t)
    (hkey : toLowerString t.title ∈ seeds.map (fun s => toLowerString s.title)) :
    (∀ r, parseTimeRange t.description = some r →
      getUpdate (applySAFinalState tasks sd seeds rm ft fd).updates t.id =
          some (withTimeRange t (normalizeRange r)) ∧
        (applySAFinalState tasks sd seeds rm ft fd).removed.contains t.id = false) ∧
    (parseTimeRange t.description = none →
      getUpdate (applySAFinalState tasks sd seeds rm ft fd).updates t.id ≠ none ∨
        (applySAFinalState tasks sd seeds rm ft fd).removed.contains t.id = true) := by
  obtain ⟨htitle, huniq, hwt⟩ := rbt_facts tasks t hmem hroutine htuniq hiduniq
  have hwinner := foldl_adjStep_winner
    (lookupRoutineByTitle (tasks.filter (fun task => task.due_at.isNone)))
    rm ft fd t htitle huniq hwt seeds
    { blocking := ((tasks.filter (fun task => task.due_at.isSome &&
          isTaskWithinRange task (getRangeForDate sd))).filterMap
          (fun task => parseTimeRange task.description)).map normalizeRange
      updates := []
      removed := [] }
  constructor
  · intro r hp
    obtain ⟨h1, h2, -⟩ := (hwinner.2 hkey).1 r hp
    rw [applySAFinalState_eq]
    exact ⟨h1, h2⟩
  · intro hp
    rw [applySAFinalState_eq]
    exact (hwinner.2 hkey).2 hp

/-- Every update binding of a pass re-injects some winner with some range. -/
theorem applySA_prov (tasks : List Task) (sd : Int) (seeds : List DefaultRoutineSeed)
    (rm : String → Option TimeRange) (ft fd : List String) :
    ∀ p ∈ (applySAFinalState tasks sd seeds rm ft fd).updates,
      ∃ w ρ, p.1 = w.id ∧ p.2 = withTimeRange w ρ ∧
        lookupRoutineByTitle (tasks.filter (fun task => task.due_at.isNone))
          (toLowerString w.title) = some w := by
  rw [applySAFinalState_eq]
  refine foldl_adjStep_prov _ rm ft fd
    (fun k w h => (lookupRoutineByTitle_some h).2) seeds _ ?_
  intro p hp
  simp at hp

/-- When every routine of the input parses, the pass removes nothing. -/
theorem applySA_removed_all_parse (tasks : List Task) (sd : Int)
    (seeds : List DefaultRoutineSeed) (rm : String → Option TimeRange)
    (ft fd : List String)
    (hall : ∀ k w, lookupRoutineByTitle (tasks.filter (fun task => task.due_at.isNone)) k =
      some w → parseTimeRange w.description ≠ none) :
    (applySAFinalState tasks sd seeds rm ft fd).removed = [] := by
  rw [applySAFinalState_eq]
  exact foldl_adjStep_removed_all_parse _ rm ft fd hall seeds _

/-- A second reconciler pass over its own output is the identity, given
distinct ids and per-title-unique routines in the input. -/
theorem applySA_second_pass (tasks : List Task) (sd : Int)
    (seeds : List DefaultRoutineSeed) (rm : String → Option TimeRange)
    (ft fd : List String)
    (hids : ∀ u ∈ tasks, ∀ v ∈ tasks, u.id = v.id → u = v)
    (htitles : ∀ u ∈ tasks, ∀ v ∈ tasks, u.due_at = none → v.due_at = none →
      toLowerString u.title = toLowerString v.title → u = v) :
    applyScheduleAdjustments
        (applyScheduleAdjustments tasks sd seeds rm ft fd
          (seeds.map (fun s => toLowerString s.title)))
        sd seeds rm ft fd (seeds.map (fun s => toLowerString s.title)) =
      applyScheduleAdjustments tasks sd seeds rm ft fd
        (seeds.map (fun s => toLowerString s.title)) := by
  have hchar : ∀ u, u ∈ applyScheduleAdjustments tasks sd seeds rm ft fd
      (seeds.map (fun s => toLowerString s.title)) → u.due_at = none →
      ∃ a ρ, a ∈ tasks ∧ a.due_at = none ∧
        (seeds.map (fun s => toLowerString s.title)).contains (toLowerString a.title) =
          true ∧
        u = (getUpdate (applySAFinalState tasks sd seeds rm ft fd).updates a.id).getD a ∧
        u = withTimeRange a ρ := by
    intro u hu hdue
    rw [applySA_unfold] at hu
    obtain ⟨a, haf, hFa⟩ := List.mem_map.mp hu
    obtain ⟨hamem, hPa⟩ := List.mem_filter.mp haf
    cases had : a.due_at with
    | some d =>
        simp only [had] at hFa
        rw [hFa] at had
        rw [hdue] at had
        exact Option.noConfusion had
    | none =>
        simp only [had] at hPa hFa
        rw [Bool.and_eq_true] at hPa
        obtain ⟨hallow, hnotrm⟩ := hPa
        cases hgu : getUpdate (applySAFinalState tasks sd seeds rm ft fd).updates a.id with
        | none =>
            have hauniq_t : ∀ v ∈ tasks, v.due_at = none →
                toLowerString v.title = toLowerString a.title → v = a :=
              fun v hv hvd hvk => htitles v hv a hamem hvd had hvk
            have hauniq_i : ∀ v ∈ tasks, v.due_at = none → v.id = a.id → v = a :=
              fun v hv _ hvid => hids v hv a hamem hvid
            have hkey : toLowerString a.title ∈
                seeds.map (fun s => toLowerString s.title) := List.elem_iff.mp hallow
            have hwf := applySA_winner_facts tasks sd seeds rm ft fd a hamem had
              hauniq_t hauniq_i hkey
            cases hap : parseTimeRange a.description with
            | some r =>
                have h1 := (hwf.1 r hap).1
                rw [h1] at hgu
                exact Option.noConfusion hgu
            | none =>
                rcases hwf.2 hap with h | h
                · exact absurd hgu h
                · rw [h] at hnotrm
                  simp at hnotrm
        | some u2 =>
            have hpmem := getUpdate_some_mem hgu
            obtain ⟨w, ρ, hw1, hw2, hw3⟩ :=
              applySA_prov tasks sd seeds rm ft fd (a.id, u2) hpmem
            have hw1a : a.id = w.id := hw1
            have hw2a : u2 = withTimeRange w ρ := hw2
            obtain ⟨hwmem, -⟩ := lookupRoutineByTitle_some hw3
            obtain ⟨hwtask, hwdue0⟩ := List.mem_filter.mp hwmem
            have hwdue : w.due_at = none := Option.isNone_iff_eq_none.mp hwdue0
            have hwa : w = a := hids w hwtask a hamem hw1a.symm
            have hu2u : u2 = u := by
              rw [hgu, Option.getD_some] at hFa
              exact hFa
            refine ⟨a, ρ, hamem, had, hallow, ?_, ?_⟩
            · rw [hgu, Option.getD_some]
              exact hu2u.symm
            · rw [← hu2u, hw2a, hwa]
  have hprops : ∀ u, u ∈ applyScheduleAdjustments tasks sd seeds rm ft fd
      (seeds.map (fun s => toLowerString s.title)) → u.due_at = none →
      (seeds.map (fun s => toLowerString s.title)).contains (toLowerString u.title) =
        true ∧
      ∃ ρ, parseTimeRange u.description = some (roundTripRange ρ) ∧
        withTimeRange u (roundTripRange ρ) = u := by
    intro u hu hdue
    obtain ⟨a, ρ, hat, had, hallow, -, hwtr⟩ := hchar u hu hdue
    have hdesc : u.description =
        some (injectTimeMetadata (some (sanitizeDescription a.description)) ρ) := by
      rw [hwtr, withTimeRange_description]
    refine ⟨?_, ρ, ?_, ?_⟩
    · rw [hwtr, withTimeRange_title]
      exact hallow
    · rw [hdesc]
      exact parseTimeRange_injectTimeMetadata _ ρ
    · exact withTimeRange_roundTrip_self hdesc
  have hids2 : ∀ u, u ∈ applyScheduleAdjustments tasks sd seeds rm ft fd
      (seeds.map (fun s => toLowerString s.title)) →
      ∀ v, v ∈ applyScheduleAdjustments tasks sd seeds rm ft fd
        (seeds.map (fun s => toLowerString s.title)) →
      u.due_at = none → v.due_at = none → u.id = v.id → u = v := by
    intro u hu v hv hud hvd hid
    obtain ⟨a, ρa, hat, had, -, hgua, hwa⟩ := hchar u hu hud
    obtain ⟨b, ρb, hbt, hbd, -, hgub, hwb⟩ := hchar v hv hvd
    have hua : u.id = a.id := by rw [hwa, withTimeRange_id]
    have hvb : v.id = b.id := by rw [hwb, withTimeRange_id]
    have hab : a = b := hids a hat b hbt (by rw [← hua, ← hvb]; exact hid)
    rw [hgua, hgub, hab]
  have htitles2 : ∀ u, u ∈ applyScheduleAdjustments tasks sd seeds rm ft fd
      (seeds.map (fun s => toLowerString s.title)) →
      ∀ v, v ∈ applyScheduleAdjustments tasks sd seeds rm ft fd
        (seeds.map (fun s => toLowerString s.title)) →
      u.due_at = none → v.due_at = none →
      toLowerString u.title = toLowerString v.title → u = v := by
    intro u hu v hv hud hvd hk
    obtain ⟨a, ρa, hat, had, -, hgua, hwa⟩ := hchar u hu hud
    obtain ⟨b, ρb, hbt, hbd, -, hgub, hwb⟩ := hchar v hv hvd
    have hua : u.title = a.title := by rw [hwa, withTimeRange_title]
    have hvb : v.title = b.title := by rw [hwb, withTimeRange_title]
    have hab : a = b := htitles a hat b hbt had hbd (by rw [← hua, ← hvb]; exact hk)
    rw [hgua, hgub, hab]
  set out1 := applyScheduleAdjustments tasks sd seeds rm ft fd
    (seeds.map (fun s => toLowerString s.title)) with hout1
  have hall2 : ∀ k w, lookupRoutineByTitle
      (out1.filter (fun task => task.due_at.isNone)) k = some w →
      parseTimeRange w.description ≠ none := by
    intro k w h hnone
    obtain ⟨hw1, -⟩ := lookupRoutineByTitle_some h
    obtain ⟨hwo, hwd0⟩ := List.mem_filter.mp hw1
    have hwd : w.due_at = none := Option.isNone_iff_eq_none.mp hwd0
    obtain ⟨-, ρ, hp, -⟩ := hprops w hwo hwd
    rw [hp] at hnone
    exact Option.noConfusion hnone
  have hrm2 : (applySAFinalState out1 sd seeds rm ft fd).removed = [] :=
    applySA_removed_all_parse out1 sd seeds rm ft fd hall2
  rw [applySA_unfold]
  have hfeq : out1.filter (fun task =>
      match task.due_at with
      | none => (seeds.map (fun s => toLowerString s.title)).contains
            (toLowerString task.title) &&
          !((applySAFinalState out1 sd seeds rm ft fd).removed.contains task.id)
      | some _ => true) = out1 := by
    refine List.filter_eq_self.mpr ?_
    intro u hu
    cases hud : u.due_at with
    | some d => simp only [hud]
    | none =>
        simp only [hud, hrm2]
        rw [(hprops u hu hud).1]
        rfl
  rw [hfeq]
  refine map_eq_self_of_mem ?_
  intro u hu
  cases hud : u.due_at with
  | some d => simp only [hud]
  | none =>
      simp only [hud]
      obtain ⟨hallow1, ρ, hp, hself⟩ := hprops u hu hud
      have huniq_t2 : ∀ v ∈ out1, v.due_at = none →
          toLowerString v.title = toLowerString u.title → v = u :=
        fun v hv hvd hvk => htitles2 v hv u hu hvd hud hvk
      have huniq_i2 : ∀ v ∈ out1, v.due_at = none → v.id = u.id → v = u :=
        fun v hv hvd hvid => hids2 v hv u hu hvd hud hvid
      have hkey2 : toLowerString u.title ∈ seeds.map (fun s => toLowerString s.title) :=
        List.elem_iff.mp hallow1
      have hwf2 := applySA_winner_facts out1 sd seeds rm ft fd u hu hud
        huniq_t2 huniq_i2 hkey2
      obtain ⟨hgu2, -⟩ := hwf2.1 (roundTripRange ρ) hp
      rw [hgu2, Option.getD_some, normalizeRange_roundTripRange]
      exact hself

/-- **C5 (counterexample).** With a fixed task covering 05:00–08:00 and two
routines both titled "Schedule any work (early)", the first pass drops one
duplicate and the second pass drops the other: reconciliation is not
idempotent on task lists with duplicate routine titles. -/
theorem C5_counterexample_second_pass_drops :
    reconcile DEFAULT_MEAL_PREFERENCES
        [exampleFixedCover, exampleDupEarlyA, exampleDupEarlyB] 0 =
      [exampleFixedCover, exampleDupEarlyA] ∧
    reconcile DEFAULT_MEAL_PREFERENCES [exampleFixedCover, exampleDupEarlyA] 0 =
      [exampleFixedCover] := by
  exact ⟨rfl, rfl⟩

/-- **C5 (amended).** Reconciliation is idempotent on well-formed task lists:
if the tasks have pairwise-distinct ids and no two routines share a lowercased
title, a second pass over the Reconciler's own output (with the same fixed
tasks) is the identity — every placed range survives unchanged and no further
routine is dropped. -/
theorem C5_idempotence_amended (prefs : MealPreferences) (tasks : List Task) (sd : Int)
    (hids : ∀ u ∈ tasks, ∀ v ∈ tasks, u.id = v.id → u = v)
    (htitles : ∀ u ∈ tasks, ∀ v ∈ tasks, u.due_at = none → v.due_at = none →
      toLowerString u.title = toLowerString v.title → u = v) :
    reconcile prefs (reconcile prefs tasks sd) sd = reconcile prefs tasks sd :=
  applySA_second_pass tasks sd (buildRoutineSeeds prefs)
    (routineRangeMapOf (buildRoutineSeeds prefs)) FLEXIBLE_ROUTINE_TITLES
    FOOD_ROUTINE_TITLES hids htitles

/-- Witness for the amended C5: a fixed 08:00–08:45 task and a breakfast
routine — reconciling the reconciled list reproduces it exactly. -/
theorem C5_idempotence_amended_witness :
    reconcile DEFAULT_MEAL_PREFERENCES
        (reconcile DEFAULT_MEAL_PREFERENCES
          [exampleFixed0800, exampleBreakfastRoutine] 0) 0 =
      reconcile DEFAULT_MEAL_PREFERENCES [exampleFixed0800, exampleBreakfastRoutine] 0 :=
  C5_idempotence_amended DEFAULT_MEAL_PREFERENCES
    [exampleFixed0800, exampleBreakfastRoutine] 0 (by decide) (by decide)

/-- **C6 (counterexample).** With the edited routine ending at 10:00 and the
boundary anchor starting at 10:01, the single sibling (originally 10:00–11:00)
is written back as the one-minute window 10:00–10:01 — shorter than the
two-minute floor `MIN_ROUTINE_MINUTES`, refuting the claim that no written-back
sibling window is ever shorter than the floor. -/
theorem C6_counterexample_floor_violation :
    cascadeAdjustments 600 601 [{ startMinutes := 600, endMinutes := 660 }] =
      [{ startMinutes := 600, endMinutes := 601 }] ∧
    (601 : Int) - 600 < MIN_ROUTINE_MINUTES := by
  exact ⟨rfl, by decide⟩

/-- **C6 (amended).** For every edited end, boundary start and target list, the
cascade's output windows satisfy: each is non-degenerate, ends by the boundary
start, and lasts at least `min MIN_ROUTINE_MINUTES (boundaryStart - start)`
minutes (so a sibling may drop below the two-minute floor only when fewer than
two minutes remain to the boundary); the last window's end is pinned exactly to
the boundary start; consecutive windows are adjacent (each ends where the next
starts); and the first window starts at `min sourceEnd boundaryStart`. -/
theorem C6_cascade_floor_amended (sourceEnd boundaryStart : Int)
    (targets : List TimeRange) :
    (∀ w ∈ cascadeAdjustments sourceEnd boundaryStart targets,
        w.startMinutes < w.endMinutes ∧ w.endMinutes ≤ boundaryStart ∧
        min MIN_ROUTINE_MINUTES (boundaryStart - w.startMinutes) ≤
          w.endMinutes - w.startMinutes) ∧
    (∀ w, (cascadeAdjustments sourceEnd boundaryStart targets).getLast? = some w →
        w.endMinutes = boundaryStart) ∧
    List.Chain' (fun a b => a.endMinutes = b.startMinutes)
      (cascadeAdjustments sourceEnd boundaryStart targets) ∧
    (∀ w, (cascadeAdjustments sourceEnd boundaryStart targets).head? = some w →
        w.startMinutes = min sourceEnd boundaryStart) := by
  refine ⟨?_, ?_, ?_, ?_⟩
  · intro w hw
    obtain ⟨v, hv, h3, h4, h5⟩ := mem_pinLast boundaryStart _ w hw
    obtain ⟨p1, p2, p3, p4⟩ := cascadeLoop_props boundaryStart targets _ v hv
    refine ⟨by omega, ?_, by omega⟩
    rcases h5 with h5 | h5 <;> omega
  · intro w hw
    exact pinLast_getLast boundaryStart _
      (fun v hv => (cascadeLoop_props boundaryStart targets _ v hv).2.2.1) w hw
  · exact pinLast_chain boundaryStart _ (cascadeLoop_chain boundaryStart targets _)
  · intro w hw
    obtain ⟨v, hv, hstart⟩ := pinLast_head boundaryStart _ w hw
    rw [hstart]
    exact cascadeLoop_head boundaryStart _ targets v hv

/-- Witness for the amended C6: edited routine ending 08:00, boundary at 10:00,
two siblings originally 08:00–08:40 and 08:40–09:20; the cascade reproduces the
first and stretches the second to the boundary, whose end is pinned to 10:00. -/
theorem C6_cascade_floor_amended_witness :
    ({ startMinutes := 520, endMinutes := 600 } : TimeRange).endMinutes = 600 ∧
    ({ startMinutes := 480, endMinutes := 520 } : TimeRange).startMinutes =
      min 480 600 := by
  constructor
  · exact (C6_cascade_floor_amended 480 600
      [{ startMinutes := 480, endMinutes := 520 },
       { startMinutes := 520, endMinutes := 560 }]).2.1
      { startMinutes := 520, endMinutes := 600 } (by rfl)
  · exact (C6_cascade_floor_amended 480 600
      [{ startMinutes := 480, endMinutes := 520 },
       { startMinutes := 520, endMinutes := 560 }]).2.2.2
      { startMinutes := 480, endMinutes := 520 } (by rfl)

end TodoApp
